import Mathlib

/-!
# Silkworm block execution core: processor and write-back buffer

A shallow embedding of `silkworm/execution/processor.cpp`,
`silkworm/execution/execution.cpp` and `silkworm/db/buffer.cpp`.

Machine integers are natural numbers; every C++ operation that can wrap is
written with an explicit reduction modulo `2^64`, `2^128`, `2^256` or `2^512`.
A function that throws returns the object it was working on together with an
`Except` value, so that the state left behind by a `throw` can be inspected.
-/

namespace Silkworm

/-! ## Basic types -/

/-- A 20-byte address, read as a big-endian number. -/
abbrev Address := Nat

/-- A 32-byte hash (`evmc::bytes32`), read as a big-endian number. -/
abbrev Hash := Nat

/-- An octet sequence. -/
abbrev Bytes := List Nat

/-- Modulus of `uint64_t`. -/
def kU64 : Nat := 2 ^ 64

/-- Modulus of `intx::uint128`. -/
def kU128 : Nat := 2 ^ 128

/-- Modulus of `intx::uint256`. -/
def kU256 : Nat := 2 ^ 256

/-- Modulus of `intx::uint512`. -/
def kU512 : Nat := 2 ^ 256 * 2 ^ 256

/-- Wrapping subtraction `a - b` of two values of an unsigned type of modulus `m`. -/
def wsub (m a b : Nat) : Nat := (a + m - b % m) % m

/-- `*opt` for an optional address. The callers modelled here only dereference an engaged
optional; the value returned for a disengaged one is never observed. -/
def deref (o : Option Address) : Address := o.getD 0

/-- The `ValidationError` exception with its reason string. -/
structure ValidationError where
  what : String
deriving DecidableEq, Repr

/-- A log entry. -/
structure Log where
  address : Address
  topics : List Hash
  data : Bytes
deriving DecidableEq, Repr

/-- A transaction, with the fields the processor reads. The C++ fields `to` and `from` are
named `to_` and `from_` here. -/
structure Transaction where
  nonce : Nat
  gas_price : Nat
  gas_limit : Nat
  to_ : Option Address
  value : Nat
  data : Bytes
  from_ : Option Address
deriving DecidableEq, Repr

/-- The fields of a transaction fit their C++ types: `nonce` and `gas_limit` are `uint64_t`,
`gas_price` and `value` are `intx::uint256`, and the length of `data` is a `size_t`. -/
def Transaction.WellTyped (t : Transaction) : Prop :=
  t.nonce < kU64 ∧ t.gas_limit < kU64 ∧ t.gas_price < kU256 ∧ t.value < kU256 ∧
    t.data.length < kU64

instance (t : Transaction) : Decidable t.WellTyped := by
  unfold Transaction.WellTyped; infer_instance

/-- A block header, with the fields the processor reads. -/
structure BlockHeader where
  number : Nat
  beneficiary : Address
  gas_limit : Nat
  gas_used : Nat
  receipts_root : Hash
deriving DecidableEq, Repr

/-- A block. -/
structure Block where
  header : BlockHeader
  transactions : List Transaction
  ommers : List BlockHeader
deriving DecidableEq, Repr

/-- A transaction receipt. -/
structure Receipt where
  success : Bool
  cumulative_gas_used : Nat
  bloom : Bytes
  logs : List Log
deriving DecidableEq, Repr

/-- The result of an interpreter run. -/
structure CallResult where
  status : Nat
  gas_left : Nat
deriving DecidableEq, Repr

/-- The status code of a successful interpreter run. -/
def EVMC_SUCCESS : Nat := 0

/-- The chain configuration: fork activation predicates and the two special block numbers.
It is declared in `config.hpp`, outside the files modelled here, and is consumed as a value. -/
structure ChainConfig where
  has_homestead : Nat → Bool
  has_spurious_dragon : Nat → Bool
  has_byzantium : Nat → Bool
  has_constantinople : Nat → Bool
  has_istanbul : Nat → Bool
  dao_block : Option Nat
  ripemd_deletion_block : Option Nat

/-- The constants of namespace `fee`, declared in `protocol_param.hpp`, outside the files
modelled here; they are taken as parameters. -/
structure FeeSchedule where
  kGTransaction : Nat
  kGTxCreate : Nat
  kGTxDataZero : Nat
  kGTxDataNonZeroFrontier : Nat
  kGTxDataNonZeroIstanbul : Nat
deriving DecidableEq, Repr

/-- Every fee constant is a `uint64_t`. -/
def FeeSchedule.IsU64 (f : FeeSchedule) : Prop :=
  f.kGTransaction < kU64 ∧ f.kGTxCreate < kU64 ∧ f.kGTxDataZero < kU64 ∧
    f.kGTxDataNonZeroFrontier < kU64 ∧ f.kGTxDataNonZeroIstanbul < kU64

instance (f : FeeSchedule) : Decidable f.IsU64 := by
  unfold FeeSchedule.IsU64; infer_instance

/-- The block reward constants of namespace `param`, declared in `protocol_param.hpp`, outside
the files modelled here; they are taken as parameters. -/
structure RewardSchedule where
  kFrontierBlockReward : Nat
  kByzantiumBlockReward : Nat
  kConstantinopleBlockReward : Nat
deriving DecidableEq, Repr

/-- The collaborators of the processor, whose code lies outside the files modelled here, taken
as parameters: the operations of `IntraBlockState` on a state of type `σ`, the interpreter entry
point `evm_.execute`, `logs_bloom`, `dao::transfer_balances`, `trie::root_hash`, and the fee and
reward constants. -/
structure Env (σ : Type) where
  get_nonce : σ → Address → Nat
  get_balance : σ → Address → Nat
  subtract_from_balance : σ → Address → Nat → σ
  add_to_balance : σ → Address → Nat → σ
  set_nonce : σ → Address → Nat → σ
  clear_journal_and_substate : σ → σ
  total_refund : σ → Nat
  destruct_suicides : σ → σ
  destruct_touched_dead : σ → σ
  finalize_transaction : σ → σ
  logs : σ → List Log
  destruct : σ → Address → σ
  write_to_db : σ → Nat → σ
  execute : σ → Transaction → Nat → σ × CallResult
  logs_bloom : List Log → Bytes
  transfer_balances : σ → σ
  root_hash : List Receipt → Hash
  fee : FeeSchedule
  param : RewardSchedule

/-- A call of the processor into one of its collaborators, recorded for reasoning only. -/
inductive Event where
  | subtract_from_balance (address : Address) (amount : Nat)
  | add_to_balance (address : Address) (amount : Nat)
  | evm_execute (gas : Nat)
  | apply_rewards
  | write_to_db (block_num : Nat)
deriving DecidableEq, Repr

/-- The `ExecutionProcessor` object: the block, the state and the configuration held by its
`evm_` member, and the counter `cumulative_gas_used_`. Two further fields exist for reasoning
only and are never read by the code: `trace` lists, in order, the calls made to
`subtract_from_balance`, `add_to_balance`, the interpreter, `apply_rewards` and
`state.write_to_db`, and `gas_log` lists every transaction that reached
`cumulative_gas_used_ += gas_used`, paired with the value of its local `gas_used`. -/
structure ExecutionProcessor (σ : Type) where
  block : Block
  state : σ
  config : ChainConfig
  cumulative_gas_used_ : Nat
  trace : List Event
  gas_log : List (Transaction × Nat)

/-- The call `evm_.state().subtract_from_balance(address, amount)`, recorded in the trace. -/
def ExecutionProcessor.state_subtract_from_balance {σ : Type} (p : ExecutionProcessor σ)
    (env : Env σ) (address : Address) (amount : Nat) : ExecutionProcessor σ :=
  { p with state := env.subtract_from_balance p.state address amount
           trace := p.trace ++ [Event.subtract_from_balance address amount] }

/-- The call `evm_.state().add_to_balance(address, amount)`, recorded in the trace. -/
def ExecutionProcessor.state_add_to_balance {σ : Type} (p : ExecutionProcessor σ)
    (env : Env σ) (address : Address) (amount : Nat) : ExecutionProcessor σ :=
  { p with state := env.add_to_balance p.state address amount
           trace := p.trace ++ [Event.add_to_balance address amount] }

/-- The call `evm_.execute(txn, gas)`, recorded in the trace; returns the interpreter result. -/
def ExecutionProcessor.evm_execute {σ : Type} (p : ExecutionProcessor σ) (env : Env σ)
    (txn : Transaction) (gas : Nat) : ExecutionProcessor σ × CallResult :=
  ({ p with state := (env.execute p.state txn gas).1
            trace := p.trace ++ [Event.evm_execute gas] }, (env.execute p.state txn gas).2)

/-! ## processor.cpp -/

/-- The function `intrinsic_gas` of processor.cpp, in 128-bit arithmetic. -/
def intrinsic_gas (fee : FeeSchedule) (txn : Transaction) (homestead istanbul : Bool) : Nat :=
  let gas := fee.kGTransaction % kU128
  let gas := if txn.to_.isNone && homestead then (gas + fee.kGTxCreate) % kU128 else gas
  if txn.data.isEmpty then gas
  else
    let non_zero_bytes := (txn.data.countP (fun c => c != 0)) % kU128
    let nonZeroGas := (if istanbul then fee.kGTxDataNonZeroIstanbul
      else fee.kGTxDataNonZeroFrontier) % kU64
    let gas := (gas + (non_zero_bytes * nonZeroGas) % kU128) % kU128
    let zero_bytes := wsub kU128 (txn.data.length % kU64) non_zero_bytes
    let gas := (gas + (zero_bytes * fee.kGTxDataZero) % kU128) % kU128
    gas

/-- The method `ExecutionProcessor::available_gas`. -/
def ExecutionProcessor.available_gas {σ : Type} (p : ExecutionProcessor σ) : Nat :=
  wsub kU64 p.block.header.gas_limit p.cumulative_gas_used_

/-- The method `ExecutionProcessor::refund_gas`: returns the processor with the sender credited
and the value returned by the C++ method. -/
def ExecutionProcessor.refund_gas {σ : Type} (p : ExecutionProcessor σ) (env : Env σ)
    (txn : Transaction) (gas_left : Nat) : ExecutionProcessor σ × Nat :=
  let refund := min (wsub kU64 txn.gas_limit gas_left / 2) (env.total_refund p.state)
  let gas_left := (gas_left + refund) % kU64
  (p.state_add_to_balance env (deref txn.from_) ((gas_left * txn.gas_price) % kU256), gas_left)

/-- Lines 97 to 126 of `ExecutionProcessor::execute_transaction`: what the method does once
the five preflight checks have passed. The arguments `nonce`, `g0` and `spurious_dragon` are the
locals of that name computed before the checks. -/
def ExecutionProcessor.execute_checked {σ : Type} (p : ExecutionProcessor σ) (env : Env σ)
    (txn : Transaction) (nonce g0 : Nat) (spurious_dragon : Bool) :
    ExecutionProcessor σ × Receipt :=
  let gas_cost := (txn.gas_limit * txn.gas_price) % kU512
  let p1 := p.state_subtract_from_balance env (deref txn.from_) (gas_cost % kU256)
  let p2 : ExecutionProcessor σ :=
    if txn.to_.isSome then
      { p1 with state := env.set_nonce p1.state (deref txn.from_) ((nonce + 1) % kU64) }
    else p1
  let p3 : ExecutionProcessor σ :=
    { p2 with state := env.clear_journal_and_substate p2.state }
  let run := p3.evm_execute env txn (wsub kU64 txn.gas_limit (g0 % kU64))
  let vm_res := run.2
  let refunded := run.1.refund_gas env txn vm_res.gas_left
  let gas_used := wsub kU64 txn.gas_limit refunded.2
  let p4 := refunded.1.state_add_to_balance env p.block.header.beneficiary
    ((gas_used * txn.gas_price) % kU256)
  let s := env.destruct_suicides p4.state
  let s := if spurious_dragon then env.destruct_touched_dead s else s
  let s := env.finalize_transaction s
  let cumulative := (p4.cumulative_gas_used_ + gas_used) % kU64
  ({ p4 with state := s, cumulative_gas_used_ := cumulative,
             gas_log := p4.gas_log ++ [(txn, gas_used)] },
    { success := vm_res.status == EVMC_SUCCESS
      cumulative_gas_used := cumulative
      bloom := env.logs_bloom (env.logs s)
      logs := env.logs s })

/-- The method `ExecutionProcessor::execute_transaction`: the five preflight checks, each of
which throws, followed by the rest of the method (`execute_checked`). -/
def ExecutionProcessor.execute_transaction {σ : Type} (p : ExecutionProcessor σ) (env : Env σ)
    (txn : Transaction) :
    ExecutionProcessor σ × Except ValidationError Receipt :=
  if txn.from_.isNone then (p, .error ⟨"missing sender"⟩)
  else
    let nonce := env.get_nonce p.state (deref txn.from_)
    if nonce ≠ txn.nonce then (p, .error ⟨"invalid nonce"⟩)
    else
      let block_number := p.block.header.number
      let homestead := p.config.has_homestead block_number
      let spurious_dragon := p.config.has_spurious_dragon block_number
      let istanbul := p.config.has_istanbul block_number
      let g0 := intrinsic_gas env.fee txn homestead istanbul
      if txn.gas_limit < g0 then (p, .error ⟨"intrinsic gas"⟩)
      else
        let gas_cost := (txn.gas_limit * txn.gas_price) % kU512
        let v0 := (gas_cost + txn.value) % kU512
        if env.get_balance p.state (deref txn.from_) < v0 then
          (p, .error ⟨"insufficient funds"⟩)
        else if p.available_gas < txn.gas_limit then
          (p, .error ⟨"block gas limit reached"⟩)
        else
          let done := p.execute_checked env txn nonce g0 spurious_dragon
          (done.1, .ok done.2)

/-- The loop of `ExecutionProcessor::execute_block` over the transactions still to run;
`receipts` is the vector filled so far. A `throw` of `execute_transaction` leaves the loop. -/
def ExecutionProcessor.execute_transactions {σ : Type} (p : ExecutionProcessor σ) (env : Env σ) :
    List Transaction → List Receipt → ExecutionProcessor σ × Except ValidationError (List Receipt)
  | [], receipts => (p, .ok receipts)
  | txn :: rest, receipts =>
    match p.execute_transaction env txn with
    | (p1, .error e) => (p1, .error e)
    | (p1, .ok receipt) => execute_transactions p1 env rest (receipts ++ [receipt])

/-- The reward of one ommer, as computed in the loop of `apply_rewards`. -/
def ommer_reward (block_number block_reward : Nat) (ommer : BlockHeader) : Nat :=
  ((wsub kU64 ((8 + ommer.number) % kU64) block_number * block_reward) % kU256) / 2 ^ 3

/-- The fork-selected block reward of `apply_rewards`. -/
def block_reward {σ : Type} (env : Env σ) (config : ChainConfig) (block_number : Nat) : Nat :=
  if config.has_constantinople block_number then env.param.kConstantinopleBlockReward
  else if config.has_byzantium block_number then env.param.kByzantiumBlockReward
  else env.param.kFrontierBlockReward

/-- The method `ExecutionProcessor::apply_rewards`. The loop over the ommers carries the
processor and the local `miner_reward`. -/
def ExecutionProcessor.apply_rewards {σ : Type} (p : ExecutionProcessor σ) (env : Env σ) :
    ExecutionProcessor σ :=
  let p0 : ExecutionProcessor σ := { p with trace := p.trace ++ [Event.apply_rewards] }
  let block_number := p0.block.header.number
  let block_reward := block_reward env p0.config block_number % kU256
  let acc := p0.block.ommers.foldl
    (fun (acc : ExecutionProcessor σ × Nat) ommer =>
      (acc.1.state_add_to_balance env ommer.beneficiary
          (ommer_reward block_number block_reward ommer),
        (acc.2 + block_reward / 32) % kU256))
    (p0, block_reward)
  acc.1.state_add_to_balance env p0.block.header.beneficiary acc.2

/-- The address `0x0000000000000000000000000000000000000003`. -/
def kRipemdAddress : Address := 3

/-- Lines 141 to 146 of `ExecutionProcessor::execute_block`: the DAO transfer at the DAO
block and the reset of `cumulative_gas_used_`. -/
def ExecutionProcessor.start_block {σ : Type} (p : ExecutionProcessor σ) (env : Env σ) :
    ExecutionProcessor σ :=
  let block_num := p.block.header.number
  let p0 : ExecutionProcessor σ :=
    if some block_num = p.config.dao_block then { p with state := env.transfer_balances p.state }
    else p
  { p0 with cumulative_gas_used_ := 0 }

/-- Lines 151 to 159 of `ExecutionProcessor::execute_block`: the rewards, the deletion of the
RIPEMD account at its block, and `state.write_to_db`. -/
def ExecutionProcessor.finish_block {σ : Type} (p : ExecutionProcessor σ) (env : Env σ) :
    ExecutionProcessor σ :=
  let block_num := p.block.header.number
  let p3 := p.apply_rewards env
  let p4 : ExecutionProcessor σ :=
    if some block_num = p3.config.ripemd_deletion_block then
      { p3 with state := env.destruct p3.state kRipemdAddress }
    else p3
  { p4 with state := env.write_to_db p4.state block_num
            trace := p4.trace ++ [Event.write_to_db block_num] }

/-- The method `ExecutionProcessor::execute_block`: `start_block`, the loop over the
transactions, which a `throw` of `execute_transaction` leaves at once, and `finish_block`. -/
def ExecutionProcessor.execute_block {σ : Type} (p : ExecutionProcessor σ) (env : Env σ) :
    ExecutionProcessor σ × Except ValidationError (List Receipt) :=
  match (p.start_block env).execute_transactions env p.block.transactions [] with
  | (p2, .error e) => (p2, .error e)
  | (p2, .ok receipts) => (p2.finish_block env, .ok receipts)

/-! ## execution.cpp -/

/-- The constructor of `ExecutionProcessor`; the counter starts at zero. -/
def ExecutionProcessor.new {σ : Type} (block : Block) (state : σ) (config : ChainConfig) :
    ExecutionProcessor σ :=
  { block := block, state := state, config := config, cumulative_gas_used_ := 0,
    trace := [], gas_log := [] }

/-- The free function `execute_block` of execution.cpp. The `IntraBlockState` built over the
buffer is the argument `state`. The function returns the processor it ran together with the
receipts or the error thrown. -/
def execute_block {σ : Type} (env : Env σ) (block : Block) (state : σ) (config : ChainConfig) :
    ExecutionProcessor σ × Except ValidationError (List Receipt) :=
  let header := block.header
  let block_num := header.number
  let processor : ExecutionProcessor σ := ExecutionProcessor.new block state config
  match processor.execute_block env with
  | (processor, .error e) => (processor, .error e)
  | (processor, .ok receipts) =>
    let gas_used :=
      if !receipts.isEmpty then (receipts.getLast?.map Receipt.cumulative_gas_used).getD 0
      else 0
    if gas_used ≠ header.gas_used then
      (processor, .error ⟨"gas mismatch for block " ++ toString block_num⟩)
    else if config.has_byzantium block_num && env.root_hash receipts != header.receipts_root then
      (processor, .error ⟨"receipt root mismatch for block " ++ toString block_num⟩)
    else (processor, .ok receipts)

/-! ## Reference formulas of the specification -/

/-- Number of non-zero bytes of a byte string. -/
def nonZeroBytes (data : Bytes) : Nat := data.countP (fun c => c != 0)

/-- Number of zero bytes of a byte string. -/
def zeroBytes (data : Bytes) : Nat := data.countP (fun c => c == 0)

/-- The reason of the first preflight check of the specification that fails, in the order
missing sender, invalid nonce, intrinsic gas, insufficient funds, block gas limit reached;
`none` when all five checks hold. The products and sums are those of natural numbers. -/
def first_failing_check {σ : Type} (env : Env σ) (p : ExecutionProcessor σ) (txn : Transaction) :
    Option String :=
  match txn.from_ with
  | none => some "missing sender"
  | some sender =>
    if env.get_nonce p.state sender ≠ txn.nonce then some "invalid nonce"
    else if txn.gas_limit < intrinsic_gas env.fee txn
        (p.config.has_homestead p.block.header.number)
        (p.config.has_istanbul p.block.header.number) then some "intrinsic gas"
    else if env.get_balance p.state sender < txn.gas_limit * txn.gas_price + txn.value then
      some "insufficient funds"
    else if p.available_gas < txn.gas_limit then some "block gas limit reached"
    else none

/-- The `cumulative_gas_used` of the last receipt, or 0 when there is no receipt. -/
def last_cumulative_gas_used (receipts : List Receipt) : Nat :=
  match receipts.getLast? with
  | some r => r.cumulative_gas_used
  | none => 0

/-! ## A concrete instance of the collaborators, for examples -/

/-- A minimal world state: balances, nonces and the refund counter. -/
structure Ledger where
  balance : Address → Nat
  nonce : Address → Nat
  refund : Nat

/-- The constant `kEther` of const.hpp. -/
def kEther : Nat := 1000000000 * 1000000000

/-- The fee constants of the main network. -/
def mainnetFee : FeeSchedule :=
  { kGTransaction := 21000, kGTxCreate := 32000, kGTxDataZero := 4,
    kGTxDataNonZeroFrontier := 68, kGTxDataNonZeroIstanbul := 16 }

/-- The block rewards of the main network. -/
def mainnetReward : RewardSchedule :=
  { kFrontierBlockReward := 5 * kEther, kByzantiumBlockReward := 3 * kEther,
    kConstantinopleBlockReward := 2 * kEther }

/-- Credit `v` to `a`, in 256-bit arithmetic. -/
def Ledger.credit (s : Ledger) (a : Address) (v : Nat) : Ledger :=
  { s with balance := fun x => if x = a then (s.balance a + v) % kU256 else s.balance x }

/-- Debit `v` from `a`, in 256-bit arithmetic. -/
def Ledger.debit (s : Ledger) (a : Address) (v : Nat) : Ledger :=
  { s with balance := fun x => if x = a then wsub kU256 (s.balance a) v else s.balance x }

/-- Collaborators over `Ledger`: the interpreter moves the value of the transaction to its
recipient, consumes no gas beyond the intrinsic gas and always succeeds. -/
def ledgerEnv : Env Ledger :=
  { get_nonce := fun s a => s.nonce a
    get_balance := fun s a => s.balance a
    subtract_from_balance := Ledger.debit
    add_to_balance := Ledger.credit
    set_nonce := fun s a n => { s with nonce := fun x => if x = a then n else s.nonce x }
    clear_journal_and_substate := fun s => { s with refund := 0 }
    total_refund := fun s => s.refund
    destruct_suicides := id
    destruct_touched_dead := id
    finalize_transaction := id
    logs := fun _ => []
    destruct := fun s _ => s
    write_to_db := fun s _ => s
    execute := fun s txn gas =>
      (match txn.to_ with
        | some r => (s.debit (deref txn.from_) txn.value).credit r txn.value
        | none => s,
        { status := EVMC_SUCCESS, gas_left := gas })
    logs_bloom := fun _ => []
    transfer_balances := id
    root_hash := fun rs => rs.length
    fee := mainnetFee
    param := mainnetReward }

/-- A configuration with every fork active from block 0 and no special block. -/
def allForks : ChainConfig :=
  { has_homestead := fun _ => true, has_spurious_dragon := fun _ => true,
    has_byzantium := fun _ => true, has_constantinople := fun _ => true,
    has_istanbul := fun _ => true, dao_block := none, ripemd_deletion_block := none }

/-- A configuration in which Byzantium is the latest active fork. -/
def byzantiumForks : ChainConfig :=
  { has_homestead := fun _ => true, has_spurious_dragon := fun _ => true,
    has_byzantium := fun _ => true, has_constantinople := fun _ => false,
    has_istanbul := fun _ => false, dao_block := none, ripemd_deletion_block := none }

/-- A plain transfer of 1 ether from address 1 to address 2 at 1 gwei per gas. -/
def transferTxn : Transaction :=
  { nonce := 0, gas_price := 1000000000, gas_limit := 21000, to_ := some 2, value := kEther,
    data := [], from_ := some 1 }

/-- A contract creation carrying four bytes of data, two of them zero. -/
def createTxn : Transaction :=
  { nonce := 0, gas_price := 1000000000, gas_limit := 100000, to_ := none, value := 0,
    data := [0, 96, 0, 255], from_ := some 1 }

/-- The transfer `transferTxn` with a gas limit of 50000, more than its intrinsic gas. -/
def roomyTxn : Transaction := { transferTxn with gas_limit := 50000 }

/-- A ledger in which address 1 holds `b` wei and nobody else holds anything. -/
def ledgerWith (b : Nat) : Ledger :=
  { balance := fun x => if x = 1 then b else 0, nonce := fun _ => 0, refund := 0 }

/-- The transfer that follows `transferTxn`: the same with nonce 1. -/
def transferTxn2 : Transaction := { transferTxn with nonce := 1 }

/-- An ommer header at height `n` with beneficiary `b`. -/
def ommerAt (n : Nat) (b : Address) : BlockHeader :=
  { number := n, beneficiary := b, gas_limit := 8000000, gas_used := 0, receipts_root := 0 }

/-- A block at height 10 with the given transactions and ommers, beneficiary 9. -/
def blockOf (txns : List Transaction) (ommers : List BlockHeader) : Block :=
  { header := { number := 10, beneficiary := 9, gas_limit := 8000000, gas_used := 0,
                receipts_root := 0 },
    transactions := txns, ommers := ommers }

/-- A processor over `Ledger` for the block `b`, with address 1 holding `bal` wei. -/
def processorOf (b : Block) (bal : Nat) : ExecutionProcessor Ledger :=
  { block := b, state := ledgerWith bal, config := allForks, cumulative_gas_used_ := 0,
    trace := [], gas_log := [] }

/-- The event is a call of the interpreter. -/
def Event.is_evm_execute : Event → Bool
  | .evm_execute _ => true
  | _ => false

/-- The event is the call of `apply_rewards` or of `state.write_to_db`. -/
def Event.ends_block : Event → Bool
  | .apply_rewards => true
  | .write_to_db _ => true
  | _ => false

/-! ## buffer.cpp -/

/-- An ordered map (`std::map`): the entries in iteration order. The operations below keep
the keys ascending and pairwise distinct. -/
abbrev OMap (κ υ : Type) := List (κ × υ)

/-- The method `find` of an ordered map: the value stored under `k`, if any. -/
def OMap.find {κ υ : Type} [LinearOrder κ] : OMap κ υ → κ → Option υ
  | [], _ => none
  | (k1, v) :: rest, k => if k1 = k then some v else OMap.find rest k

/-- The method `insert_or_assign` of an ordered map: the entry under `k` is overwritten if
there is one, and inserted at its place in the key order otherwise. The flag tells whether an
insertion took place (the `.second` of the C++ result). The assignment `m[k] = v` is the first
component of this. -/
def OMap.insert_or_assign {κ υ : Type} [LinearOrder κ] : OMap κ υ → κ → υ → OMap κ υ × Bool
  | [], k, v => ([(k, v)], true)
  | (k1, v1) :: rest, k, v =>
    if k < k1 then ((k, v) :: (k1, v1) :: rest, true)
    else if k = k1 then ((k, v) :: rest, false)
    else ((k1, v1) :: (OMap.insert_or_assign rest k v).1, (OMap.insert_or_assign rest k v).2)

/-- The keys of an ordered map, in iteration order. -/
def OMap.keys {κ υ : Type} (m : OMap κ υ) : List κ := m.map Prod.fst

/-- An account of the state. -/
structure Account where
  nonce : Nat
  balance : Nat
  code_hash : Hash
  incarnation : Nat
deriving DecidableEq, Repr

/-- The encoding helpers and the one length constant used by buffer.cpp that are defined
outside the files modelled here, taken as parameters. -/
structure Codec where
  encode_for_storage : Account → Bool → Bytes
  encoding_length_for_storage : Account → Nat
  zeroless_view : Hash → Bytes
  storage_key : Address → Nat → Hash → Bytes
  storage_prefix : Address → Nat → Bytes
  encode_timestamp : Nat → Bytes
  kStoragePrefixLength : Nat
  full_view_address : Address → Bytes
  full_view_hash : Hash → Bytes
  store_big_u64 : Nat → Bytes
  encode_account_changes : List (Address × Bytes) → Bytes
  encode_storage_changes : List (Bytes × Bytes) → Bytes

/-- The constant `kAddressLength` of const.hpp. -/
def kAddressLength : Nat := 20

/-- The constant `kHashLength` of const.hpp. -/
def kHashLength : Nat := 32

/-- The constant `kIncarnationLength` of const.hpp. -/
def kIncarnationLength : Nat := 8

/-- The constant `kEntryOverhead` of buffer.cpp. -/
def kEntryOverhead : Nat := 32

/-- A write issued to a table of the store. -/
inductive DbOp where
  | put (table : String) (key value : Bytes)
  | del (table : String) (key : Bytes)
  | del_sub (table : String) (key sub_key : Bytes)
deriving DecidableEq, Repr

/-- The `Buffer` object. The attached store transaction `txn_`, when there is one, is
represented by the writes issued to it so far. -/
structure Buffer where
  txn_ : Option (List DbOp)
  historical_block_ : Option Nat
  headers_ : OMap Bytes BlockHeader
  account_changes_ : OMap Address Bytes
  storage_changes_ : OMap Bytes Bytes
  changed_storage_ : List Address
  accounts_ : OMap Address (Option Account)
  storage_ : OMap Address (OMap Nat (OMap Hash Hash))
  incarnations_ : OMap Address Nat
  hash_to_code_ : OMap Hash Bytes
  storage_prefix_to_code_hash_ : OMap Bytes Hash
  batch_size_ : Nat
  current_block_number_ : Nat
deriving DecidableEq, Repr

/-- A buffer with nothing in it and no store attached. -/
def Buffer.empty : Buffer :=
  { txn_ := none, historical_block_ := none, headers_ := [], account_changes_ := [],
    storage_changes_ := [], changed_storage_ := [], accounts_ := [], storage_ := [],
    incarnations_ := [], hash_to_code_ := [], storage_prefix_to_code_hash_ := [],
    batch_size_ := 0, current_block_number_ := 0 }

/-- The method `Buffer::begin_block`. -/
def Buffer.begin_block (b : Buffer) (block_number : Nat) : Buffer :=
  { b with current_block_number_ := block_number, changed_storage_ := [],
           account_changes_ := [], storage_changes_ := [] }

/-- The bytes that `update_account` stores in the account change-set: the encoding of
`initial`, without its code hash unless the account is being deleted, or nothing when
`initial` is absent. -/
def encoded_initial (c : Codec) (initial current : Option Account) : Bytes :=
  match initial with
  | some i => c.encode_for_storage i (!current.isNone)
  | none => []

/-- The method `Buffer::update_account`. The new values of the fields are computed one after
the other and stored at the end. `initial->incarnation` is read only when `account_deleted`
holds and `equal` does not, that is, with `initial` engaged. -/
def Buffer.update_account (b : Buffer) (c : Codec) (address : Address)
    (initial current : Option Account) : Buffer :=
  let equal := decide (current = initial)
  let account_deleted := current.isNone
  if equal && !account_deleted && !b.changed_storage_.contains address then b
  else
    let account_changes :=
      (b.account_changes_.insert_or_assign address (encoded_initial c initial current)).1
    if equal then { b with account_changes_ := account_changes }
    else
      let ins := b.accounts_.insert_or_assign address current
      let size :=
        if ins.2 then
          match current with
          | some cur =>
            ((b.batch_size_ + (kAddressLength + kEntryOverhead)) % kU64
              + c.encoding_length_for_storage cur) % kU64
          | none => (b.batch_size_ + (kAddressLength + kEntryOverhead)) % kU64
        else b.batch_size_
      match initial with
      | some i =>
        if account_deleted && i.incarnation != 0 then
          let ins2 := b.incarnations_.insert_or_assign address i.incarnation
          { b with account_changes_ := account_changes, accounts_ := ins.1,
                   incarnations_ := ins2.1,
                   batch_size_ :=
                     if ins2.2 then (size + (c.kStoragePrefixLength + kEntryOverhead)) % kU64
                     else size }
        else { b with account_changes_ := account_changes, accounts_ := ins.1,
                      batch_size_ := size }
      | none => { b with account_changes_ := account_changes, accounts_ := ins.1,
                         batch_size_ := size }

/-- The method `Buffer::update_storage`. The new values of the fields are computed one after
the other and stored at the end; `contracts` is `storage_[address]` and `storage_map` is
`storage_[address][incarnation]`, both created empty when missing. -/
def Buffer.update_storage (b : Buffer) (c : Codec) (address : Address) (incarnation : Nat)
    (key initial current : Hash) : Buffer :=
  if current = initial then b
  else
    let changed_storage :=
      if b.changed_storage_.contains address then b.changed_storage_
      else address :: b.changed_storage_
    let full_key := c.storage_key address incarnation key
    let storage_changes :=
      (b.storage_changes_.insert_or_assign full_key (c.zeroless_view initial)).1
    let contracts := (b.storage_.find address).getD []
    let storage_map := (contracts.find incarnation).getD []
    let size1 :=
      if storage_map.isEmpty then
        (b.batch_size_ + (c.kStoragePrefixLength + kEntryOverhead)) % kU64
      else b.batch_size_
    let ins := storage_map.insert_or_assign key current
    let size2 :=
      if ins.2 then
        (size1 + (kEntryOverhead + kHashLength + (c.zeroless_view current).length)) % kU64
      else size1
    { b with changed_storage_ := changed_storage, storage_changes_ := storage_changes,
             storage_ := (b.storage_.insert_or_assign address
               (contracts.insert_or_assign incarnation ins.1).1).1,
             batch_size_ := size2 }

/-- The method `Buffer::update_account_code`. -/
def Buffer.update_account_code (b : Buffer) (c : Codec) (address : Address) (incarnation : Nat)
    (code_hash : Hash) (code : Bytes) : Buffer :=
  let ins1 := b.hash_to_code_.insert_or_assign code_hash code
  let size1 :=
    if ins1.2 then (b.batch_size_ + (kHashLength + kEntryOverhead + code.length)) % kU64
    else b.batch_size_
  let ins2 := b.storage_prefix_to_code_hash_.insert_or_assign
    ( c.storage_prefix address incarnation) code_hash
  let size2 :=
    if ins2.2 then (size1 + (c.kStoragePrefixLength + kEntryOverhead + kHashLength)) % kU64
    else size1
  { b with hash_to_code_ := ins1.1, storage_prefix_to_code_hash_ := ins2.1,
           batch_size_ := size2 }

/-- The reading functions of the access layer (`db::read_account`, `db::read_code`,
`db::read_storage`, `db::read_previous_incarnation`), defined outside the files modelled here
and taken as parameters. Their first argument is the store transaction. -/
structure StoreAccess where
  read_account : List DbOp → Address → Option Nat → Option Account
  read_code : List DbOp → Hash → Option Bytes
  read_storage : List DbOp → Address → Nat → Hash → Option Nat → Hash
  read_previous_incarnation : List DbOp → Address → Option Nat → Option Nat

/-- The method `Buffer::read_account`. -/
def Buffer.read_account (b : Buffer) (db : StoreAccess) (address : Address) : Option Account :=
  match b.accounts_.find address with
  | some account => account
  | none =>
    match b.txn_ with
    | none => none
    | some txn => db.read_account txn address b.historical_block_

/-- The method `Buffer::read_code`. -/
def Buffer.read_code (b : Buffer) (db : StoreAccess) (code_hash : Hash) : Bytes :=
  match b.hash_to_code_.find code_hash with
  | some code => code
  | none =>
    match b.txn_ with
    | none => []
    | some txn =>
      match db.read_code txn code_hash with
      | some code => code
      | none => []

/-- The three nested `find` calls of `read_storage` on the dirty storage map. -/
def storage_lookup (storage : OMap Address (OMap Nat (OMap Hash Hash))) (address : Address)
    (incarnation : Nat) (key : Hash) : Option Hash :=
  (storage.find address).bind (fun contracts =>
    (contracts.find incarnation).bind (fun storage_map => storage_map.find key))

/-- The method `Buffer::read_storage`. -/
def Buffer.read_storage (b : Buffer) (db : StoreAccess) (address : Address) (incarnation : Nat)
    (key : Hash) : Hash :=
  match storage_lookup b.storage_ address incarnation key with
  | some value => value
  | none =>
    match b.txn_ with
    | none => 0
    | some txn => db.read_storage txn address incarnation key b.historical_block_

/-- The method `Buffer::previous_incarnation`. -/
def Buffer.previous_incarnation (b : Buffer) (db : StoreAccess) (address : Address) : Nat :=
  match b.incarnations_.find address with
  | some incarnation => incarnation
  | none =>
    match b.txn_ with
    | none => 0
    | some txn =>
      match db.read_previous_incarnation txn address b.historical_block_ with
      | some incarnation => incarnation
      | none => 0

/-- Whether `update_account` evaluates `initial->incarnation` (the right operand of the `&&`
on line 85): it does so when neither early return is taken and `account_deleted` holds. -/
def Buffer.update_account_reads_initial (b : Buffer) (address : Address)
    (initial current : Option Account) : Bool :=
  let equal := decide (current = initial)
  let account_deleted := current.isNone
  if equal && !account_deleted && !b.changed_storage_.contains address then false
  else if equal then false
  else account_deleted

/-- Modelled from the spec: the names of the tables, which are constants of `tables.hpp`
outside the files modelled here; the names are those listed in the store contract. -/
def kPlainState : String := "PlainState"

/-- Modelled from the spec: the name of the incarnation table (see `kPlainState`). -/
def kIncarnationMap : String := "IncarnationMap"

/-- Modelled from the spec: the name of the code table (see `kPlainState`). -/
def kCode : String := "Code"

/-- Modelled from the spec: the name of the contract code table (see `kPlainState`). -/
def kPlainContractCode : String := "PlainContractCode"

/-- Modelled from the spec: the name of the account change-set table (see `kPlainState`). -/
def kPlainAccountChangeSet : String := "PlainAccountChangeSet"

/-- Modelled from the spec: the name of the storage change-set table (see `kPlainState`). -/
def kPlainStorageChangeSet : String := "PlainStorageChangeSet"

/-- The table a write goes to. -/
def DbOp.table_name : DbOp → String
  | .put t _ _ => t
  | .del t _ => t
  | .del_sub t _ _ => t

/-- Insertion into an ordered set (`absl::btree_set`): the elements stay ascending and an
element already present is not added again. -/
def OSet.insert {κ : Type} [LinearOrder κ] : List κ → κ → List κ
  | [], k => [k]
  | k1 :: rest, k =>
    if k < k1 then k :: k1 :: rest
    else if k = k1 then k1 :: rest
    else k1 :: OSet.insert rest k

/-- The static function `upsert_storage_value`; `txn` is the write log of the transaction the
state table belongs to. -/
def upsert_storage_value (c : Codec) (txn : List DbOp) ( storage_prefix : Bytes)
    (key value : Hash) : List DbOp :=
  let txn := txn ++ [DbOp.del_sub kPlainState storage_prefix (c.full_view_hash key)]
  if value ≠ 0 then
    txn ++ [DbOp.put kPlainState storage_prefix (c.full_view_hash key ++ c.zeroless_view value)]
  else txn

/-- The set `keys` built by the first two loops of `write_to_state_table`. -/
def Buffer.state_table_keys (b : Buffer) : List Address :=
  b.storage_.keys.foldl OSet.insert (b.accounts_.keys.foldl OSet.insert [])

/-- The method `Buffer::write_to_state_table`, on the write log `txn` of the attached
transaction (the method dereferences `txn_`, which its caller has checked). -/
def Buffer.write_to_state_table (b : Buffer) (c : Codec) (txn : List DbOp) : List DbOp :=
  b.state_table_keys.foldl
    (fun txn key =>
      let txn :=
        match b.accounts_.find key with
        | some account =>
          let txn := txn ++ [DbOp.del kPlainState (c.full_view_address key)]
          match account with
          | some a =>
            txn ++ [DbOp.put kPlainState (c.full_view_address key) (c.encode_for_storage a false)]
          | none => txn
        | none => txn
      match b.storage_.find key with
      | some contracts =>
        contracts.foldl
          (fun txn contract =>
            contract.2.foldl
              (fun txn x =>
                upsert_storage_value c txn ( c.storage_prefix key contract.1) x.1 x.2)
              txn)
          txn
      | none => txn)
    txn

/-- The method `Buffer::write_to_db`. -/
def Buffer.write_to_db (b : Buffer) (c : Codec) : Buffer :=
  match b.txn_ with
  | none => b
  | some txn =>
    let txn := b.write_to_state_table c txn
    let txn := b.incarnations_.foldl
      (fun txn entry =>
        txn ++ [DbOp.put kIncarnationMap (c.full_view_address entry.1) (c.store_big_u64 entry.2)])
      txn
    let txn := b.hash_to_code_.foldl
      (fun txn entry => txn ++ [DbOp.put kCode (c.full_view_hash entry.1) entry.2])
      txn
    let txn := b.storage_prefix_to_code_hash_.foldl
      (fun txn entry => txn ++ [DbOp.put kPlainContractCode entry.1 (c.full_view_hash entry.2)])
      txn
    { b with txn_ := some txn }

/-- The method `Buffer::end_block`. -/
def Buffer.end_block (b : Buffer) (c : Codec) : Buffer :=
  match b.txn_ with
  | none => b
  | some txn =>
    let block_key := c.encode_timestamp b.current_block_number_
    let txn := txn ++ [DbOp.put kPlainAccountChangeSet block_key
      (c.encode_account_changes b.account_changes_)]
    let txn :=
      if !b.storage_changes_.isEmpty then
        txn ++ [DbOp.put kPlainStorageChangeSet block_key
          (c.encode_storage_changes b.storage_changes_)]
      else txn
    { b with txn_ := some txn }

/-- The writes of the state-table policy for the account row of `address`: a delete of the
row, followed by a put of the full encoding when the account is present. -/
def account_row_ops (c : Codec) (address : Address) (account : Option Account) : List DbOp :=
  DbOp.del kPlainState (c.full_view_address address) ::
    (match account with
      | some a =>
        [DbOp.put kPlainState (c.full_view_address address) (c.encode_for_storage a false)]
      | none => [])

/-- The writes of the state-table policy for one dirty slot: a delete of the row under the
storage prefix and the key, followed by a put of the key and the zero-stripped value when the
value is not zero. -/
def storage_slot_ops (c : Codec) (address : Address) (incarnation : Nat) (key value : Hash) :
    List DbOp :=
  DbOp.del_sub kPlainState ( c.storage_prefix address incarnation) (c.full_view_hash key) ::
    (if value ≠ 0 then
      [DbOp.put kPlainState ( c.storage_prefix address incarnation)
        (c.full_view_hash key ++ c.zeroless_view value)]
    else [])

/-- The writes of the state-table policy for the whole buffer: for every address of the key
set, the writes for its account row if it has an entry in `accounts_`, then the writes for each
of its dirty slots. -/
def Buffer.state_table_ops (b : Buffer) (c : Codec) : List DbOp :=
  b.state_table_keys.flatMap (fun a =>
    (match b.accounts_.find a with
      | some account => account_row_ops c a account
      | none => [])
    ++ (match b.storage_.find a with
      | some contracts =>
        contracts.flatMap (fun contract =>
          contract.2.flatMap (fun x => storage_slot_ops c a contract.1 x.1 x.2))
      | none => []))

/-- Modelled from the spec: the table operations of the store contract (`put(key, value)`,
`del(key)`, `del(prefix, sub_key)`), whose code is outside the files modelled here, on a map
model of one table. The table is the list of its rows; `put` adds the row, `del` removes the
rows of the key, and `del` with a sub-key removes the rows of the key whose value starts with
the sub-key. Writes to other tables leave the rows alone. -/
def DbOp.apply (table : String) (rows : List (Bytes × Bytes)) : DbOp → List (Bytes × Bytes)
  | .put t k v => if t = table then rows ++ [(k, v)] else rows
  | .del t k => if t = table then rows.filter (fun r => !decide (r.1 = k)) else rows
  | .del_sub t k sub =>
    if t = table then rows.filter (fun r => !(decide (r.1 = k) && sub.isPrefixOf r.2)) else rows

/-- The rows of `table` after a sequence of writes (see `DbOp.apply`). -/
def apply_ops (table : String) (rows : List (Bytes × Bytes)) (ops : List DbOp) :
    List (Bytes × Bytes) :=
  ops.foldl (DbOp.apply table) rows

/-- The write puts the row `r` into `table`. -/
def DbOp.adds (table : String) (r : Bytes × Bytes) : DbOp → Prop
  | .put t k v => t = table ∧ k = r.1 ∧ v = r.2
  | .del _ _ => False
  | .del_sub _ _ _ => False

/-- The write removes the row `r` from `table`, if it is there. -/
def DbOp.removes (table : String) (r : Bytes × Bytes) : DbOp → Prop
  | .put _ _ _ => False
  | .del t k => t = table ∧ r.1 = k
  | .del_sub t k sub => t = table ∧ r.1 = k ∧ sub.isPrefixOf r.2 = true

/-- The keys of the map are strictly ascending, as in every `std::map`. -/
def OMap.Ordered {κ υ : Type} [LinearOrder κ] (m : OMap κ υ) : Prop :=
  m.keys.Pairwise (fun x y => x < y)

/-- The inner maps of the dirty storage are ordered maps. -/
def Buffer.StorageOrdered (b : Buffer) : Prop :=
  ∀ e ∈ b.storage_, OMap.Ordered e.2 ∧ ∀ contract ∈ e.2, OMap.Ordered contract.2

/-- The byte encodings keep distinct keys apart: addresses and storage prefixes are encoded
injectively, no address encoding is a storage prefix, and the encoding of a key starts the
encoding of another key followed by anything only if the keys are equal. The fixed-width
encodings of the store (20, 28 and 32 bytes) have these properties. -/
def Codec.Separates (c : Codec) : Prop :=
  (∀ a1 a2, c.full_view_address a1 = c.full_view_address a2 → a1 = a2)
    ∧ (∀ a a2 inc, c.full_view_address a ≠ c.storage_prefix a2 inc)
    ∧ (∀ a1 i1 a2 i2, c.storage_prefix a1 i1 = c.storage_prefix a2 i2 → a1 = a2 ∧ i1 = i2)
    ∧ (∀ k1 k2 rest, (c.full_view_hash k1).isPrefixOf (c.full_view_hash k2 ++ rest) = true →
        k1 = k2)

/-- The row belongs to a key of the dirty maps: its key is the encoding of an address of
`accounts_`, or it is the row of a slot of the dirty storage. -/
def Buffer.dirty_row (b : Buffer) (c : Codec) (r : Bytes × Bytes) : Prop :=
  (∃ a ∈ b.accounts_.keys, r.1 = c.full_view_address a)
    ∨ (∃ e ∈ b.storage_, ∃ contract ∈ e.2, ∃ x ∈ contract.2,
        r.1 = c.storage_prefix e.1 contract.1 ∧ (c.full_view_hash x.1).isPrefixOf r.2 = true)

/-- The puts of the second loop of `write_to_db`, one per entry of `incarnations_`. -/
def Buffer.incarnation_ops (b : Buffer) (c : Codec) : List DbOp :=
  b.incarnations_.map (fun entry =>
    DbOp.put kIncarnationMap (c.full_view_address entry.1) (c.store_big_u64 entry.2))

/-- The puts of the third loop of `write_to_db`, one per entry of `hash_to_code_`. -/
def Buffer.code_ops (b : Buffer) (c : Codec) : List DbOp :=
  b.hash_to_code_.map (fun entry => DbOp.put kCode (c.full_view_hash entry.1) entry.2)

/-- The puts of the last loop of `write_to_db`, one per entry of
`storage_prefix_to_code_hash_`. -/
def Buffer.contract_code_ops (b : Buffer) (c : Codec) : List DbOp :=
  b.storage_prefix_to_code_hash_.map (fun entry =>
    DbOp.put kPlainContractCode entry.1 (c.full_view_hash entry.2))

/-- The puts of `end_block`: the account change-set under the block key, then the storage
change-set under the block key when it is not empty. -/
def Buffer.change_set_ops (b : Buffer) (c : Codec) : List DbOp :=
  DbOp.put kPlainAccountChangeSet (c.encode_timestamp b.current_block_number_)
      (c.encode_account_changes b.account_changes_) ::
    (if b.storage_changes_ = [] then []
      else [DbOp.put kPlainStorageChangeSet (c.encode_timestamp b.current_block_number_)
        (c.encode_storage_changes b.storage_changes_)])

/-- A call made to the buffer while the state of a block is written back. -/
inductive BufferCall where
  | update_account (address : Address) (initial current : Option Account)
  | update_storage (address : Address) (incarnation : Nat) (key initial current : Hash)
deriving DecidableEq, Repr

/-- Run one call on the buffer. -/
def Buffer.call (c : Codec) (b : Buffer) : BufferCall → Buffer
  | .update_account address initial current => b.update_account c address initial current
  | .update_storage address incarnation key initial current =>
    b.update_storage c address incarnation key initial current

/-- Run a sequence of calls on the buffer, first to last. -/
def Buffer.calls (c : Codec) (b : Buffer) (cs : List BufferCall) : Buffer :=
  cs.foldl (Buffer.call c) b

/-- The condition under which `update_account` records a pre-image: `initial ≠ current`, or
the account is deleted, or the storage of the address was touched in this block. -/
def Buffer.records_account (b : Buffer) (address : Address) (initial current : Option Account) :
    Prop :=
  initial ≠ current ∨ current = none ∨ address ∈ b.changed_storage_

instance (b : Buffer) (address : Address) (initial current : Option Account) :
    Decidable (b.records_account address initial current) := by
  unfold Buffer.records_account; infer_instance

/-- The call is an `update_storage` with `initial ≠ current` on the full key `full_key`, that
is, it writes the entry of the storage change-set under `full_key`. -/
def BufferCall.writes_storage_change (c : Codec) (full_key : Bytes) : BufferCall → Prop
  | .update_storage address incarnation key initial current =>
    initial ≠ current ∧ c.storage_key address incarnation key = full_key
  | .update_account _ _ _ => False

/-- The call is an `update_account` on `address` that records a pre-image when run on `b`. -/
def Buffer.call_records_account (b : Buffer) (address : Address) : BufferCall → Prop
  | .update_account a initial current => a = address ∧ b.records_account a initial current
  | .update_storage _ _ _ _ _ => False

/-- The key of the dirty maps that a call writes: the address in `accounts_` for
`update_account`, and the address, incarnation and slot in `storage_` for `update_storage`. -/
def BufferCall.key : BufferCall → Address ⊕ (Address × Nat × Hash)
  | .update_account address _ _ => Sum.inl address
  | .update_storage address incarnation key _ _ => Sum.inr (address, incarnation, key)

/-- The statement `m[k] = f(m[k])` on an ordered map, where `m[k]` is created with the value
`d` when it is missing. -/
def OMap.modify_at {κ υ : Type} [LinearOrder κ] (d : υ) (m : OMap κ υ) (k : κ) (f : υ → υ) :
    OMap κ υ :=
  (m.insert_or_assign k (f ((m.find k).getD d))).1

/-- The statement `storage_[address][incarnation].insert_or_assign(key, current)` of
`update_storage`, on the value of `storage_`. -/
def storage_assign (storage : OMap Address (OMap Nat (OMap Hash Hash))) (address : Address)
    (incarnation : Nat) (key current : Hash) : OMap Address (OMap Nat (OMap Hash Hash)) :=
  OMap.modify_at [] storage address (fun contracts =>
    OMap.modify_at [] contracts incarnation (fun storage_map =>
      (storage_map.insert_or_assign key current).1))

/-- The part of a call that concerns the maps `accounts_` and `storage_`, on the pair of
their values: `update_account` assigns `accounts_[address]` unless `current` equals `initial`,
and `update_storage` assigns the slot unless `current` equals `initial`. The theorem
`call_dirty_maps` shows that this is what `Buffer.call` does to the two fields. -/
def BufferCall.on_maps
    (maps : OMap Address (Option Account) × OMap Address (OMap Nat (OMap Hash Hash))) :
    BufferCall → OMap Address (Option Account) × OMap Address (OMap Nat (OMap Hash Hash))
  | .update_account address initial current =>
    (if current = initial then maps.1 else (maps.1.insert_or_assign address current).1, maps.2)
  | .update_storage address incarnation key initial current =>
    (maps.1,
      if current = initial then maps.2
      else storage_assign maps.2 address incarnation key current)

/-- A small concrete codec for examples: an account is encoded by the list of its fields, a
hash by itself (nothing for zero), and keys by the list of their components. -/
def listCodec : Codec :=
  { encode_for_storage := fun a omit_code_hash =>
      [a.nonce, a.balance, a.incarnation] ++ (if omit_code_hash then [] else [a.code_hash])
    encoding_length_for_storage := fun _ => 4
    zeroless_view := fun h => if h = 0 then [] else [h]
    storage_key := fun a i k => [a, i, k]
    storage_prefix := fun a i => [a, i]
    encode_timestamp := fun n => [n]
    kStoragePrefixLength := 28
    full_view_address := fun a => [a]
    full_view_hash := fun h => [h]
    store_big_u64 := fun n => [n]
    encode_account_changes := fun m => m.flatMap (fun e => e.1 :: e.2)
    encode_storage_changes := fun m => m.flatMap (fun e => e.1 ++ e.2) }

/-- A store access that finds nothing. -/
def emptyStore : StoreAccess :=
  { read_account := fun _ _ _ => none
    read_code := fun _ _ => none
    read_storage := fun _ _ _ _ _ => 0
    read_previous_incarnation := fun _ _ _ => none }

/-- A store access that finds the same account, code, value and incarnation everywhere. -/
def fullStore : StoreAccess :=
  { read_account := fun _ _ _ =>
      some { nonce := 9, balance := 9, code_hash := 9, incarnation := 9 }
    read_code := fun _ _ => some [9]
    read_storage := fun _ _ _ _ _ => 9
    read_previous_incarnation := fun _ _ _ => some 9 }

/-- A buffer that maps code hash 4 to the code `[1]` and the storage prefix of (1, 1) to code
hash 8. -/
def codeBuffer : Buffer :=
  { Buffer.empty with
    hash_to_code_ := [(4, [1])]
    storage_prefix_to_code_hash_ := [( listCodec.storage_prefix 1 1, 8)] }

/-- An account of the given incarnation with nothing else in it. -/
def incarnationOf (n : Nat) : Account :=
  { nonce := 0, balance := 0, code_hash := 0, incarnation := n }

/-- An account with the given nonce and balance, no code and incarnation 0. -/
def accountOf (nonce balance : Nat) : Account :=
  { nonce := nonce, balance := balance, code_hash := 0, incarnation := 0 }

/-- A buffer with a tombstone for address 1, an account for address 2, and two dirty slots of
contract (2, 1): slot 0 with value 0 and slot 3 with value 7. -/
def dirtyBuffer : Buffer :=
  { Buffer.empty with
    txn_ := some []
    accounts_ := [(1, none), (2, some (accountOf 1 50))]
    storage_ := [(2, [(1, [(0, 0), (3, 7)])])] }

/-- A buffer with a tombstone for address 1, accounts for the addresses 2 and 3, two dirty slots
of contract (2, 1), slot 0 with value 0 and slot 3 with value 7, and one dirty slot of contract
(4, 1), slot 5 with value 6. Address 3 has no dirty storage and address 4 no entry in
`accounts_`. -/
def mixedBuffer : Buffer :=
  { Buffer.empty with
    txn_ := some []
    accounts_ := [(1, none), (2, some (accountOf 1 50)), (3, some (accountOf 0 7))]
    storage_ := [(2, [(1, [(0, 0), (3, 7)])]), (4, [(1, [(5, 6)])])] }

/-- Rows of the state table before the batch: the accounts 1 and 5 and the slots 0 and 4 of
contract (2, 1). -/
def oldRows : List (Bytes × Bytes) :=
  [([1], [0, 10, 0, 0]), ([5], [0, 20, 0, 0]), ([2, 1], [0, 6]), ([2, 1], [4, 8])]

/-- The buffer `dirtyBuffer` at the end of block 10, with one entry in each of the other maps
and in both change-sets. -/
def changeBuffer : Buffer :=
  { dirtyBuffer with
    account_changes_ := [(1, [0, 10, 0])]
    storage_changes_ := [([2, 1, 3], [6])]
    incarnations_ := [(1, 2)]
    hash_to_code_ := [(4, [1])]
    storage_prefix_to_code_hash_ := [([2, 1], 4)]
    current_block_number_ := 10 }

/-- Four calls on pairwise distinct keys: account 2 is created, slot 3 of contract (2, 1) is
set to 7, slot 0 of contract (1, 1) is set to 5, and account 1 is deleted. -/
def batchCalls : List BufferCall :=
  [.update_account 2 none (some (accountOf 1 50)), .update_storage 2 1 3 0 7,
    .update_storage 1 1 0 0 5, .update_account 1 (some (incarnationOf 1)) none]

/-- The calls of `batchCalls` in another order. -/
def batchCallsShuffled : List BufferCall :=
  [.update_account 1 (some (incarnationOf 1)) none, .update_storage 1 1 0 0 5,
    .update_account 2 none (some (accountOf 1 50)), .update_storage 2 1 3 0 7]

/-! # Theorems -/

/-! ## Arithmetic helpers -/

theorem wsub_eq_sub {m a b : Nat} (hb : b ≤ a) (ha : a < m) : wsub m a b = a - b := by
  unfold wsub
  have hbm : b % m = b := Nat.mod_eq_of_lt (by omega)
  rw [hbm]
  have : a + m - b = (a - b) + m := by omega
  rw [this, Nat.add_mod_right]
  exact Nat.mod_eq_of_lt (by omega)

theorem nonZero_add_zero (data : Bytes) : nonZeroBytes data + zeroBytes data = data.length := by
  unfold nonZeroBytes zeroBytes
  induction data with
  | nil => rfl
  | cons c cs ih =>
    by_cases h : c = 0
    · subst h
      simp [List.countP_cons] at ih ⊢
      omega
    · simp [List.countP_cons, h] at ih ⊢
      omega

/-- C3. For a transaction whose data is shorter than 2^64 bytes and 64-bit fee constants,
`intrinsic_gas` returns, as a natural number below 2^128 (nothing wraps),
`G_txn + (G_txcreate if to is absent and homestead) + nonZeroBytes * G_nonzero + zeroBytes * G_zero`
with `nonZeroBytes + zeroBytes = |data|`; for empty data this is `G_txn` plus the optional
create surcharge. -/
theorem intrinsic_gas_exact (fee : FeeSchedule) (txn : Transaction) (homestead istanbul : Bool)
    (hfee : fee.IsU64) (hlen : txn.data.length < 2 ^ 64) :
    intrinsic_gas fee txn homestead istanbul
        = fee.kGTransaction + (if txn.to_ = none ∧ homestead = true then fee.kGTxCreate else 0)
          + nonZeroBytes txn.data
              * (if istanbul = true then fee.kGTxDataNonZeroIstanbul
                  else fee.kGTxDataNonZeroFrontier)
          + zeroBytes txn.data * fee.kGTxDataZero
      ∧ nonZeroBytes txn.data + zeroBytes txn.data = txn.data.length
      ∧ intrinsic_gas fee txn homestead istanbul < 2 ^ 128
      ∧ (txn.data = [] → intrinsic_gas fee txn homestead istanbul
          = fee.kGTransaction + (if txn.to_ = none ∧ homestead = true then fee.kGTxCreate else 0)) := by
  obtain ⟨h1, h2, h3, h4, h5⟩ := hfee
  simp only [kU64] at h1 h2 h3 h4 h5
  have hsum := nonZero_add_zero txn.data
  set nz := nonZeroBytes txn.data with hnz
  set z := zeroBytes txn.data with hz
  set g := (if istanbul = true then fee.kGTxDataNonZeroIstanbul
      else fee.kGTxDataNonZeroFrontier) with hg
  set c := (if txn.to_ = none ∧ homestead = true then fee.kGTxCreate else 0) with hc
  have hgb : g < 2 ^ 64 := by
    rw [hg]; split <;> assumption
  have hcb : c < 2 ^ 64 := by
    rw [hc]; split
    · assumption
    · norm_num
  have hp1 : nz * g ≤ nz * (2 ^ 64 - 1) := Nat.mul_le_mul_left _ (by omega)
  have hp2 : z * fee.kGTxDataZero ≤ z * (2 ^ 64 - 1) := Nat.mul_le_mul_left _ (by omega)
  have hp3 : (nz + z) * (2 ^ 64 - 1) ≤ (2 ^ 64 - 1) * (2 ^ 64 - 1) :=
    Nat.mul_le_mul_right _ (by omega)
  have hp4 : (nz + z) * (2 ^ 64 - 1) = nz * (2 ^ 64 - 1) + z * (2 ^ 64 - 1) := Nat.add_mul _ _ _
  have hval : intrinsic_gas fee txn homestead istanbul
      = fee.kGTransaction + c + nz * g + z * fee.kGTxDataZero := by
    unfold intrinsic_gas
    have e1 : (if (txn.to_.isNone && homestead) = true
        then (fee.kGTransaction % kU128 + fee.kGTxCreate) % kU128
        else fee.kGTransaction % kU128) = fee.kGTransaction + c := by
      rw [hc]
      cases hto : txn.to_ <;> cases homestead <;> simp [kU128] <;> omega
    simp only [e1]
    by_cases hd : txn.data = []
    · have hnz0 : nz = 0 := by rw [hnz, hd]; rfl
      have hz0 : z = 0 := by rw [hz, hd]; rfl
      simp [hd, hnz0, hz0]
    · have hne : txn.data.isEmpty = false := by
        cases hdd : txn.data with
        | nil => exact absurd hdd hd
        | cons _ _ => rfl
      simp only [hne, Bool.false_eq_true, if_false]
      have e2 : List.countP (fun c => c != 0) txn.data % kU128 = nz := by
        rw [← nonZeroBytes, ← hnz]
        exact Nat.mod_eq_of_lt (by simp only [kU128]; omega)
      have e3 : (if istanbul = true then fee.kGTxDataNonZeroIstanbul
          else fee.kGTxDataNonZeroFrontier) % kU64 = g := by
        rw [← hg]
        exact Nat.mod_eq_of_lt (by simp only [kU64]; omega)
      have e4 : wsub kU128 (txn.data.length % kU64) nz = z := by
        have : txn.data.length % kU64 = txn.data.length :=
          Nat.mod_eq_of_lt (by simp only [kU64]; omega)
        rw [this, wsub_eq_sub (by omega) (by simp only [kU128]; omega)]
        omega
      rw [e2, e3, e4]
      simp only [kU128]
      have m1 : nz * g % 2 ^ 128 = nz * g := Nat.mod_eq_of_lt (by omega)
      have m2 : z * fee.kGTxDataZero % 2 ^ 128 = z * fee.kGTxDataZero :=
        Nat.mod_eq_of_lt (by omega)
      rw [m1, m2]
      have m3 : (fee.kGTransaction + c + nz * g) % 2 ^ 128 = fee.kGTransaction + c + nz * g :=
        Nat.mod_eq_of_lt (by omega)
      rw [m3]
      exact Nat.mod_eq_of_lt (by omega)
  refine ⟨hval, hsum, ?_, ?_⟩
  · rw [hval]; omega
  · intro hd
    have hnz0 : nz = 0 := by rw [hnz, hd]; rfl
    have hz0 : z = 0 := by rw [hz, hd]; rfl
    rw [hval, hnz0, hz0]; simp

theorem v0_exact (txn : Transaction) (hwt : txn.WellTyped) :
    ((txn.gas_limit * txn.gas_price) % kU512 + txn.value) % kU512
      = txn.gas_limit * txn.gas_price + txn.value := by
  obtain ⟨_, hgl, hgp, hv, _⟩ := hwt
  simp only [kU64, kU256] at hgl hgp hv
  have hprod : txn.gas_limit * txn.gas_price ≤ (2 ^ 64 - 1) * (2 ^ 256 - 1) :=
    Nat.mul_le_mul (by omega) (by omega)
  simp only [kU512]
  have m1 : txn.gas_limit * txn.gas_price % (2 ^ 256 * 2 ^ 256)
      = txn.gas_limit * txn.gas_price :=
    Nat.mod_eq_of_lt (by omega)
  rw [m1]
  exact Nat.mod_eq_of_lt (by omega)

theorem execute_transaction_cases {σ : Type} (env : Env σ) (p : ExecutionProcessor σ)
    (txn : Transaction) (hwt : txn.WellTyped) :
    (∀ reason, first_failing_check env p txn = some reason →
        (p.execute_transaction env txn).2 = .error ⟨reason⟩)
      ∧ (first_failing_check env p txn = none →
          ∃ receipt, (p.execute_transaction env txn).2 = .ok receipt)
      ∧ (∀ e, (p.execute_transaction env txn).2 = .error e →
          first_failing_check env p txn = some e.what) := by
  have hv0 := v0_exact txn hwt
  unfold first_failing_check ExecutionProcessor.execute_transaction
  cases hfrom : txn.from_ with
  | none => simp
  | some sender =>
    simp only [Option.isNone_some, Bool.false_eq_true, if_false, deref, Option.getD_some, hv0]
    by_cases h1 : env.get_nonce p.state sender ≠ txn.nonce
    · simp [h1]
    · by_cases h2 : txn.gas_limit < intrinsic_gas env.fee txn
          (p.config.has_homestead p.block.header.number)
          (p.config.has_istanbul p.block.header.number)
      · simp [h1, h2]
      · by_cases h3 : env.get_balance p.state sender
            < txn.gas_limit * txn.gas_price + txn.value
        · simp [h1, h2, h3]
        · by_cases h4 : p.available_gas < txn.gas_limit
          · simp [h1, h2, h3, h4]
          · simp [h1, h2, h3, h4]

/-- C1. For a well-typed transaction, `execute_transaction` throws a `ValidationError` exactly
when one of the five preflight checks fails, with the reason of the first failing check in the
order missing sender, invalid nonce, intrinsic gas, insufficient funds, block gas limit
reached; when all five checks hold nothing is thrown and a receipt is returned. -/
theorem execute_transaction_preflight {σ : Type} (env : Env σ) (p : ExecutionProcessor σ)
    (txn : Transaction) (hwt : txn.WellTyped) :
    (∀ reason, first_failing_check env p txn = some reason →
        (p.execute_transaction env txn).2 = .error ⟨reason⟩)
      ∧ (first_failing_check env p txn = none →
          ∃ receipt, (p.execute_transaction env txn).2 = .ok receipt)
      ∧ (∀ e, (p.execute_transaction env txn).2 = .error e →
          first_failing_check env p txn = some e.what) :=
  execute_transaction_cases env p txn hwt

/-- C2. Whenever `execute_transaction` throws a `ValidationError`, the processor is left as it
was: the state object is the same (so every balance and nonce reads as before),
`cumulative_gas_used_` keeps its value, and no call to the interpreter has been recorded. -/
theorem execute_transaction_error_unchanged {σ : Type} (env : Env σ) (p : ExecutionProcessor σ)
    (txn : Transaction) (e : ValidationError)
    (herr : (p.execute_transaction env txn).2 = .error e) :
    (p.execute_transaction env txn).1 = p
      ∧ (p.execute_transaction env txn).1.state = p.state
      ∧ (∀ a, env.get_balance (p.execute_transaction env txn).1.state a
                = env.get_balance p.state a)
      ∧ (∀ a, env.get_nonce (p.execute_transaction env txn).1.state a = env.get_nonce p.state a)
      ∧ (p.execute_transaction env txn).1.cumulative_gas_used_ = p.cumulative_gas_used_
      ∧ (p.execute_transaction env txn).1.trace = p.trace := by
  have key : (p.execute_transaction env txn).1 = p := by
    unfold ExecutionProcessor.execute_transaction at herr ⊢
    simp only at herr ⊢
    split_ifs at herr ⊢ <;> rfl
  rw [key]
  exact ⟨rfl, rfl, fun _ => rfl, fun _ => rfl, rfl, rfl⟩

/-- Instance of C3: a contract creation with two zero and two non-zero data bytes under the
Istanbul fee schedule. -/
theorem intrinsic_gas_exact_witness :
    mainnetFee.IsU64 ∧ createTxn.data.length < 2 ^ 64
      ∧ intrinsic_gas mainnetFee createTxn true true = 21000 + 32000 + 2 * 16 + 2 * 4 :=
  ⟨by decide, by decide,
    (intrinsic_gas_exact mainnetFee createTxn true true (by decide) (by decide)).1.trans
      (by decide)⟩

/-- Instance of C1: scenario 2 of the specification, a sender holding 20999 gwei. -/
theorem execute_transaction_preflight_witness :
    transferTxn.WellTyped
      ∧ first_failing_check ledgerEnv (processorOf (blockOf [transferTxn] []) 20999000000000)
          transferTxn = some "insufficient funds"
      ∧ ((processorOf (blockOf [transferTxn] []) 20999000000000).execute_transaction ledgerEnv
          transferTxn).2 = .error ⟨"insufficient funds"⟩ :=
  ⟨by decide, by decide,
    (execute_transaction_preflight ledgerEnv (processorOf (blockOf [transferTxn] []) 20999000000000)
      transferTxn (by decide)).1 "insufficient funds" (by decide)⟩

/-- Instance of C2: the rejected transfer of scenario 2 leaves the processor as it was. -/
theorem execute_transaction_error_unchanged_witness :
    ((processorOf (blockOf [transferTxn] []) 20999000000000).execute_transaction ledgerEnv
        transferTxn).2 = .error ⟨"insufficient funds"⟩
      ∧ ((processorOf (blockOf [transferTxn] []) 20999000000000).execute_transaction ledgerEnv
          transferTxn).1 = processorOf (blockOf [transferTxn] []) 20999000000000 :=
  ⟨by rfl,
    (execute_transaction_error_unchanged ledgerEnv
      (processorOf (blockOf [transferTxn] []) 20999000000000) transferTxn
      ⟨"insufficient funds"⟩ (by rfl)).1⟩

theorem state_add_to_balance_state {σ : Type} (env : Env σ) (q : ExecutionProcessor σ)
    (a : Address) (v : Nat) :
    (q.state_add_to_balance env a v).state = env.add_to_balance q.state a v := rfl

theorem state_add_to_balance_trace {σ : Type} (env : Env σ) (q : ExecutionProcessor σ)
    (a : Address) (v : Nat) :
    (q.state_add_to_balance env a v).trace = q.trace ++ [Event.add_to_balance a v] := rfl

theorem first_failing_check_none {σ : Type} {env : Env σ} {p : ExecutionProcessor σ}
    {txn : Transaction} (h : first_failing_check env p txn = none) :
    ∃ sender, txn.from_ = some sender
      ∧ env.get_nonce p.state sender = txn.nonce
      ∧ intrinsic_gas env.fee txn (p.config.has_homestead p.block.header.number)
          (p.config.has_istanbul p.block.header.number) ≤ txn.gas_limit
      ∧ txn.gas_limit * txn.gas_price + txn.value ≤ env.get_balance p.state sender
      ∧ txn.gas_limit ≤ p.available_gas := by
  unfold first_failing_check at h
  cases hfrom : txn.from_ with
  | none => simp [hfrom] at h
  | some sender =>
    simp only [hfrom] at h
    split_ifs at h with h1 h2 h3 h4
    exact ⟨sender, rfl, not_not.mp h1, not_lt.mp h2, not_lt.mp h3, not_lt.mp h4⟩

theorem execute_transaction_of_pass {σ : Type} (env : Env σ) (p : ExecutionProcessor σ)
    (txn : Transaction) (hwt : txn.WellTyped) (h : first_failing_check env p txn = none) :
    p.execute_transaction env txn
      = ((p.execute_checked env txn (env.get_nonce p.state (deref txn.from_))
            (intrinsic_gas env.fee txn (p.config.has_homestead p.block.header.number)
              (p.config.has_istanbul p.block.header.number))
            (p.config.has_spurious_dragon p.block.header.number)).1,
         .ok (p.execute_checked env txn (env.get_nonce p.state (deref txn.from_))
            (intrinsic_gas env.fee txn (p.config.has_homestead p.block.header.number)
              (p.config.has_istanbul p.block.header.number))
            (p.config.has_spurious_dragon p.block.header.number)).2) := by
  obtain ⟨sender, hfrom, h1, h2, h3, h4⟩ := first_failing_check_none h
  have hv0 := v0_exact txn hwt
  unfold ExecutionProcessor.execute_transaction
  simp only [hfrom, Option.isNone_some, Bool.false_eq_true, if_false, deref, Option.getD_some,
    hv0, h1, ne_eq, not_true_eq_false, not_lt.mpr h2, not_lt.mpr h3, not_lt.mpr h4]

theorem refund_gas_snd {σ : Type} (env : Env σ) (p : ExecutionProcessor σ) (txn : Transaction)
    (gas_left : Nat) (hgl : txn.gas_limit < kU64) (hle : gas_left ≤ txn.gas_limit) :
    (p.refund_gas env txn gas_left).2
      = gas_left + min ((txn.gas_limit - gas_left) / 2) (env.total_refund p.state) := by
  have hw : wsub kU64 txn.gas_limit gas_left = txn.gas_limit - gas_left := wsub_eq_sub hle hgl
  have hmin : min ((txn.gas_limit - gas_left) / 2) (env.total_refund p.state)
      ≤ (txn.gas_limit - gas_left) / 2 := Nat.min_le_left _ _
  simp only [ExecutionProcessor.refund_gas, hw]
  exact Nat.mod_eq_of_lt (by omega)

theorem refund_gas_fst {σ : Type} (env : Env σ) (p : ExecutionProcessor σ) (txn : Transaction)
    (gas_left : Nat) :
    (p.refund_gas env txn gas_left).1
      = p.state_add_to_balance env (deref txn.from_)
          (((p.refund_gas env txn gas_left).2 * txn.gas_price) % kU256) := by
  simp only [ExecutionProcessor.refund_gas]

theorem refund_gas_le {σ : Type} (env : Env σ) (p : ExecutionProcessor σ) (txn : Transaction)
    (gas_left : Nat) (hgl : txn.gas_limit < kU64) (hle : gas_left ≤ txn.gas_limit) :
    gas_left ≤ (p.refund_gas env txn gas_left).2
      ∧ (p.refund_gas env txn gas_left).2 ≤ txn.gas_limit := by
  have hmin : min ((txn.gas_limit - gas_left) / 2) (env.total_refund p.state)
      ≤ (txn.gas_limit - gas_left) / 2 := Nat.min_le_left _ _
  rw [refund_gas_snd env p txn gas_left hgl hle]
  omega

/-- C4. For every transaction with a sender and every `gas_left ≤ gas_limit`, `refund_gas`
returns `gas_left + min(floor((gas_limit - gas_left)/2), total_refund())`, and its one effect is
to credit the sender with that returned amount times `gas_price`: the amount handed to
`add_to_balance` is this product as a 256-bit number, which is the product of natural numbers
whenever `gas_limit * gas_price` fits 256 bits, and for any `add_to_balance` that takes its
amount as a 256-bit number the state is the one obtained by crediting the product itself. The
gas finally charged, `gas_limit` minus the returned value, is at least `ceil(consumed/2)` and at
most `consumed = gas_limit - gas_left`. -/
theorem refund_gas_spec {σ : Type} (env : Env σ) (p : ExecutionProcessor σ) (txn : Transaction)
    (gas_left : Nat) (sender : Address) (hfrom : txn.from_ = some sender)
    (hgl : txn.gas_limit < kU64) (hle : gas_left ≤ txn.gas_limit) :
    (p.refund_gas env txn gas_left).2
        = gas_left + min ((txn.gas_limit - gas_left) / 2) (env.total_refund p.state)
      ∧ (p.refund_gas env txn gas_left).1
          = p.state_add_to_balance env sender
              (((p.refund_gas env txn gas_left).2 * txn.gas_price) % kU256)
      ∧ (txn.gas_limit * txn.gas_price < kU256 →
          (p.refund_gas env txn gas_left).1
            = p.state_add_to_balance env sender
                ((p.refund_gas env txn gas_left).2 * txn.gas_price))
      ∧ ((∀ s a v, env.add_to_balance s a (v % kU256) = env.add_to_balance s a v) →
          (p.refund_gas env txn gas_left).1.state
            = env.add_to_balance p.state sender
                ((p.refund_gas env txn gas_left).2 * txn.gas_price))
      ∧ wsub kU64 txn.gas_limit (p.refund_gas env txn gas_left).2
          = txn.gas_limit - (p.refund_gas env txn gas_left).2
      ∧ (txn.gas_limit - gas_left + 1) / 2 ≤ txn.gas_limit - (p.refund_gas env txn gas_left).2
      ∧ txn.gas_limit - (p.refund_gas env txn gas_left).2 ≤ txn.gas_limit - gas_left := by
  have hmin : min ((txn.gas_limit - gas_left) / 2) (env.total_refund p.state)
      ≤ (txn.gas_limit - gas_left) / 2 := Nat.min_le_left _ _
  have hret := refund_gas_snd env p txn gas_left hgl hle
  have hst := refund_gas_fst env p txn gas_left
  simp only [hfrom, deref, Option.getD_some] at hst
  have hbound := (refund_gas_le env p txn gas_left hgl hle).2
  refine ⟨hret, hst, ?_, ?_, wsub_eq_sub hbound hgl, ?_, ?_⟩
  · intro hfit
    have hle2 : (p.refund_gas env txn gas_left).2 * txn.gas_price
        ≤ txn.gas_limit * txn.gas_price := Nat.mul_le_mul_right _ hbound
    have : ((p.refund_gas env txn gas_left).2 * txn.gas_price) % kU256
        = (p.refund_gas env txn gas_left).2 * txn.gas_price := Nat.mod_eq_of_lt (by omega)
    rw [← this]
    exact hst
  · intro htyped
    rw [hst, state_add_to_balance_state, htyped]
  · rw [hret]; omega
  · rw [hret]; omega

/-- Instance of C4: 100000 gas given, 40000 handed back by the interpreter, a refund counter of
50000: the refund is capped at 30000, so 70000 is returned and 30000 charged. -/
theorem refund_gas_spec_witness :
    createTxn.from_ = some 1 ∧ createTxn.gas_limit < kU64 ∧ 40000 ≤ createTxn.gas_limit
      ∧ ({ processorOf (blockOf [createTxn] []) kEther with
            state := { ledgerWith kEther with refund := 50000 } }.refund_gas ledgerEnv createTxn
          40000).2 = 40000 + min ((createTxn.gas_limit - 40000) / 2) 50000 :=
  ⟨rfl, by decide, by decide,
    (refund_gas_spec ledgerEnv
      { processorOf (blockOf [createTxn] []) kEther with
          state := { ledgerWith kEther with refund := 50000 } }
      createTxn 40000 1 rfl (by decide) (by decide)).1⟩

/-- What `execute_checked` leaves behind, in terms of the state `s` handed to the interpreter,
the gas `vm_left` the interpreter returns and the value `ret` returned by `refund_gas`. -/
theorem execute_checked_spec {σ : Type} (env : Env σ) (p : ExecutionProcessor σ)
    (txn : Transaction) (nonce g0 : Nat) (sd : Bool) :
    ∃ (s : σ) (vm_left ret gas_used : Nat),
      vm_left = (env.execute s txn (wsub kU64 txn.gas_limit (g0 % kU64))).2.gas_left
      ∧ (txn.gas_limit < kU64 → vm_left ≤ txn.gas_limit →
          vm_left ≤ ret ∧ ret ≤ txn.gas_limit)
      ∧ gas_used = wsub kU64 txn.gas_limit ret
      ∧ (p.execute_checked env txn nonce g0 sd).1.trace
          = p.trace ++ [Event.subtract_from_balance (deref txn.from_)
                          ((txn.gas_limit * txn.gas_price) % kU512 % kU256),
                        Event.evm_execute (wsub kU64 txn.gas_limit (g0 % kU64)),
                        Event.add_to_balance (deref txn.from_) ((ret * txn.gas_price) % kU256),
                        Event.add_to_balance p.block.header.beneficiary
                          ((gas_used * txn.gas_price) % kU256)]
      ∧ (p.execute_checked env txn nonce g0 sd).1.gas_log = p.gas_log ++ [(txn, gas_used)]
      ∧ (p.execute_checked env txn nonce g0 sd).1.cumulative_gas_used_
          = (p.cumulative_gas_used_ + gas_used) % kU64
      ∧ (p.execute_checked env txn nonce g0 sd).2.cumulative_gas_used
          = (p.cumulative_gas_used_ + gas_used) % kU64
      ∧ (p.execute_checked env txn nonce g0 sd).1.block = p.block
      ∧ (p.execute_checked env txn nonce g0 sd).1.config = p.config := by
  have hex : ∀ (s : σ), ∃ (vm_left ret gas_used : Nat),
      vm_left = (env.execute s txn (wsub kU64 txn.gas_limit (g0 % kU64))).2.gas_left
      ∧ ret = (vm_left + min (wsub kU64 txn.gas_limit vm_left / 2)
                (env.total_refund (env.execute s txn (wsub kU64 txn.gas_limit (g0 % kU64))).1))
                % kU64
      ∧ gas_used = wsub kU64 txn.gas_limit ret := fun s => ⟨_, _, _, rfl, rfl, rfl⟩
  obtain ⟨vm_left, ret, gas_used, hvm, hret, hused⟩ := hex (env.clear_journal_and_substate
      (if txn.to_.isSome = true then
        env.set_nonce (env.subtract_from_balance p.state (deref txn.from_)
          ((txn.gas_limit * txn.gas_price) % kU512 % kU256)) (deref txn.from_)
          ((nonce + 1) % kU64)
      else env.subtract_from_balance p.state (deref txn.from_)
          ((txn.gas_limit * txn.gas_price) % kU512 % kU256)))
  refine ⟨_, vm_left, ret, gas_used, hvm, ?_, hused, ?_⟩
  · intro hgl hle
    have hw : wsub kU64 txn.gas_limit vm_left = txn.gas_limit - vm_left := wsub_eq_sub hle hgl
    rw [hw] at hret
    have hmin := Nat.min_le_left ((txn.gas_limit - vm_left) / 2)
      (env.total_refund (env.execute (env.clear_journal_and_substate
        (if txn.to_.isSome = true then
          env.set_nonce (env.subtract_from_balance p.state (deref txn.from_)
            ((txn.gas_limit * txn.gas_price) % kU512 % kU256)) (deref txn.from_)
            ((nonce + 1) % kU64)
        else env.subtract_from_balance p.state (deref txn.from_)
            ((txn.gas_limit * txn.gas_price) % kU512 % kU256))) txn
        (wsub kU64 txn.gas_limit (g0 % kU64))).1)
    rw [Nat.mod_eq_of_lt (by omega)] at hret
    omega
  · subst hused hret hvm
    cases hto : txn.to_.isSome <;>
      simp [ExecutionProcessor.execute_checked, ExecutionProcessor.evm_execute,
        ExecutionProcessor.refund_gas, ExecutionProcessor.state_add_to_balance,
        ExecutionProcessor.state_subtract_from_balance, hto]

/-- The state, the trace and the gas log that `execute_checked` leaves behind, with the amounts
as the code computes them: `s0` is the state handed to the interpreter, `s2` the state the
interpreter leaves, `vm_left` the gas it hands back and `ret` the value returned by
`refund_gas`. -/
theorem execute_checked_state {σ : Type} (env : Env σ) (p : ExecutionProcessor σ)
    (txn : Transaction) (nonce g0 : Nat) (sd : Bool) :
    ∃ (s0 s2 : σ) (vm_left ret : Nat),
      s0 = env.clear_journal_and_substate
            (if txn.to_.isSome = true then
              env.set_nonce (env.subtract_from_balance p.state (deref txn.from_)
                ((txn.gas_limit * txn.gas_price) % kU512 % kU256)) (deref txn.from_)
                ((nonce + 1) % kU64)
            else env.subtract_from_balance p.state (deref txn.from_)
                ((txn.gas_limit * txn.gas_price) % kU512 % kU256))
      ∧ s2 = (env.execute s0 txn (wsub kU64 txn.gas_limit (g0 % kU64))).1
      ∧ vm_left = (env.execute s0 txn (wsub kU64 txn.gas_limit (g0 % kU64))).2.gas_left
      ∧ ret = (vm_left + min (wsub kU64 txn.gas_limit vm_left / 2) (env.total_refund s2)) % kU64
      ∧ (p.execute_checked env txn nonce g0 sd).1.state
          = env.finalize_transaction
              (if sd = true then
                env.destruct_touched_dead (env.destruct_suicides
                  (env.add_to_balance
                    (env.add_to_balance s2 (deref txn.from_) ((ret * txn.gas_price) % kU256))
                    p.block.header.beneficiary
                    ((wsub kU64 txn.gas_limit ret * txn.gas_price) % kU256)))
              else
                env.destruct_suicides
                  (env.add_to_balance
                    (env.add_to_balance s2 (deref txn.from_) ((ret * txn.gas_price) % kU256))
                    p.block.header.beneficiary
                    ((wsub kU64 txn.gas_limit ret * txn.gas_price) % kU256)))
      ∧ (p.execute_checked env txn nonce g0 sd).1.trace
          = p.trace ++ [Event.subtract_from_balance (deref txn.from_)
                          ((txn.gas_limit * txn.gas_price) % kU512 % kU256),
                        Event.evm_execute (wsub kU64 txn.gas_limit (g0 % kU64)),
                        Event.add_to_balance (deref txn.from_) ((ret * txn.gas_price) % kU256),
                        Event.add_to_balance p.block.header.beneficiary
                          ((wsub kU64 txn.gas_limit ret * txn.gas_price) % kU256)]
      ∧ (p.execute_checked env txn nonce g0 sd).1.gas_log
          = p.gas_log ++ [(txn, wsub kU64 txn.gas_limit ret)] := by
  refine ⟨_, _, _, _, rfl, rfl, rfl, rfl, ?_, ?_, ?_⟩
  · cases hto : txn.to_.isSome <;> cases sd <;>
      simp [ExecutionProcessor.execute_checked, ExecutionProcessor.evm_execute,
        ExecutionProcessor.refund_gas, ExecutionProcessor.state_add_to_balance,
        ExecutionProcessor.state_subtract_from_balance, hto]
  · cases hto : txn.to_.isSome <;>
      simp [ExecutionProcessor.execute_checked, ExecutionProcessor.evm_execute,
        ExecutionProcessor.refund_gas, ExecutionProcessor.state_add_to_balance,
        ExecutionProcessor.state_subtract_from_balance, hto]
  · cases hto : txn.to_.isSome <;>
      simp [ExecutionProcessor.execute_checked, ExecutionProcessor.evm_execute,
        ExecutionProcessor.refund_gas, ExecutionProcessor.state_add_to_balance,
        ExecutionProcessor.state_subtract_from_balance, hto]

/-- C5. For a well-typed transaction that passes the preflight, a sender balance that is a
256-bit number and an interpreter that hands back at most `gas_limit`, the state after
`execute_transaction` is obtained from the state before by these steps, in this order: debit
`gas_limit * gas_price` from the sender (state `s1`); set the nonce (for a call) and clear the
journal; run the interpreter with `gas_limit - g0` gas (it leaves the state `s2` and hands back
`vm_left`); credit `gas_left * gas_price` to the sender, where
`gas_left = vm_left + min((gas_limit - vm_left) / 2, total_refund)`; credit
`(gas_limit - gas_left) * gas_price` to the beneficiary (state `s3`); destroy and finalize. The
trace lists the same three balance calls with the same amounts and the gas log holds the gas
used `gas_limit - gas_left`. All three products are products of natural numbers below 2^256,
the debit is covered by the balance, the debit equals the refund plus the fee, and the debit
less the refund is the fee credited to the beneficiary. For balance operations that add and
subtract in 256-bit arithmetic, the balance of the sender after the debit is its balance less
`gas_limit * gas_price`, and the two credits raise the balances left by the interpreter by the
refund and the fee (together `gas_limit * gas_price`), all other balances being kept. -/
theorem fee_conservation {σ : Type} (env : Env σ) (p : ExecutionProcessor σ) (txn : Transaction)
    (hwt : txn.WellTyped) (hpre : first_failing_check env p txn = none)
    (hbal : env.get_balance p.state (deref txn.from_) < kU256)
    (hgas : ∀ s g, g ≤ txn.gas_limit → (env.execute s txn g).2.gas_left ≤ txn.gas_limit) :
    ∃ (sender : Address) (gas vm_left gas_left : Nat) (s1 s0 s2 s3 : σ),
      txn.from_ = some sender
      ∧ gas = txn.gas_limit - intrinsic_gas env.fee txn
          (p.config.has_homestead p.block.header.number)
          (p.config.has_istanbul p.block.header.number)
      ∧ s1 = env.subtract_from_balance p.state sender (txn.gas_limit * txn.gas_price)
      ∧ s0 = env.clear_journal_and_substate
          (if txn.to_.isSome = true then env.set_nonce s1 sender ((txn.nonce + 1) % kU64)
            else s1)
      ∧ s2 = (env.execute s0 txn gas).1
      ∧ vm_left = (env.execute s0 txn gas).2.gas_left
      ∧ gas_left = vm_left + min ((txn.gas_limit - vm_left) / 2) (env.total_refund s2)
      ∧ gas_left ≤ txn.gas_limit
      ∧ s3 = env.add_to_balance
          (env.add_to_balance s2 sender (gas_left * txn.gas_price))
          p.block.header.beneficiary ((txn.gas_limit - gas_left) * txn.gas_price)
      ∧ (p.execute_transaction env txn).1.state
          = env.finalize_transaction
              (if p.config.has_spurious_dragon p.block.header.number = true then
                env.destruct_touched_dead (env.destruct_suicides s3)
              else env.destruct_suicides s3)
      ∧ (p.execute_transaction env txn).1.trace
          = p.trace ++ [Event.subtract_from_balance sender (txn.gas_limit * txn.gas_price),
                        Event.evm_execute gas,
                        Event.add_to_balance sender (gas_left * txn.gas_price),
                        Event.add_to_balance p.block.header.beneficiary
                          ((txn.gas_limit - gas_left) * txn.gas_price)]
      ∧ (p.execute_transaction env txn).1.gas_log
          = p.gas_log ++ [(txn, txn.gas_limit - gas_left)]
      ∧ txn.gas_limit * txn.gas_price
          = gas_left * txn.gas_price + (txn.gas_limit - gas_left) * txn.gas_price
      ∧ txn.gas_limit * txn.gas_price - gas_left * txn.gas_price
          = (txn.gas_limit - gas_left) * txn.gas_price
      ∧ txn.gas_limit * txn.gas_price < kU256
      ∧ gas_left * txn.gas_price < kU256
      ∧ (txn.gas_limit - gas_left) * txn.gas_price < kU256
      ∧ txn.gas_limit * txn.gas_price ≤ env.get_balance p.state sender
      ∧ ((∀ s a v x, env.get_balance (env.subtract_from_balance s a v) x
              = if x = a then wsub kU256 (env.get_balance s a) v else env.get_balance s x) →
          (∀ s a v x, env.get_balance (env.add_to_balance s a v) x
              = if x = a then (env.get_balance s a + v) % kU256 else env.get_balance s x) →
          env.get_balance s1 sender
              = env.get_balance p.state sender - txn.gas_limit * txn.gas_price
            ∧ (∀ x, x ≠ sender → env.get_balance s1 x = env.get_balance p.state x)
            ∧ (sender ≠ p.block.header.beneficiary →
                env.get_balance s3 sender
                    = (env.get_balance s2 sender + gas_left * txn.gas_price) % kU256
                  ∧ env.get_balance s3 p.block.header.beneficiary
                    = (env.get_balance s2 p.block.header.beneficiary
                        + (txn.gas_limit - gas_left) * txn.gas_price) % kU256)
            ∧ (sender = p.block.header.beneficiary →
                env.get_balance s3 sender
                  = (env.get_balance s2 sender + txn.gas_limit * txn.gas_price) % kU256)
            ∧ (∀ x, x ≠ sender → x ≠ p.block.header.beneficiary →
                env.get_balance s3 x = env.get_balance s2 x)) := by
  obtain ⟨sender, hfrom, h1, h2, h3, _⟩ := first_failing_check_none hpre
  have hgl : txn.gas_limit < kU64 := hwt.2.1
  simp only [hfrom, deref, Option.getD_some] at hbal
  have hd : deref txn.from_ = sender := by rw [hfrom]; rfl
  rw [execute_transaction_of_pass env p txn hwt hpre, hd]
  obtain ⟨s0, s2, vm_left, ret, hs0, hs2, hvm, hret, hstate, htrace, hlog⟩ :=
    execute_checked_state env p txn (env.get_nonce p.state sender)
      (intrinsic_gas env.fee txn (p.config.has_homestead p.block.header.number)
        (p.config.has_istanbul p.block.header.number))
      (p.config.has_spurious_dragon p.block.header.number)
  have hg0 : intrinsic_gas env.fee txn (p.config.has_homestead p.block.header.number)
      (p.config.has_istanbul p.block.header.number) % kU64
      = intrinsic_gas env.fee txn (p.config.has_homestead p.block.header.number)
      (p.config.has_istanbul p.block.header.number) := Nat.mod_eq_of_lt (by omega)
  have hgaseq : wsub kU64 txn.gas_limit
      (intrinsic_gas env.fee txn (p.config.has_homestead p.block.header.number)
        (p.config.has_istanbul p.block.header.number) % kU64)
      = txn.gas_limit - intrinsic_gas env.fee txn (p.config.has_homestead p.block.header.number)
        (p.config.has_istanbul p.block.header.number) := by
    rw [hg0, wsub_eq_sub h2 hgl]
  have hdebit : txn.gas_limit * txn.gas_price < kU256 := by omega
  have hm1 : txn.gas_limit * txn.gas_price % kU512 % kU256 = txn.gas_limit * txn.gas_price := by
    have hlt : txn.gas_limit * txn.gas_price < kU512 := by
      simp only [kU256, kU512] at hdebit ⊢
      omega
    rw [Nat.mod_eq_of_lt hlt, Nat.mod_eq_of_lt hdebit]
  rw [hgaseq] at hs2 hvm htrace
  rw [hm1] at hs0 htrace
  rw [hd] at hs0 hstate htrace
  rw [h1] at hs0
  have hvmle : vm_left ≤ txn.gas_limit := by
    rw [hvm]; exact hgas _ _ (Nat.sub_le _ _)
  have hw : wsub kU64 txn.gas_limit vm_left = txn.gas_limit - vm_left := wsub_eq_sub hvmle hgl
  have hmin := Nat.min_le_left ((txn.gas_limit - vm_left) / 2) (env.total_refund s2)
  rw [hw, Nat.mod_eq_of_lt (by omega)] at hret
  have hretle : ret ≤ txn.gas_limit := by omega
  have hused : wsub kU64 txn.gas_limit ret = txn.gas_limit - ret := wsub_eq_sub hretle hgl
  have hsplit : txn.gas_limit * txn.gas_price
      = ret * txn.gas_price + (txn.gas_limit - ret) * txn.gas_price := by
    rw [← Nat.add_mul]
    congr 1
    omega
  have hm2 : ret * txn.gas_price % kU256 = ret * txn.gas_price := Nat.mod_eq_of_lt (by omega)
  have hm3 : (txn.gas_limit - ret) * txn.gas_price % kU256 = (txn.gas_limit - ret) * txn.gas_price :=
    Nat.mod_eq_of_lt (by omega)
  rw [hused, hm2, hm3] at hstate htrace
  rw [hused] at hlog
  refine ⟨sender, _, vm_left, ret, _, s0, s2, _, hfrom, rfl, rfl, hs0, hs2, hvm, hret, hretle,
    rfl, hstate, htrace, hlog, hsplit, by omega, hdebit, by omega, by omega, by omega, ?_⟩
  intro hsub hadd
  have hb1 : env.get_balance
      (env.subtract_from_balance p.state sender (txn.gas_limit * txn.gas_price)) sender
      = env.get_balance p.state sender - txn.gas_limit * txn.gas_price := by
    rw [hsub, if_pos rfl]
    exact wsub_eq_sub (by omega) hbal
  refine ⟨hb1, ?_, ?_, ?_, ?_⟩
  · intro x hx
    rw [hsub, if_neg hx]
  · intro hne
    constructor
    · rw [hadd, if_neg hne, hadd, if_pos rfl]
    · rw [hadd, if_pos rfl, hadd, if_neg (fun e => hne e.symm)]
  · intro heq
    rw [← heq, hadd, if_pos rfl, hadd, if_pos rfl, Nat.mod_add_mod, Nat.add_assoc, ← hsplit]
  · intro x hx1 hx2
    rw [hadd, if_neg hx2, hadd, if_neg hx1]

/-- One successful run of `execute_transaction` under the block gas invariant: the gas used is
at most the gas limit of the transaction and fits under the block gas limit, so the 64-bit
counter does not wrap. -/
theorem execute_transaction_step {σ : Type} (env : Env σ) (p q : ExecutionProcessor σ)
    (txn : Transaction) (r : Receipt) (hwt : txn.WellTyped)
    (hhdr : p.block.header.gas_limit < kU64)
    (hinv : p.cumulative_gas_used_ ≤ p.block.header.gas_limit)
    (hinterp : ∀ s t g, (env.execute s t g).2.gas_left ≤ g)
    (hrun : p.execute_transaction env txn = (q, .ok r)) :
    ∃ g, g ≤ txn.gas_limit ∧ q.gas_log = p.gas_log ++ [(txn, g)]
      ∧ q.cumulative_gas_used_ = p.cumulative_gas_used_ + g
      ∧ r.cumulative_gas_used = p.cumulative_gas_used_ + g
      ∧ q.cumulative_gas_used_ ≤ p.block.header.gas_limit
      ∧ q.block = p.block ∧ q.config = p.config := by
  have hpre : first_failing_check env p txn = none := by
    cases hc : first_failing_check env p txn with
    | none => rfl
    | some reason =>
      have h := (execute_transaction_cases env p txn hwt).1 reason hc
      rw [hrun] at h
      cases h
  obtain ⟨sender, hfrom, _, h2, _, h4⟩ := first_failing_check_none hpre
  have hgl : txn.gas_limit < kU64 := hwt.2.1
  have heq := execute_transaction_of_pass env p txn hwt hpre
  rw [hrun] at heq
  obtain ⟨s, vm_left, ret, gas_used, hvm, hret, hused, _, hlog, hcum, hrc, hblock, hconfig⟩ :=
    execute_checked_spec env p txn (env.get_nonce p.state (deref txn.from_))
      (intrinsic_gas env.fee txn (p.config.has_homestead p.block.header.number)
        (p.config.has_istanbul p.block.header.number))
      (p.config.has_spurious_dragon p.block.header.number)
  have hq := congrArg Prod.fst heq
  have hr : r = _ := Except.ok.inj (congrArg Prod.snd heq)
  simp only at hq
  rw [← hq] at hlog hcum hblock hconfig
  rw [← hr] at hrc
  have hg0 : intrinsic_gas env.fee txn (p.config.has_homestead p.block.header.number)
      (p.config.has_istanbul p.block.header.number) % kU64
      = intrinsic_gas env.fee txn (p.config.has_homestead p.block.header.number)
      (p.config.has_istanbul p.block.header.number) := Nat.mod_eq_of_lt (by omega)
  have hgasle : wsub kU64 txn.gas_limit
      (intrinsic_gas env.fee txn (p.config.has_homestead p.block.header.number)
        (p.config.has_istanbul p.block.header.number) % kU64) ≤ txn.gas_limit := by
    rw [hg0, wsub_eq_sub h2 hgl]; omega
  have hvmle : vm_left ≤ txn.gas_limit := by
    rw [hvm]; exact le_trans (hinterp _ _ _) hgasle
  obtain ⟨_, hretle⟩ := hret hgl hvmle
  have husedeq : gas_used = txn.gas_limit - ret := by
    rw [hused, wsub_eq_sub hretle hgl]
  have havail : p.available_gas = p.block.header.gas_limit - p.cumulative_gas_used_ :=
    wsub_eq_sub hinv hhdr
  rw [havail] at h4
  have hmod : (p.cumulative_gas_used_ + gas_used) % kU64 = p.cumulative_gas_used_ + gas_used :=
    Nat.mod_eq_of_lt (by omega)
  rw [hmod] at hcum hrc
  exact ⟨gas_used, by omega, hlog, hcum, hrc, by omega, hblock, hconfig⟩

/-- The loop over the transactions of a block, when it runs to the end. -/
theorem execute_transactions_spec {σ : Type} (env : Env σ)
    (hinterp : ∀ s t g, (env.execute s t g).2.gas_left ≤ g) :
    ∀ (txns : List Transaction) (p q : ExecutionProcessor σ) (acc receipts : List Receipt),
      (∀ t ∈ txns, t.WellTyped) → p.block.header.gas_limit < kU64 →
      p.cumulative_gas_used_ ≤ p.block.header.gas_limit →
      p.execute_transactions env txns acc = (q, .ok receipts) →
      ∃ (rs : List Receipt) (gs : List Nat),
        receipts = acc ++ rs ∧ rs.length = txns.length ∧ gs.length = txns.length
        ∧ q.gas_log = p.gas_log ++ txns.zip gs
        ∧ (∀ i (hi : i < rs.length),
            rs[i].cumulative_gas_used = p.cumulative_gas_used_ + (gs.take (i + 1)).sum)
        ∧ (∀ r ∈ rs, p.cumulative_gas_used_ ≤ r.cumulative_gas_used)
        ∧ List.Pairwise (fun a b => a.cumulative_gas_used ≤ b.cumulative_gas_used) rs
        ∧ (∀ i (hi : i < gs.length) (ht : i < txns.length), gs[i] ≤ txns[i].gas_limit)
        ∧ q.block = p.block ∧ q.config = p.config
        ∧ q.cumulative_gas_used_ = p.cumulative_gas_used_ + gs.sum
        ∧ q.cumulative_gas_used_ ≤ p.block.header.gas_limit := by
  intro txns
  induction txns with
  | nil =>
    intro p q acc receipts _ _ hinv hrun
    simp only [ExecutionProcessor.execute_transactions, Prod.mk.injEq, Except.ok.injEq] at hrun
    obtain ⟨hp, hr⟩ := hrun
    subst hp hr
    exact ⟨[], [], by simp, rfl, rfl, by simp, by simp, by simp, List.Pairwise.nil, by simp,
      rfl, rfl, by simp, hinv⟩
  | cons txn rest ih =>
    intro p q acc receipts hwt hhdr hinv hrun
    simp only [ExecutionProcessor.execute_transactions] at hrun
    cases hstep : p.execute_transaction env txn with
    | mk p1 res =>
      rw [hstep] at hrun
      cases res with
      | error e => simp at hrun
      | ok r =>
        simp only at hrun
        obtain ⟨g, hg, hlog, hcum, hrc, hle, hblock, hconfig⟩ :=
          execute_transaction_step env p p1 txn r (hwt txn (List.mem_cons_self _ _)) hhdr hinv
            hinterp hstep
        obtain ⟨rs, gs, hrec, hlen, hglen, hlog2, hidx, hlow, hpw, hgs, hb2, hc2, hcum2, hle2⟩ :=
          ih p1 q (acc ++ [r]) receipts (fun t ht => hwt t (List.mem_cons_of_mem _ ht))
            (by rw [hblock]; exact hhdr) (by rw [hblock]; exact hle) hrun
        refine ⟨r :: rs, g :: gs, by simp [hrec], by simp [hlen], by simp [hglen], ?_, ?_, ?_,
          ?_, ?_, hb2.trans hblock, hc2.trans hconfig, ?_, ?_⟩
        · rw [hlog2, hlog]; simp
        · intro i hi
          cases i with
          | zero => simp [hrc]
          | succ j =>
            have hj : j < rs.length := by simpa using hi
            have := hidx j hj
            simp only [List.getElem_cons_succ, List.take_succ_cons, List.sum_cons]
            rw [this, hcum]; omega
        · intro x hx
          rcases List.mem_cons.mp hx with h | h
          · rw [h, hrc]; omega
          · have := hlow x h
            omega
        · refine List.Pairwise.cons ?_ hpw
          intro x hx
          have := hlow x hx
          omega
        · intro i hi ht
          cases i with
          | zero => simpa using hg
          | succ j =>
            simp only [List.getElem_cons_succ]
            exact hgs j (by simpa using hi) (by simpa using ht)
        · rw [hcum2, hcum]; simp; omega
        · rw [hblock] at hle2; exact hle2

/-- The fields that the reward loop never touches. -/
theorem apply_rewards_frame {σ : Type} (env : Env σ) (p : ExecutionProcessor σ) :
    (p.apply_rewards env).block = p.block ∧ (p.apply_rewards env).config = p.config
      ∧ (p.apply_rewards env).gas_log = p.gas_log
      ∧ (p.apply_rewards env).cumulative_gas_used_ = p.cumulative_gas_used_ := by
  have key : ∀ (f : BlockHeader → Nat) (g : Nat → Nat) (ommers : List BlockHeader)
      (q : ExecutionProcessor σ) (m : Nat),
      (ommers.foldl (fun (acc : ExecutionProcessor σ × Nat) ommer =>
          (acc.1.state_add_to_balance env ommer.beneficiary (f ommer), g acc.2)) (q, m)).1.block
          = q.block
      ∧ (ommers.foldl (fun (acc : ExecutionProcessor σ × Nat) ommer =>
          (acc.1.state_add_to_balance env ommer.beneficiary (f ommer), g acc.2)) (q, m)).1.config
          = q.config
      ∧ (ommers.foldl (fun (acc : ExecutionProcessor σ × Nat) ommer =>
          (acc.1.state_add_to_balance env ommer.beneficiary (f ommer), g acc.2)) (q, m)).1.gas_log
          = q.gas_log
      ∧ (ommers.foldl (fun (acc : ExecutionProcessor σ × Nat) ommer =>
          (acc.1.state_add_to_balance env ommer.beneficiary (f ommer), g acc.2))
            (q, m)).1.cumulative_gas_used_ = q.cumulative_gas_used_ := by
    intro f g ommers
    induction ommers with
    | nil => intro q m; exact ⟨rfl, rfl, rfl, rfl⟩
    | cons o os ih =>
      intro q m
      simp only [List.foldl_cons]
      obtain ⟨h1, h2, h3, h4⟩ := ih (q.state_add_to_balance env o.beneficiary (f o)) (g m)
      exact ⟨h1, h2, h3, h4⟩
  unfold ExecutionProcessor.apply_rewards
  simp only [ExecutionProcessor.state_add_to_balance]
  obtain ⟨h1, h2, h3, h4⟩ := key
    (ommer_reward p.block.header.number (block_reward env p.config p.block.header.number % kU256))
    (fun m => (m + block_reward env p.config p.block.header.number % kU256 / 32) % kU256)
    p.block.ommers { p with trace := p.trace ++ [Event.apply_rewards] }
    (block_reward env p.config p.block.header.number % kU256)
  exact ⟨h1, h2, h3, h4⟩

theorem ommer_reward_exact (n R : Nat) (o : BlockHeader) (hn : n < kU64) (hR : R < 2 ^ 128)
    (hlo : o.number < n) (hhi : n ≤ o.number + 8) :
    ommer_reward n R o = (8 + o.number - n) * R / 8 := by
  unfold ommer_reward
  have hd : wsub kU64 ((8 + o.number) % kU64) n = 8 + o.number - n := by
    simp only [wsub, kU64] at hn ⊢
    omega
  rw [hd]
  have hd7 : 8 + o.number - n ≤ 7 := by omega
  have hprod : (8 + o.number - n) * R ≤ 7 * R := Nat.mul_le_mul_right _ hd7
  have hm : (8 + o.number - n) * R % kU256 = (8 + o.number - n) * R :=
    Nat.mod_eq_of_lt (by simp only [kU256]; omega)
  rw [hm]
  norm_num

/-- The reward loop of `apply_rewards` when nothing wraps. -/
theorem apply_rewards_fold {σ : Type} (env : Env σ) (n R : Nat) (hn : n < kU64)
    (hR : R < 2 ^ 128) :
    ∀ (ommers : List BlockHeader) (q : ExecutionProcessor σ) (m : Nat),
      (∀ o ∈ ommers, o.number < n ∧ n ≤ o.number + 8) →
      m + R / 32 * ommers.length < kU256 →
      (ommers.foldl (fun (acc : ExecutionProcessor σ × Nat) ommer =>
          (acc.1.state_add_to_balance env ommer.beneficiary (ommer_reward n R ommer),
            (acc.2 + R / 32) % kU256)) (q, m)).1.state
          = ommers.foldl (fun s o => env.add_to_balance s o.beneficiary
              ((8 + o.number - n) * R / 8)) q.state
      ∧ (ommers.foldl (fun (acc : ExecutionProcessor σ × Nat) ommer =>
          (acc.1.state_add_to_balance env ommer.beneficiary (ommer_reward n R ommer),
            (acc.2 + R / 32) % kU256)) (q, m)).1.trace
          = q.trace ++ ommers.map (fun o => Event.add_to_balance o.beneficiary
              ((8 + o.number - n) * R / 8))
      ∧ (ommers.foldl (fun (acc : ExecutionProcessor σ × Nat) ommer =>
          (acc.1.state_add_to_balance env ommer.beneficiary (ommer_reward n R ommer),
            (acc.2 + R / 32) % kU256)) (q, m)).2 = m + R / 32 * ommers.length := by
  intro ommers
  induction ommers with
  | nil => intro q m _ _; simp
  | cons o os ih =>
    intro q m hrange hfit
    simp only [List.foldl_cons, List.length_cons, List.map_cons] at hfit ⊢
    obtain ⟨hlo, hhi⟩ := hrange o (List.mem_cons_self _ _)
    have hstep : (m + R / 32) % kU256 = m + R / 32 := by
      apply Nat.mod_eq_of_lt
      have : R / 32 * (os.length + 1) = R / 32 * os.length + R / 32 := Nat.mul_succ _ _
      omega
    have hfit2 : m + R / 32 + R / 32 * os.length < kU256 := by
      have : R / 32 * (os.length + 1) = R / 32 * os.length + R / 32 := Nat.mul_succ _ _
      omega
    rw [hstep, ommer_reward_exact n R o hn hR hlo hhi]
    obtain ⟨h1, h2, h3⟩ := ih
      (q.state_add_to_balance env o.beneficiary ((8 + o.number - n) * R / 8)) (m + R / 32)
      (fun x hx => hrange x (List.mem_cons_of_mem _ hx)) hfit2
    refine ⟨h1, ?_, ?_⟩
    · rw [h2]; simp [ExecutionProcessor.state_add_to_balance]
    · rw [h3, Nat.mul_succ]; omega

/-- C7. For a block whose ommers satisfy `ommer.number < block_number ≤ ommer.number + 8`
(with a 64-bit block number, fewer than 2^64 ommers and a reward constant below 2^128, so that
no 256-bit operation wraps), `apply_rewards` credits each ommer beneficiary, in order, with
`floor((8 + ommer.number - block_number) * block_reward / 8)` and then the block beneficiary
with `block_reward + floor(block_reward / 32) * |ommers|`, and makes no other balance
operation; `block_reward` is the Constantinople constant if Constantinople is active, else the
Byzantium constant if Byzantium is active, else the Frontier constant. -/
theorem apply_rewards_spec {σ : Type} (env : Env σ) (p : ExecutionProcessor σ)
    (hn : p.block.header.number < kU64) (hlen : p.block.ommers.length < kU64)
    (hR : block_reward env p.config p.block.header.number < 2 ^ 128)
    (hrange : ∀ o ∈ p.block.ommers,
      o.number < p.block.header.number ∧ p.block.header.number ≤ o.number + 8) :
    (p.apply_rewards env).state
        = env.add_to_balance
            (p.block.ommers.foldl (fun s o => env.add_to_balance s o.beneficiary
              ((8 + o.number - p.block.header.number)
                * block_reward env p.config p.block.header.number / 8)) p.state)
            p.block.header.beneficiary
            (block_reward env p.config p.block.header.number
              + block_reward env p.config p.block.header.number / 32 * p.block.ommers.length)
      ∧ (p.apply_rewards env).trace
          = p.trace ++ [Event.apply_rewards]
            ++ p.block.ommers.map (fun o => Event.add_to_balance o.beneficiary
                ((8 + o.number - p.block.header.number)
                  * block_reward env p.config p.block.header.number / 8))
            ++ [Event.add_to_balance p.block.header.beneficiary
                (block_reward env p.config p.block.header.number
                  + block_reward env p.config p.block.header.number / 32
                    * p.block.ommers.length)]
      ∧ block_reward env p.config p.block.header.number
          = (if p.config.has_constantinople p.block.header.number = true then
              env.param.kConstantinopleBlockReward
            else if p.config.has_byzantium p.block.header.number = true then
              env.param.kByzantiumBlockReward
            else env.param.kFrontierBlockReward) := by
  have hRm : block_reward env p.config p.block.header.number % kU256
      = block_reward env p.config p.block.header.number :=
    Nat.mod_eq_of_lt (by simp only [kU256]; omega)
  have hprod : block_reward env p.config p.block.header.number / 32 * p.block.ommers.length
      ≤ 2 ^ 128 * 2 ^ 64 := by
    apply Nat.mul_le_mul
    · omega
    · simp only [kU64] at hlen; omega
  have hfit : block_reward env p.config p.block.header.number
      + block_reward env p.config p.block.header.number / 32 * p.block.ommers.length < kU256 := by
    simp only [kU256]; omega
  obtain ⟨h1, h2, h3⟩ := apply_rewards_fold env p.block.header.number
    (block_reward env p.config p.block.header.number) hn hR p.block.ommers
    { p with trace := p.trace ++ [Event.apply_rewards] }
    (block_reward env p.config p.block.header.number) hrange hfit
  refine ⟨?_, ?_, rfl⟩
  · simp only [ExecutionProcessor.apply_rewards, hRm, state_add_to_balance_state]
    rw [h1, h3]
  · simp only [ExecutionProcessor.apply_rewards, hRm, state_add_to_balance_trace]
    rw [h2, h3]

theorem start_block_frame {σ : Type} (env : Env σ) (p : ExecutionProcessor σ) :
    (p.start_block env).block = p.block ∧ (p.start_block env).config = p.config
      ∧ (p.start_block env).gas_log = p.gas_log ∧ (p.start_block env).trace = p.trace
      ∧ (p.start_block env).cumulative_gas_used_ = 0 := by
  unfold ExecutionProcessor.start_block
  refine ⟨?_, ?_, ?_, ?_, rfl⟩ <;> (simp only; split <;> rfl)

theorem finish_block_frame {σ : Type} (env : Env σ) (p : ExecutionProcessor σ) :
    (p.finish_block env).block = p.block ∧ (p.finish_block env).config = p.config
      ∧ (p.finish_block env).gas_log = p.gas_log
      ∧ (p.finish_block env).cumulative_gas_used_ = p.cumulative_gas_used_ := by
  obtain ⟨f1, f2, f3, f4⟩ := apply_rewards_frame env p
  unfold ExecutionProcessor.finish_block
  refine ⟨?_, ?_, ?_, ?_⟩ <;> (simp only; split <;> assumption)

/-- What `execute_block` returns in terms of the outcome of its loop. -/
theorem execute_block_unfold {σ : Type} (env : Env σ) (p : ExecutionProcessor σ) :
    (∀ q e, (p.start_block env).execute_transactions env p.block.transactions []
          = (q, .error e) → p.execute_block env = (q, .error e))
      ∧ (∀ q receipts, (p.start_block env).execute_transactions env p.block.transactions []
          = (q, .ok receipts) → p.execute_block env = (q.finish_block env, .ok receipts)) := by
  constructor
  · intro q e h
    simp only [ExecutionProcessor.execute_block, h]
  · intro q receipts h
    simp only [ExecutionProcessor.execute_block, h]

/-- C6. When `ExecutionProcessor::execute_block` completes without error on a block of
well-typed transactions with a 64-bit gas limit, and the interpreter never returns more gas
than it was given, it returns one receipt per transaction; the transactions were charged in
block order the amounts `gs`, receipt `i` carries the sum of `gs[0..i]` (the counter is reset to
0 before the first transaction, whatever it held before), and the cumulative values are
non-decreasing along the receipts. -/
theorem execute_block_receipts {σ : Type} (env : Env σ) (p : ExecutionProcessor σ)
    (receipts : List Receipt)
    (hwt : ∀ t ∈ p.block.transactions, t.WellTyped)
    (hhdr : p.block.header.gas_limit < kU64)
    (hinterp : ∀ s t g, (env.execute s t g).2.gas_left ≤ g)
    (hok : (p.execute_block env).2 = .ok receipts) :
    (p.start_block env).cumulative_gas_used_ = 0
      ∧ receipts.length = p.block.transactions.length
      ∧ ∃ gs : List Nat, gs.length = p.block.transactions.length
        ∧ (p.execute_block env).1.gas_log = p.gas_log ++ p.block.transactions.zip gs
        ∧ (∀ i (hi : i < receipts.length),
            receipts[i].cumulative_gas_used = (gs.take (i + 1)).sum)
        ∧ (∀ i (hi : i < gs.length) (ht : i < p.block.transactions.length),
            gs[i] ≤ p.block.transactions[i].gas_limit)
        ∧ List.Pairwise (fun a b => a.cumulative_gas_used ≤ b.cumulative_gas_used) receipts := by
  obtain ⟨hb, _, hl, _, hc⟩ := start_block_frame env p
  obtain ⟨herr, hgood⟩ := execute_block_unfold env p
  cases hloop : (p.start_block env).execute_transactions env p.block.transactions [] with
  | mk q res =>
    cases res with
    | error e =>
      rw [herr q e hloop] at hok
      cases hok
    | ok rs0 =>
      rw [hgood q rs0 hloop] at hok ⊢
      have hrs : rs0 = receipts := Except.ok.inj hok
      subst hrs
      obtain ⟨rs, gs, hrec, hlen, hglen, hlog2, hidx, _, hpw, hgs, _⟩ :=
        execute_transactions_spec env hinterp p.block.transactions (p.start_block env) q [] rs0
          hwt (by rw [hb]; exact hhdr) (by rw [hc]; exact Nat.zero_le _) hloop
      simp only [List.nil_append] at hrec
      subst hrec
      refine ⟨hc, hlen, gs, hglen, ?_, ?_, hgs, hpw⟩
      · rw [(finish_block_frame env q).2.2.1, hlog2, hl]
      · intro i hi
        have := hidx i hi
        rw [hc] at this
        simpa using this

theorem mismatch_messages_ne (n : Nat) :
    ("gas mismatch for block " ++ toString n : String)
      ≠ "receipt root mismatch for block " ++ toString n := by
  intro h
  have h2 := congrArg String.data h
  simp only [String.data_append] at h2
  have h3 := congrArg List.head? h2
  simp at h3

theorem last_cumulative_eq (receipts : List Receipt) :
    (if (!receipts.isEmpty) = true then
        (receipts.getLast?.map Receipt.cumulative_gas_used).getD 0 else 0)
      = last_cumulative_gas_used receipts := by
  unfold last_cumulative_gas_used
  cases h : receipts.getLast? with
  | none => simp
  | some r =>
    have hne : receipts ≠ [] := by
      intro hnil
      rw [hnil] at h
      cases h
    have : receipts.isEmpty = false := by
      cases receipts with
      | nil => exact absurd rfl hne
      | cons _ _ => rfl
    simp [this]

/-- C8. When the processor returns the receipts of the block, the free function `execute_block`
throws the gas mismatch error if and only if the `cumulative_gas_used` of the last receipt (0
when there is none) differs from `header.gas_used`; when these agree it throws the receipt root
mismatch error if and only if Byzantium is active at the block number and the trie root of the
receipts differs from `header.receipts_root`; in every other case it returns the receipts of
the processor unchanged. -/
theorem execute_block_validation {σ : Type} (env : Env σ) (block : Block) (state : σ)
    (config : ChainConfig) (receipts : List Receipt)
    (hproc : ((ExecutionProcessor.new block state config).execute_block env).2 = .ok receipts) :
    ((execute_block env block state config).2
          = .error ⟨"gas mismatch for block " ++ toString block.header.number⟩
        ↔ last_cumulative_gas_used receipts ≠ block.header.gas_used)
      ∧ (last_cumulative_gas_used receipts = block.header.gas_used →
          ((execute_block env block state config).2
              = .error ⟨"receipt root mismatch for block " ++ toString block.header.number⟩
            ↔ (config.has_byzantium block.header.number = true
                ∧ env.root_hash receipts ≠ block.header.receipts_root)))
      ∧ (last_cumulative_gas_used receipts = block.header.gas_used →
          ¬ (config.has_byzantium block.header.number = true
                ∧ env.root_hash receipts ≠ block.header.receipts_root) →
          (execute_block env block state config).2 = .ok receipts) := by
  have hval : (execute_block env block state config).2
      = if last_cumulative_gas_used receipts ≠ block.header.gas_used then
          .error ⟨"gas mismatch for block " ++ toString block.header.number⟩
        else if (config.has_byzantium block.header.number
            && env.root_hash receipts != block.header.receipts_root) = true then
          .error ⟨"receipt root mismatch for block " ++ toString block.header.number⟩
        else .ok receipts := by
    have hrun : (ExecutionProcessor.new block state config).execute_block env
        = (((ExecutionProcessor.new block state config).execute_block env).1, .ok receipts) := by
      rw [← hproc]
    unfold execute_block
    simp only []
    rw [hrun]
    simp only [last_cumulative_eq]
    split_ifs <;> rfl
  rw [hval]
  have hne := mismatch_messages_ne block.header.number
  refine ⟨?_, ?_, ?_⟩
  · constructor
    · intro h
      by_contra hc
      rw [if_neg (not_not.mpr hc)] at h
      split_ifs at h
      · exact hne (ValidationError.mk.inj (Except.error.inj h)).symm
    · intro h
      rw [if_pos h]
  · intro heq
    rw [if_neg (not_not.mpr heq)]
    constructor
    · intro h
      split_ifs at h with hc
      simpa using hc
    · intro h
      have hc : (config.has_byzantium block.header.number
          && env.root_hash receipts != block.header.receipts_root) = true := by
        simpa using h
      rw [if_pos hc]
  · intro heq hn
    rw [if_neg (not_not.mpr heq)]
    have hc : ¬ (config.has_byzantium block.header.number
        && env.root_hash receipts != block.header.receipts_root) = true := by
      simpa using hn
    rw [if_neg hc]

/-- Instance of C5: a transfer of 1 ether with a gas limit of 50000 by a sender holding 10
ether. 50000 gwei are debited, the interpreter is given 29000 gas and hands it all back, 29000
gwei are refunded to the sender and 21000 gwei go to the beneficiary; the sender ends with 10
ether less 1 ether less 21000 gwei. -/
theorem fee_conservation_witness :
    roomyTxn.WellTyped
      ∧ first_failing_check ledgerEnv (processorOf (blockOf [roomyTxn] []) (10 * kEther))
          roomyTxn = none
      ∧ ledgerEnv.get_balance (processorOf (blockOf [roomyTxn] []) (10 * kEther)).state
          (deref roomyTxn.from_) < kU256
      ∧ ((processorOf (blockOf [roomyTxn] []) (10 * kEther)).execute_transaction ledgerEnv
          roomyTxn).1.trace
          = [Event.subtract_from_balance 1 50000000000000, Event.evm_execute 29000,
             Event.add_to_balance 1 29000000000000, Event.add_to_balance 9 21000000000000]
      ∧ ((processorOf (blockOf [roomyTxn] []) (10 * kEther)).execute_transaction ledgerEnv
          roomyTxn).1.state.balance 1 = 10 * kEther - kEther - 21000000000000
      ∧ ((processorOf (blockOf [roomyTxn] []) (10 * kEther)).execute_transaction ledgerEnv
          roomyTxn).1.state.balance 9 = 21000000000000
      ∧ ((processorOf (blockOf [roomyTxn] []) (10 * kEther)).execute_transaction ledgerEnv
          roomyTxn).1.state.balance 2 = kEther
      ∧ roomyTxn.gas_limit * roomyTxn.gas_price < kU256 := by
  obtain ⟨_, _, _, _, _, _, _, _, _, _, _, _, _, _, _, _, _, _, _, _, _, _, hfit, _⟩ :=
    fee_conservation ledgerEnv (processorOf (blockOf [roomyTxn] []) (10 * kEther)) roomyTxn
      (by decide) (by decide) (by decide) (fun _ _ hg => hg)
  exact ⟨by decide, by decide, by decide, by decide, by decide, by decide, by decide, hfit⟩

/-- Instance of C6: two plain transfers in one block give the receipts 21000 and 42000. -/
theorem execute_block_receipts_witness :
    ((processorOf (blockOf [transferTxn, transferTxn2] []) (10 * kEther)).execute_block
        ledgerEnv).2
        = .ok [{ success := true, cumulative_gas_used := 21000, bloom := [], logs := [] },
               { success := true, cumulative_gas_used := 42000, bloom := [], logs := [] }]
      ∧ [({ success := true, cumulative_gas_used := 21000, bloom := [], logs := [] } : Receipt),
         { success := true, cumulative_gas_used := 42000, bloom := [], logs := [] }].length
          = (processorOf (blockOf [transferTxn, transferTxn2] []) (10 * kEther)).block.transactions.length :=
  ⟨by rfl,
    (execute_block_receipts ledgerEnv
      (processorOf (blockOf [transferTxn, transferTxn2] []) (10 * kEther))
      [{ success := true, cumulative_gas_used := 21000, bloom := [], logs := [] },
       { success := true, cumulative_gas_used := 42000, bloom := [], logs := [] }]
      (by decide) (by decide) (fun _ _ _ => Nat.le_refl _) (by rfl)).2.1⟩

/-- Instance of C7: scenario 6 of the specification, two ommers at distances 1 and 2 with the
Byzantium reward of 3 ether. -/
theorem apply_rewards_spec_witness :
    ({ processorOf (blockOf [] [ommerAt 9 7, ommerAt 8 8]) 0 with
        config := byzantiumForks }.apply_rewards ledgerEnv).trace
      = [Event.apply_rewards,
         Event.add_to_balance 7 (7 * (3 * kEther) / 8),
         Event.add_to_balance 8 (6 * (3 * kEther) / 8),
         Event.add_to_balance 9 (3 * kEther + 2 * (3 * kEther / 32))] :=
  (apply_rewards_spec ledgerEnv
    { processorOf (blockOf [] [ommerAt 9 7, ommerAt 8 8]) 0 with config := byzantiumForks }
    (by decide) (by decide) (by decide) (by decide)).2.1.trans (by decide)

/-- Instance of C8: the two transfers use 42000 gas but the header says 0. -/
theorem execute_block_validation_witness :
    ((ExecutionProcessor.new (blockOf [transferTxn, transferTxn2] []) (ledgerWith (10 * kEther))
        allForks).execute_block ledgerEnv).2
        = .ok [{ success := true, cumulative_gas_used := 21000, bloom := [], logs := [] },
               { success := true, cumulative_gas_used := 42000, bloom := [], logs := [] }]
      ∧ (execute_block ledgerEnv (blockOf [transferTxn, transferTxn2] [])
          (ledgerWith (10 * kEther)) allForks).2
          = .error ⟨"gas mismatch for block " ++ toString (10 : Nat)⟩ :=
  ⟨by rfl,
    (execute_block_validation ledgerEnv (blockOf [transferTxn, transferTxn2] [])
      (ledgerWith (10 * kEther)) allForks
      [{ success := true, cumulative_gas_used := 21000, bloom := [], logs := [] },
       { success := true, cumulative_gas_used := 42000, bloom := [], logs := [] }]
      (by rfl)).1.mpr (by decide)⟩

/-! ## Ordered maps -/

theorem OMap.find_insert_self {κ υ : Type} [LinearOrder κ] (m : OMap κ υ) (k : κ) (v : υ) :
    OMap.find (OMap.insert_or_assign m k v).1 k = some v := by
  induction m with
  | nil => simp [OMap.insert_or_assign, OMap.find]
  | cons e rest ih =>
    obtain ⟨k1, v1⟩ := e
    unfold OMap.insert_or_assign
    by_cases h1 : k < k1
    · simp [h1, OMap.find]
    · by_cases h2 : k = k1
      · simp [h2, OMap.find]
      · have h3 : ¬ k1 = k := fun h => h2 h.symm
        simp [h1, h2, h3, OMap.find, ih]

theorem OMap.find_insert_ne {κ υ : Type} [LinearOrder κ] (m : OMap κ υ) (k x : κ) (v : υ)
    (hne : x ≠ k) : OMap.find (OMap.insert_or_assign m k v).1 x = OMap.find m x := by
  have hne2 : ¬ k = x := fun h => hne h.symm
  induction m with
  | nil => simp [OMap.insert_or_assign, OMap.find, hne2]
  | cons e rest ih =>
    obtain ⟨k1, v1⟩ := e
    unfold OMap.insert_or_assign
    by_cases h1 : k < k1
    · simp [h1, OMap.find, hne2]
    · by_cases h2 : k = k1
      · subst h2
        simp [OMap.find, hne2]
      · simp [h1, h2, OMap.find, ih]

theorem OMap.mem_keys_insert {κ υ : Type} [LinearOrder κ] (m : OMap κ υ) (k x : κ) (v : υ) :
    x ∈ OMap.keys (OMap.insert_or_assign m k v).1 ↔ x = k ∨ x ∈ OMap.keys m := by
  induction m with
  | nil => simp [OMap.insert_or_assign, OMap.keys]
  | cons e rest ih =>
    obtain ⟨k1, v1⟩ := e
    unfold OMap.insert_or_assign
    by_cases h1 : k < k1
    · simp [h1, OMap.keys]
    · by_cases h2 : k = k1
      · subst h2
        simp [OMap.keys]
      · simp only [h1, h2, if_false, OMap.keys, List.map_cons, List.mem_cons] at ih ⊢
        rw [ih]
        tauto

/-! ## The change-sets of the buffer -/

theorem update_account_skip (b : Buffer) (c : Codec) (a : Address)
    (initial current : Option Account) (h : ¬ b.records_account a initial current) :
    b.update_account c a initial current = b := by
  unfold Buffer.records_account at h
  push_neg at h
  obtain ⟨h1, h2, h3⟩ := h
  have hc : b.changed_storage_.contains a = false := by
    simpa using h3
  have hd : current.isNone = false := by
    cases current with
    | none => exact absurd rfl h2
    | some _ => rfl
  unfold Buffer.update_account
  simp [h1, hc, hd, h3]

theorem update_account_account_changes (b : Buffer) (c : Codec) (a : Address)
    (initial current : Option Account) (h : b.records_account a initial current) :
    (b.update_account c a initial current).account_changes_
      = (b.account_changes_.insert_or_assign a (encoded_initial c initial current)).1 := by
  have hcond : (decide (current = initial) && !current.isNone
      && !b.changed_storage_.contains a) = false := by
    unfold Buffer.records_account at h
    rcases h with h | h | h
    · have : ¬ current = initial := fun e => h e.symm
      simp [this]
    · simp [h]
    · simp [h]
  unfold Buffer.update_account
  simp only [hcond, Bool.false_eq_true, if_false]
  split
  · rfl
  · split
    · split <;> rfl
    · rfl

theorem update_account_frame (b : Buffer) (c : Codec) (a : Address)
    (initial current : Option Account) :
    (b.update_account c a initial current).storage_changes_ = b.storage_changes_
      ∧ (b.update_account c a initial current).changed_storage_ = b.changed_storage_ := by
  unfold Buffer.update_account
  simp only
  split
  · exact ⟨rfl, rfl⟩
  · split
    · exact ⟨rfl, rfl⟩
    · split
      · split <;> exact ⟨rfl, rfl⟩
      · exact ⟨rfl, rfl⟩

theorem update_storage_account_changes (b : Buffer) (c : Codec) (a : Address) (inc : Nat)
    (key initial current : Hash) :
    (b.update_storage c a inc key initial current).account_changes_ = b.account_changes_ := by
  unfold Buffer.update_storage
  split <;> rfl

theorem update_storage_storage_changes (b : Buffer) (c : Codec) (a : Address) (inc : Nat)
    (key initial current : Hash) (h : initial ≠ current) :
    (b.update_storage c a inc key initial current).storage_changes_
      = (b.storage_changes_.insert_or_assign (c.storage_key a inc key)
          (c.zeroless_view initial)).1 := by
  unfold Buffer.update_storage
  rw [if_neg (fun e => h e.symm)]

theorem update_storage_skip (b : Buffer) (c : Codec) (a : Address) (inc : Nat)
    (key value : Hash) : b.update_storage c a inc key value value = b := by
  unfold Buffer.update_storage
  rw [if_pos rfl]

/-- The keys of the account change-set after one call. -/
theorem mem_account_changes_call (c : Codec) (b : Buffer) (call : BufferCall) (x : Address) :
    x ∈ (b.call c call).account_changes_.keys
      ↔ x ∈ b.account_changes_.keys ∨ b.call_records_account x call := by
  cases call with
  | update_account a initial current =>
    simp only [Buffer.call, Buffer.call_records_account]
    by_cases h : b.records_account a initial current
    · rw [update_account_account_changes b c a initial current h, OMap.mem_keys_insert]
      constructor
      · rintro (h1 | h1)
        · exact Or.inr ⟨h1.symm, h⟩
        · exact Or.inl h1
      · rintro (h1 | ⟨h1, _⟩)
        · exact Or.inr h1
        · exact Or.inl h1.symm
    · rw [update_account_skip b c a initial current h]
      constructor
      · exact Or.inl
      · rintro (h1 | ⟨_, h2⟩)
        · exact h1
        · exact absurd h2 h
  | update_storage a inc key initial current =>
    simp only [Buffer.call, Buffer.call_records_account, update_storage_account_changes,
      or_false]

/-- The keys of the account change-set after a sequence of calls. -/
theorem mem_account_changes_calls (c : Codec) (x : Address) :
    ∀ (cs : List BufferCall) (b : Buffer),
      x ∈ (b.calls c cs).account_changes_.keys
        ↔ x ∈ b.account_changes_.keys
          ∨ ∃ pre post initial current,
              cs = pre ++ BufferCall.update_account x initial current :: post
              ∧ (b.calls c pre).records_account x initial current := by
  intro cs
  induction cs with
  | nil =>
    intro b
    simp [Buffer.calls]
  | cons call rest ih =>
    intro b
    have hstep : b.calls c (call :: rest) = (b.call c call).calls c rest := rfl
    rw [hstep, ih (b.call c call), mem_account_changes_call]
    constructor
    · rintro ((h | h) | ⟨pre, post, initial, current, hcs, hrec⟩)
      · exact Or.inl h
      · cases call with
        | update_account a initial current =>
          obtain ⟨ha, hrec⟩ := h
          subst ha
          exact Or.inr ⟨[], rest, initial, current, rfl, hrec⟩
        | update_storage _ _ _ _ _ => exact absurd h id
      · exact Or.inr ⟨call :: pre, post, initial, current, by rw [hcs]; rfl, hrec⟩
    · rintro (h | ⟨pre, post, initial, current, hcs, hrec⟩)
      · exact Or.inl (Or.inl h)
      · cases pre with
        | nil =>
          simp only [List.nil_append, List.cons.injEq] at hcs
          obtain ⟨hcall, _⟩ := hcs
          subst hcall
          exact Or.inl (Or.inr ⟨rfl, hrec⟩)
        | cons p ps =>
          simp only [List.cons_append, List.cons.injEq] at hcs
          obtain ⟨hcall, hrest⟩ := hcs
          subst hcall
          exact Or.inr ⟨ps, post, initial, current, hrest, hrec⟩

/-- C9. `update_account(a, initial, current)` stores the encoded `initial` in the account
change-set under `a` when `initial ≠ current`, or `current` is absent, or `a` is in
`changed_storage_`; when none of the three holds it returns the buffer as it was, every field
included. Hence, after `begin_block` and any sequence of update calls, an address is a key of
the account change-set exactly when some `update_account` call of the sequence on that address
met the condition in the buffer it ran on. -/
theorem update_account_change_set (c : Codec) (b : Buffer) (a : Address)
    (initial current : Option Account) :
    (b.records_account a initial current →
        (b.update_account c a initial current).account_changes_.find a
          = some (encoded_initial c initial current))
      ∧ (¬ b.records_account a initial current → b.update_account c a initial current = b)
      ∧ (∀ (n : Nat) (cs : List BufferCall) (x : Address),
          x ∈ ((b.begin_block n).calls c cs).account_changes_.keys
            ↔ ∃ pre post ini cur,
                cs = pre ++ BufferCall.update_account x ini cur :: post
                ∧ ((b.begin_block n).calls c pre).records_account x ini cur) := by
  refine ⟨?_, update_account_skip b c a initial current, ?_⟩
  · intro h
    rw [update_account_account_changes b c a initial current h]
    exact OMap.find_insert_self _ _ _
  · intro n cs x
    rw [mem_account_changes_calls c x cs (b.begin_block n)]
    simp [Buffer.begin_block, OMap.keys]

/-- Instance of C9: a balance change is recorded; an unchanged account with untouched storage
is skipped. -/
theorem update_account_change_set_witness :
    Buffer.empty.records_account 1 (some (accountOf 0 100)) (some (accountOf 1 90))
      ∧ (Buffer.empty.update_account listCodec 1 (some (accountOf 0 100))
          (some (accountOf 1 90))).account_changes_.find 1 = some [0, 100, 0]
      ∧ ¬ Buffer.empty.records_account 2 (some (accountOf 0 5)) (some (accountOf 0 5)) :=
  ⟨by decide,
    (update_account_change_set listCodec Buffer.empty 1 (some (accountOf 0 100))
      (some (accountOf 1 90))).1 (by decide),
    by decide⟩

/-- C10, counterexample. Two `update_storage` calls on the same slot, each with
`initial ≠ current`, leave the initial of the second call (6) in the storage change-set, not
that of the first (5); two recording `update_account` calls on the same address leave the
encoded initial of the second call in the account change-set, not that of the first. -/
theorem change_set_first_initial_counterexample :
    (5 : Hash) ≠ 6 ∧ (6 : Hash) ≠ 7
      ∧ ((Buffer.empty.update_storage listCodec 1 1 0 5 6).update_storage listCodec 1 1 0 6
          7).storage_changes_.find (listCodec.storage_key 1 1 0)
          = some (listCodec.zeroless_view 6)
      ∧ ((Buffer.empty.update_storage listCodec 1 1 0 5 6).update_storage listCodec 1 1 0 6
          7).storage_changes_.find (listCodec.storage_key 1 1 0)
          ≠ some (listCodec.zeroless_view 5)
      ∧ Buffer.empty.records_account 1 (some (accountOf 0 100)) (some (accountOf 1 90))
      ∧ (Buffer.empty.update_account listCodec 1 (some (accountOf 0 100))
          (some (accountOf 1 90))).records_account 1 (some (accountOf 1 90))
          (some (accountOf 2 80))
      ∧ ((Buffer.empty.update_account listCodec 1 (some (accountOf 0 100))
          (some (accountOf 1 90))).update_account listCodec 1 (some (accountOf 1 90))
          (some (accountOf 2 80))).account_changes_.find 1
          = some (encoded_initial listCodec (some (accountOf 1 90)) (some (accountOf 2 80)))
      ∧ ((Buffer.empty.update_account listCodec 1 (some (accountOf 0 100))
          (some (accountOf 1 90))).update_account listCodec 1 (some (accountOf 1 90))
          (some (accountOf 2 80))).account_changes_.find 1
          ≠ some (encoded_initial listCodec (some (accountOf 0 100)) (some (accountOf 1 90))) := by
  decide

theorem calls_append (c : Codec) (b : Buffer) (xs ys : List BufferCall) :
    b.calls c (xs ++ ys) = (b.calls c xs).calls c ys := by
  simp [Buffer.calls, List.foldl_append]

/-- A sequence of calls none of which writes the entry under `full_key` keeps that entry of the
storage change-set. -/
theorem storage_changes_kept (c : Codec) (full_key : Bytes) :
    ∀ (cs : List BufferCall) (b : Buffer),
      (∀ call ∈ cs, ¬ call.writes_storage_change c full_key) →
      (b.calls c cs).storage_changes_.find full_key = b.storage_changes_.find full_key := by
  intro cs
  induction cs with
  | nil => intro b _; rfl
  | cons call rest ih =>
    intro b h
    have hstep : b.calls c (call :: rest) = (b.call c call).calls c rest := rfl
    rw [hstep, ih (b.call c call) (fun x hx => h x (List.mem_cons_of_mem _ hx))]
    have hcall := h call (List.mem_cons_self _ _)
    cases call with
    | update_account a initial current =>
      simp only [Buffer.call, (update_account_frame b c a initial current).1]
    | update_storage a inc key initial current =>
      simp only [Buffer.call]
      by_cases heq : initial = current
      · rw [heq, update_storage_skip]
      · rw [update_storage_storage_changes b c a inc key initial current heq]
        apply OMap.find_insert_ne
        intro hk
        exact hcall ⟨heq, hk.symm⟩

/-- A sequence of calls none of which records a pre-image for `x` keeps the entry of `x` in the
account change-set. -/
theorem account_changes_kept (c : Codec) (x : Address) :
    ∀ (cs : List BufferCall) (b : Buffer),
      (∀ p1 call p2, cs = p1 ++ call :: p2 → ¬ (b.calls c p1).call_records_account x call) →
      (b.calls c cs).account_changes_.find x = b.account_changes_.find x := by
  intro cs
  induction cs with
  | nil => intro b _; rfl
  | cons call rest ih =>
    intro b h
    have hstep : b.calls c (call :: rest) = (b.call c call).calls c rest := rfl
    rw [hstep, ih (b.call c call)
      (fun p1 call2 p2 hsplit => h (call :: p1) call2 p2 (by rw [hsplit]; rfl))]
    have hcall := h [] call rest rfl
    cases call with
    | update_account a initial current =>
      simp only [Buffer.call]
      by_cases hrec : b.records_account a initial current
      · rw [update_account_account_changes b c a initial current hrec]
        apply OMap.find_insert_ne
        intro hk
        exact hcall ⟨hk.symm, hrec⟩
      · rw [update_account_skip b c a initial current hrec]
    | update_storage a inc key initial current =>
      simp only [Buffer.call, update_storage_account_changes]

/-- C10, as amended. Change-set pre-images hold the initial value of the last writing call of
the sequence, not of the first. After any sequence of calls in which
`update_storage(a, inc, k, initial, current)` with `initial ≠ current` is followed by no other
`update_storage` with `initial ≠ current` on the same full key, the storage change-set entry
under that full key is the zero-stripped `initial` of that call, whatever earlier calls wrote.
After any sequence in which a recording `update_account(a, initial, current)` is followed by no
other recording `update_account` on `a`, the account change-set entry of `a` is the encoded
`initial` of that call. -/
theorem change_set_last_initial (c : Codec) (b : Buffer) (pre post : List BufferCall) :
    (∀ (a : Address) (inc : Nat) (k initial current : Hash),
        initial ≠ current →
        (∀ call ∈ post, ¬ call.writes_storage_change c (c.storage_key a inc k)) →
        (b.calls c (pre ++ BufferCall.update_storage a inc k initial current :: post)
          ).storage_changes_.find (c.storage_key a inc k) = some (c.zeroless_view initial))
      ∧ (∀ (a : Address) (initial current : Option Account),
          (b.calls c pre).records_account a initial current →
          (∀ p1 call p2, post = p1 ++ call :: p2 →
            ¬ (b.calls c (pre ++ BufferCall.update_account a initial current :: p1)
                ).call_records_account a call) →
          (b.calls c (pre ++ BufferCall.update_account a initial current :: post)
            ).account_changes_.find a = some (encoded_initial c initial current)) := by
  constructor
  · intro a inc k initial current hne hpost
    have hsplit : pre ++ BufferCall.update_storage a inc k initial current :: post
        = (pre ++ [BufferCall.update_storage a inc k initial current]) ++ post := by simp
    rw [hsplit, calls_append, storage_changes_kept c _ post _ hpost, calls_append]
    simp only [Buffer.calls, List.foldl_cons, List.foldl_nil, Buffer.call]
    rw [update_storage_storage_changes _ c a inc k initial current hne]
    exact OMap.find_insert_self _ _ _
  · intro a initial current hrec hpost
    have hsplit : pre ++ BufferCall.update_account a initial current :: post
        = (pre ++ [BufferCall.update_account a initial current]) ++ post := by simp
    rw [hsplit, calls_append, account_changes_kept c a post _ ?_, calls_append]
    · simp only [Buffer.calls, List.foldl_cons, List.foldl_nil, Buffer.call]
      have hrec2 := hrec
      simp only [Buffer.calls] at hrec2
      rw [update_account_account_changes _ c a initial current hrec2]
      exact OMap.find_insert_self _ _ _
    · intro p1 call p2 hp
      have := hpost p1 call p2 hp
      rw [← calls_append]
      simpa using this

/-- Instance of C10 as amended: a slot written twice and an account updated twice, with an
unrelated storage write in between and after. -/
theorem change_set_last_initial_witness :
    (6 : Hash) ≠ 7
      ∧ (Buffer.empty.calls listCodec
          ([BufferCall.update_storage 1 1 0 5 6, BufferCall.update_storage 2 1 0 1 2]
            ++ BufferCall.update_storage 1 1 0 6 7 :: [BufferCall.update_storage 2 1 3 0 9])
          ).storage_changes_.find (listCodec.storage_key 1 1 0)
          = some (listCodec.zeroless_view 6) :=
  ⟨by decide,
    (change_set_last_initial listCodec Buffer.empty
      [BufferCall.update_storage 1 1 0 5 6, BufferCall.update_storage 2 1 0 1 2]
      [BufferCall.update_storage 2 1 3 0 9]).1 1 1 0 6 7 (by decide) (by
        intro call hcall
        simp only [List.mem_singleton] at hcall
        subst hcall
        simp [BufferCall.writes_storage_change, listCodec])⟩

/-! ## Updates and reads of the buffer -/

/-- C11. `update_storage(address, incarnation, key, v, v)` returns the buffer as it was:
`changed_storage_`, the storage change-set, the dirty storage map, the account maps and the
batch size are all unchanged. -/
theorem update_storage_equal_noop (b : Buffer) (c : Codec) (a : Address) (inc : Nat)
    (key v : Hash) :
    b.update_storage c a inc key v v = b
      ∧ (b.update_storage c a inc key v v).changed_storage_ = b.changed_storage_
      ∧ (b.update_storage c a inc key v v).storage_changes_ = b.storage_changes_
      ∧ (b.update_storage c a inc key v v).storage_ = b.storage_
      ∧ (b.update_storage c a inc key v v).accounts_ = b.accounts_
      ∧ (b.update_storage c a inc key v v).account_changes_ = b.account_changes_
      ∧ (b.update_storage c a inc key v v).incarnations_ = b.incarnations_
      ∧ (b.update_storage c a inc key v v).batch_size_ = b.batch_size_ := by
  have h : b.update_storage c a inc key v v = b := by
    unfold Buffer.update_storage
    rw [if_pos rfl]
  rw [h]
  exact ⟨rfl, rfl, rfl, rfl, rfl, rfl, rfl, rfl⟩

theorem update_account_accounts_of_ne (b : Buffer) (c : Codec) (a : Address)
    (initial current : Option Account) (h : initial ≠ current) :
    (b.update_account c a initial current).accounts_
        = (b.accounts_.insert_or_assign a current).1
      ∧ (b.update_account c a initial current).txn_ = b.txn_
      ∧ (b.update_account c a initial current).historical_block_ = b.historical_block_ := by
  have hne : ¬ current = initial := fun e => h e.symm
  unfold Buffer.update_account
  simp only [hne, decide_False, Bool.false_and, Bool.false_eq_true, if_false]
  split
  · split <;> exact ⟨rfl, rfl, rfl⟩
  · exact ⟨rfl, rfl, rfl⟩

theorem update_account_accounts_of_eq (b : Buffer) (c : Codec) (a : Address)
    (current : Option Account) :
    (b.update_account c a current current).accounts_ = b.accounts_
      ∧ (b.update_account c a current current).incarnations_ = b.incarnations_
      ∧ (b.update_account c a current current).txn_ = b.txn_
      ∧ (b.update_account c a current current).historical_block_ = b.historical_block_ := by
  unfold Buffer.update_account
  simp only [decide_True, Bool.true_and, if_true]
  split <;> exact ⟨rfl, rfl, rfl, rfl⟩

theorem read_account_of_find (b : Buffer) (db : StoreAccess) (a : Address)
    (v : Option Account) (h : b.accounts_.find a = some v) : b.read_account db a = v := by
  unfold Buffer.read_account
  rw [h]

/-- C12, counterexample. With the storage of address 1 touched in this block, the call
`update_account(1, acc, acc)` is not skipped, yet it installs nothing in `accounts_`: on a
buffer without a store `read_account(1)` returns nothing instead of `acc`, and with a store it
returns what the store holds. -/
theorem update_account_install_counterexample :
    ({ Buffer.empty with changed_storage_ := [1] } : Buffer).records_account 1
        (some (accountOf 0 100)) (some (accountOf 0 100))
      ∧ (({ Buffer.empty with changed_storage_ := [1] } : Buffer).update_account listCodec 1
          (some (accountOf 0 100)) (some (accountOf 0 100))).accounts_.find 1 = none
      ∧ (({ Buffer.empty with changed_storage_ := [1] } : Buffer).update_account listCodec 1
          (some (accountOf 0 100)) (some (accountOf 0 100))).read_account fullStore 1
          ≠ some (accountOf 0 100)
      ∧ (({ Buffer.empty with changed_storage_ := [1], txn_ := some [] } : Buffer).update_account
          listCodec 1 (some (accountOf 0 100)) (some (accountOf 0 100))).read_account fullStore 1
          ≠ some (accountOf 0 100) := by
  decide

/-- C12, as amended. When `initial ≠ current`, `update_account(a, initial, current)` installs
`current` (possibly the tombstone) in `accounts_`, and a following `read_account(a)` returns
`current` from memory whatever the store holds. When `initial = current` the call leaves
`accounts_` as it was, also when it is not skipped, and every `read_account` answers as it did
before the call. -/
theorem update_account_installs_current (b : Buffer) (c : Codec) (a : Address)
    (initial current : Option Account) :
    (initial ≠ current →
        (b.update_account c a initial current).accounts_.find a = some current
          ∧ ∀ db : StoreAccess, (b.update_account c a initial current).read_account db a = current)
      ∧ (initial = current →
          (b.update_account c a initial current).accounts_ = b.accounts_
            ∧ ∀ (db : StoreAccess) (x : Address),
                (b.update_account c a initial current).read_account db x
                  = b.read_account db x) := by
  constructor
  · intro h
    have hfind : (b.update_account c a initial current).accounts_.find a = some current := by
      rw [(update_account_accounts_of_ne b c a initial current h).1]
      exact OMap.find_insert_self _ _ _
    exact ⟨hfind, fun db => read_account_of_find _ db a current hfind⟩
  · intro h
    subst h
    obtain ⟨h1, _, h3, h4⟩ := update_account_accounts_of_eq b c a initial
    refine ⟨h1, ?_⟩
    intro db x
    unfold Buffer.read_account
    rw [h1, h3, h4]

/-- Instance of C12 as amended: a deletion installs the tombstone, which hides the account the
store holds. -/
theorem update_account_installs_current_witness :
    some (accountOf 0 100) ≠ (none : Option Account)
      ∧ (({ Buffer.empty with txn_ := some [] } : Buffer).update_account listCodec 1
          (some (accountOf 0 100)) none).read_account fullStore 1 = none :=
  ⟨by decide,
    ((update_account_installs_current { Buffer.empty with txn_ := some [] } listCodec 1
      (some (accountOf 0 100)) none).1 (by decide)).2 fullStore⟩

theorem update_storage_fields (b : Buffer) (c : Codec) (a : Address) (inc : Nat)
    (key initial current : Hash) (h : initial ≠ current) :
    (b.update_storage c a inc key initial current).storage_
        = (b.storage_.insert_or_assign a
            ((((b.storage_.find a).getD []).insert_or_assign inc
              (((((b.storage_.find a).getD []).find inc).getD []).insert_or_assign key
                current).1).1)).1
      ∧ (b.update_storage c a inc key initial current).changed_storage_
          = (if b.changed_storage_.contains a then b.changed_storage_
              else a :: b.changed_storage_)
      ∧ (b.update_storage c a inc key initial current).txn_ = b.txn_
      ∧ (b.update_storage c a inc key initial current).historical_block_
          = b.historical_block_ := by
  unfold Buffer.update_storage
  rw [if_neg (fun e => h e.symm)]
  exact ⟨rfl, rfl, rfl, rfl⟩

/-- The dirty storage map after one slot has been written. -/
theorem storage_lookup_insert (storage : OMap Address (OMap Nat (OMap Hash Hash)))
    (a : Address) (inc : Nat) (key current : Hash) (a2 : Address) (inc2 : Nat) (key2 : Hash) :
    storage_lookup
        (storage.insert_or_assign a
          ((((storage.find a).getD []).insert_or_assign inc
            (((((storage.find a).getD []).find inc).getD []).insert_or_assign key
              current).1).1)).1 a2 inc2 key2
      = if a2 = a ∧ inc2 = inc ∧ key2 = key then some current
        else storage_lookup storage a2 inc2 key2 := by
  unfold storage_lookup
  by_cases ha : a2 = a
  · subst ha
    rw [OMap.find_insert_self]
    simp only [Option.some_bind, true_and]
    by_cases hi : inc2 = inc
    · subst hi
      rw [OMap.find_insert_self]
      simp only [Option.some_bind, true_and]
      by_cases hk : key2 = key
      · subst hk
        rw [OMap.find_insert_self, if_pos rfl]
      · rw [OMap.find_insert_ne _ _ _ _ hk, if_neg hk]
        cases h1 : storage.find a2 with
        | none => simp [OMap.find]
        | some contracts =>
          simp only [Option.getD_some, Option.some_bind]
          cases h2 : contracts.find inc2 with
          | none => simp [OMap.find]
          | some m => simp
    · rw [OMap.find_insert_ne _ _ _ _ hi]
      have : ¬ (inc2 = inc ∧ key2 = key) := fun h => hi h.1
      rw [if_neg this]
      cases h1 : storage.find a2 with
      | none => simp [OMap.find]
      | some contracts => simp
  · rw [OMap.find_insert_ne _ _ _ _ ha]
    have : ¬ (a2 = a ∧ inc2 = inc ∧ key2 = key) := fun h => ha h.1
    rw [if_neg this]

/-- C13. After `update_storage(a, inc, k, initial, current)` with `initial ≠ current`: `a` is
in `changed_storage_`, the storage change-set maps the full key of `(a, inc, k)` to the
zero-stripped `initial`, `read_storage(a, inc, k)` returns `current` from memory whatever the
store holds, and `read_storage` of every other triple returns what it returned before. -/
theorem update_storage_read_your_writes (b : Buffer) (c : Codec) (a : Address) (inc : Nat)
    (key initial current : Hash) (h : initial ≠ current) :
    a ∈ (b.update_storage c a inc key initial current).changed_storage_
      ∧ (b.update_storage c a inc key initial current).storage_changes_.find
          (c.storage_key a inc key) = some (c.zeroless_view initial)
      ∧ (∀ db : StoreAccess,
          (b.update_storage c a inc key initial current).read_storage db a inc key = current)
      ∧ (∀ (db : StoreAccess) (a2 : Address) (inc2 : Nat) (key2 : Hash),
          (a2, inc2, key2) ≠ (a, inc, key) →
          (b.update_storage c a inc key initial current).read_storage db a2 inc2 key2
            = b.read_storage db a2 inc2 key2) := by
  obtain ⟨hst, hcs, htxn, hhist⟩ := update_storage_fields b c a inc key initial current h
  refine ⟨?_, ?_, ?_, ?_⟩
  · rw [hcs]
    by_cases hc : b.changed_storage_.contains a = true
    · rw [if_pos hc]
      simpa using hc
    · rw [if_neg hc]
      exact List.mem_cons_self _ _
  · rw [update_storage_storage_changes b c a inc key initial current h]
    exact OMap.find_insert_self _ _ _
  · intro db
    unfold Buffer.read_storage
    rw [hst, storage_lookup_insert, if_pos ⟨rfl, rfl, rfl⟩]
  · intro db a2 inc2 key2 hne
    have hne2 : ¬ (a2 = a ∧ inc2 = inc ∧ key2 = key) := by
      rintro ⟨h1, h2, h3⟩
      exact hne (by rw [h1, h2, h3])
    unfold Buffer.read_storage
    rw [hst, storage_lookup_insert, if_neg hne2, htxn, hhist]

/-- Instance of C13: slot (1, 1, 0) is written from 5 to 6 while the store holds 9 everywhere;
the slot reads 6 and another slot of the same contract still reads 9. -/
theorem update_storage_read_your_writes_witness :
    (5 : Hash) ≠ 6
      ∧ (({ Buffer.empty with txn_ := some [] } : Buffer).update_storage listCodec 1 1 0 5
          6).read_storage fullStore 1 1 0 = 6
      ∧ (({ Buffer.empty with txn_ := some [] } : Buffer).update_storage listCodec 1 1 0 5
          6).read_storage fullStore 1 1 3 = 9 :=
  ⟨by decide,
    (update_storage_read_your_writes { Buffer.empty with txn_ := some [] } listCodec 1 1 0 5 6
      (by decide)).2.2.1 fullStore,
    by decide⟩

theorem update_account_incarnations_of_deleted (b : Buffer) (c : Codec) (a : Address)
    (i : Account) (h : i.incarnation ≠ 0) :
    (b.update_account c a (some i) none).incarnations_
      = (b.incarnations_.insert_or_assign a i.incarnation).1 := by
  unfold Buffer.update_account
  simp [h]

theorem update_account_incarnations_kept (b : Buffer) (c : Codec) (a : Address)
    (initial current : Option Account)
    (h : current ≠ none ∨ (∃ i, initial = some i ∧ i.incarnation = 0)
      ∨ (initial = none ∧ current = none)) :
    (b.update_account c a initial current).incarnations_ = b.incarnations_ := by
  by_cases heq : initial = current
  · subst heq
    exact (update_account_accounts_of_eq b c a initial).2.1
  · have hne : ¬ current = initial := fun e => heq e.symm
    unfold Buffer.update_account
    simp only [hne, decide_False, Bool.false_and, Bool.false_eq_true, if_false]
    rcases h with h | ⟨i, hi, h0⟩ | ⟨h1, h2⟩
    · have hd : current.isNone = false := by
        cases current with
        | none => exact absurd rfl h
        | some _ => rfl
      cases initial with
      | none => rfl
      | some i => simp [hd]
    · subst hi
      simp [h0]
    · exact absurd (h1.trans h2.symm) heq

theorem previous_incarnation_of_find (b : Buffer) (db : StoreAccess) (a : Address) (n : Nat)
    (h : b.incarnations_.find a = some n) : b.previous_incarnation db a = n := by
  unfold Buffer.previous_incarnation
  rw [h]

/-- C14. After `update_account(a, initial, current)` with `current` absent and `initial`
present with a non-zero incarnation, `previous_incarnation(a)` returns `initial.incarnation`,
whatever the store holds. When `current` is present, or `initial.incarnation` is 0, or both
`initial` and `current` are absent, `incarnations_` is left as it was. The call evaluates
`initial->incarnation` only with `initial` present. -/
theorem update_account_previous_incarnation (b : Buffer) (c : Codec) (a : Address)
    (initial current : Option Account) :
    (∀ i : Account, initial = some i → current = none → 0 < i.incarnation →
        ∀ db : StoreAccess,
          (b.update_account c a initial current).previous_incarnation db a = i.incarnation)
      ∧ ((current ≠ none ∨ (∃ i, initial = some i ∧ i.incarnation = 0)
            ∨ (initial = none ∧ current = none)) →
          (b.update_account c a initial current).incarnations_ = b.incarnations_)
      ∧ (b.update_account_reads_initial a initial current = true → initial.isSome = true) := by
  refine ⟨?_, update_account_incarnations_kept b c a initial current, ?_⟩
  · intro i hi hc hpos db
    subst hi hc
    apply previous_incarnation_of_find
    rw [update_account_incarnations_of_deleted b c a i (by omega)]
    exact OMap.find_insert_self _ _ _
  · intro hread
    unfold Buffer.update_account_reads_initial at hread
    cases initial with
    | some _ => rfl
    | none =>
      cases current with
      | none => simp at hread
      | some _ => simp at hread

/-- Instance of C14: deleting an account of incarnation 3 records 3, which is returned although
the store holds 9. -/
theorem update_account_previous_incarnation_witness :
    (0 : Nat) < (incarnationOf 3).incarnation
      ∧ (({ Buffer.empty with txn_ := some [] } : Buffer).update_account listCodec 1
          (some (incarnationOf 3)) none).previous_incarnation fullStore 1 = 3 :=
  ⟨by decide,
    (update_account_previous_incarnation { Buffer.empty with txn_ := some [] } listCodec 1
      (some (incarnationOf 3)) none).1 (incarnationOf 3) rfl rfl (by decide) fullStore⟩

/-- C15, counterexample. A buffer that holds incarnation 5 for address 1 holds 7 after
`update_account(1, initial, None)` with `initial.incarnation = 7`: the entry is overwritten. -/
theorem incarnation_first_write_counterexample :
    ({ Buffer.empty with incarnations_ := [(1, 5)] } : Buffer).incarnations_.find 1 = some 5
      ∧ (0 : Nat) < (incarnationOf 7).incarnation ∧ (incarnationOf 7).incarnation ≠ 5
      ∧ (({ Buffer.empty with incarnations_ := [(1, 5)] } : Buffer).update_account listCodec 1
          (some (incarnationOf 7)) none).incarnations_.find 1 = some 7
      ∧ (({ Buffer.empty with incarnations_ := [(1, 5)] } : Buffer).update_account listCodec 1
          (some (incarnationOf 7)) none).incarnations_.find 1 ≠ some 5 := by
  decide

/-- C15, as amended. The last write wins for `incarnations_`: whatever incarnation the buffer
holds for `a`, after `update_account(a, initial, None)` with `initial.incarnation = m > 0` it
holds `m`, and the entries of the other addresses are as before. -/
theorem incarnation_last_write (b : Buffer) (c : Codec) (a : Address) (i : Account)
    (hpos : 0 < i.incarnation) :
    (b.update_account c a (some i) none).incarnations_.find a = some i.incarnation
      ∧ ∀ x : Address, x ≠ a →
          (b.update_account c a (some i) none).incarnations_.find x = b.incarnations_.find x := by
  rw [update_account_incarnations_of_deleted b c a i (by omega)]
  exact ⟨OMap.find_insert_self _ _ _, fun x hx => OMap.find_insert_ne _ _ _ _ hx⟩

/-- Instance of C15 as amended, on the buffer of the counterexample. -/
theorem incarnation_last_write_witness :
    (0 : Nat) < (incarnationOf 7).incarnation
      ∧ (({ Buffer.empty with incarnations_ := [(1, 5)] } : Buffer).update_account listCodec 1
          (some (incarnationOf 7)) none).incarnations_.find 1 = some 7 :=
  ⟨by decide,
    (incarnation_last_write { Buffer.empty with incarnations_ := [(1, 5)] } listCodec 1
      (incarnationOf 7) (by decide)).1⟩

/-- C16, counterexample. On a buffer that maps code hash 4 to the code `[1]` and the storage
prefix of (1, 1) to code hash 8, `update_account_code(1, 1, 4, [2])` leaves the code `[2]` under
hash 4 and hash 4 under the prefix: both existing entries are overwritten. -/
theorem account_code_first_write_counterexample :
    codeBuffer.hash_to_code_.find 4 = some [1]
      ∧ (codeBuffer.update_account_code listCodec 1 1 4 [2]).hash_to_code_.find 4 ≠ some [1]
      ∧ (codeBuffer.update_account_code listCodec 1 1 4
            [2]).storage_prefix_to_code_hash_.find ( listCodec.storage_prefix 1 1) ≠ some 8 := by
  decide

/-- C16, as amended. The last write wins for `update_account_code`: whatever the buffer held,
after `update_account_code(a, inc, h, code)` the buffer maps the code hash `h` to `code` and
the storage prefix of `(a, inc)` to `h`, so `read_code(h)` returns `code` whatever the store
holds; the entries under other code hashes and other prefixes are as before. -/
theorem update_account_code_overwrites (b : Buffer) (c : Codec) (a : Address) (inc : Nat)
    (h : Hash) (code : Bytes) :
    (b.update_account_code c a inc h code).hash_to_code_.find h = some code
      ∧ (b.update_account_code c a inc h code).storage_prefix_to_code_hash_.find
          ( c.storage_prefix a inc) = some h
      ∧ (∀ db : StoreAccess, (b.update_account_code c a inc h code).read_code db h = code)
      ∧ (∀ h2 : Hash, h2 ≠ h →
          (b.update_account_code c a inc h code).hash_to_code_.find h2
            = b.hash_to_code_.find h2)
      ∧ (∀ k : Bytes, k ≠ c.storage_prefix a inc →
          (b.update_account_code c a inc h code).storage_prefix_to_code_hash_.find k
            = b.storage_prefix_to_code_hash_.find k) := by
  have h1 : (b.update_account_code c a inc h code).hash_to_code_
      = (b.hash_to_code_.insert_or_assign h code).1 := rfl
  have h2 : (b.update_account_code c a inc h code).storage_prefix_to_code_hash_
      = (b.storage_prefix_to_code_hash_.insert_or_assign ( c.storage_prefix a inc) h).1 := rfl
  have hfind : (b.update_account_code c a inc h code).hash_to_code_.find h = some code := by
    rw [h1]; exact OMap.find_insert_self _ _ _
  refine ⟨hfind, ?_, ?_, ?_, ?_⟩
  · rw [h2]; exact OMap.find_insert_self _ _ _
  · intro db
    unfold Buffer.read_code
    rw [hfind]
  · intro x hx
    rw [h1]; exact OMap.find_insert_ne _ _ _ _ hx
  · intro k hk
    rw [h2]; exact OMap.find_insert_ne _ _ _ _ hk

/-- C17. On a buffer with no store transaction attached, a read that misses the in-memory
maps returns the default: `read_account` returns nothing, `read_storage` the zero hash,
`read_code` the empty byte string and `previous_incarnation` 0. The reads are functions of the
buffer that return a value only; the buffer they are applied to is not changed. -/
theorem reads_default_on_miss (b : Buffer) (db : StoreAccess) (htxn : b.txn_ = none) :
    (∀ a : Address, b.accounts_.find a = none → b.read_account db a = none)
      ∧ (∀ (a : Address) (inc : Nat) (key : Hash),
          storage_lookup b.storage_ a inc key = none → b.read_storage db a inc key = 0)
      ∧ (∀ h : Hash, b.hash_to_code_.find h = none → b.read_code db h = [])
      ∧ (∀ a : Address, b.incarnations_.find a = none → b.previous_incarnation db a = 0) := by
  refine ⟨?_, ?_, ?_, ?_⟩
  · intro a h
    unfold Buffer.read_account
    rw [h, htxn]
  · intro a inc key h
    unfold Buffer.read_storage
    rw [h, htxn]
  · intro x h
    unfold Buffer.read_code
    rw [h, htxn]
  · intro a h
    unfold Buffer.previous_incarnation
    rw [h, htxn]

/-- Instance of C17: the empty buffer, asked with a store access that would find something
everywhere. -/
theorem reads_default_on_miss_witness :
    Buffer.empty.txn_ = none
      ∧ Buffer.empty.read_account fullStore 1 = none
      ∧ Buffer.empty.read_storage fullStore 1 1 0 = 0
      ∧ Buffer.empty.read_code fullStore 4 = []
      ∧ Buffer.empty.previous_incarnation fullStore 1 = 0 :=
  ⟨rfl,
    (reads_default_on_miss Buffer.empty fullStore rfl).1 1 rfl,
    by decide, by decide, by decide⟩

/-! ## The state-table batch -/

theorem foldl_append_eq_flatMap {α β : Type} (g : List β → α → List β) (f : α → List β)
    (h : ∀ t x, g t x = t ++ f x) :
    ∀ (l : List α) (t : List β), l.foldl g t = t ++ l.flatMap f := by
  intro l
  induction l with
  | nil => intro t; simp
  | cons x xs ih =>
    intro t
    rw [List.foldl_cons, h, ih, List.flatMap_cons, List.append_assoc]

theorem upsert_storage_value_eq (c : Codec) (txn : List DbOp) (a : Address) (inc : Nat)
    (key value : Hash) :
    upsert_storage_value c txn ( c.storage_prefix a inc) key value
      = txn ++ storage_slot_ops c a inc key value := by
  unfold upsert_storage_value storage_slot_ops
  split <;> simp

/-- The writes of `write_to_state_table` are those of the state-table policy. -/
theorem write_to_state_table_eq (b : Buffer) (c : Codec) (txn : List DbOp) :
    b.write_to_state_table c txn = txn ++ b.state_table_ops c := by
  unfold Buffer.write_to_state_table Buffer.state_table_ops
  apply foldl_append_eq_flatMap
  intro t a
  have hacc : (match b.accounts_.find a with
      | some account =>
        let txn := t ++ [DbOp.del kPlainState (c.full_view_address a)]
        match account with
        | some acc =>
          txn ++ [DbOp.put kPlainState (c.full_view_address a) (c.encode_for_storage acc false)]
        | none => txn
      | none => t)
      = t ++ (match b.accounts_.find a with
        | some account => account_row_ops c a account
        | none => []) := by
    cases b.accounts_.find a with
    | none => simp
    | some account =>
      cases account with
      | none => simp [account_row_ops]
      | some acc => simp [account_row_ops]
  simp only [hacc]
  cases b.storage_.find a with
  | none => simp
  | some contracts =>
    simp only
    rw [foldl_append_eq_flatMap _
      (fun contract : Nat × OMap Hash Hash =>
        contract.2.flatMap (fun x => storage_slot_ops c a contract.1 x.1 x.2))]
    · rw [List.append_assoc]
    · intro t2 contract
      apply foldl_append_eq_flatMap
      intro t3 x
      exact upsert_storage_value_eq c t3 a contract.1 x.1 x.2

theorem mem_apply (table : String) (rows : List (Bytes × Bytes)) (op : DbOp)
    (r : Bytes × Bytes) :
    r ∈ DbOp.apply table rows op
      ↔ (r ∈ rows ∧ ¬ op.removes table r) ∨ op.adds table r := by
  cases op with
  | put t k v =>
    simp only [DbOp.apply, DbOp.removes, DbOp.adds, not_false_eq_true, and_true]
    by_cases ht : t = table
    · simp only [ht, if_true, List.mem_append, List.mem_singleton, true_and]
      constructor
      · rintro (h | h)
        · exact Or.inl h
        · exact Or.inr ⟨by rw [h], by rw [h]⟩
      · rintro (h | ⟨h1, h2⟩)
        · exact Or.inl h
        · exact Or.inr (by rw [h1, h2])
    · simp [ht]
  | del t k =>
    simp only [DbOp.apply, DbOp.removes, DbOp.adds, or_false]
    by_cases ht : t = table
    · simp [ht]
    · simp [ht]
  | del_sub t k sub =>
    simp only [DbOp.apply, DbOp.removes, DbOp.adds, or_false]
    by_cases ht : t = table
    · simp only [ht, if_true, List.mem_filter, true_and]
      have hb : (!(decide (r.1 = k) && sub.isPrefixOf r.2)) = true
          ↔ ¬ (r.1 = k ∧ sub.isPrefixOf r.2 = true) := by
        cases sub.isPrefixOf r.2 <;> by_cases hk : r.1 = k <;> simp [hk]
      rw [hb]
    · simp [ht]

theorem apply_ops_cons (table : String) (rows : List (Bytes × Bytes)) (op : DbOp)
    (ops : List DbOp) :
    apply_ops table rows (op :: ops) = apply_ops table (DbOp.apply table rows op) ops := rfl

/-- A row that no write adds is in the table afterwards only if it was there before. -/
theorem apply_ops_sub (table : String) (r : Bytes × Bytes) :
    ∀ (ops : List DbOp) (rows : List (Bytes × Bytes)),
      (∀ op ∈ ops, ¬ op.adds table r) → r ∈ apply_ops table rows ops → r ∈ rows := by
  intro ops
  induction ops with
  | nil => intro rows _ h; exact h
  | cons op rest ih =>
    intro rows hadd h
    rw [apply_ops_cons] at h
    have h2 := ih _ (fun o ho => hadd o (List.mem_cons_of_mem _ ho)) h
    rcases (mem_apply table rows op r).mp h2 with h3 | h3
    · exact h3.1
    · exact absurd h3 (hadd op (List.mem_cons_self _ _))

/-- A row that no write adds or removes is in the table afterwards exactly if it was there
before. -/
theorem apply_ops_untouched (table : String) (r : Bytes × Bytes) :
    ∀ (ops : List DbOp) (rows : List (Bytes × Bytes)),
      (∀ op ∈ ops, ¬ op.adds table r ∧ ¬ op.removes table r) →
      (r ∈ apply_ops table rows ops ↔ r ∈ rows) := by
  intro ops
  induction ops with
  | nil => intro rows _; exact Iff.rfl
  | cons op rest ih =>
    intro rows h
    rw [apply_ops_cons, ih _ (fun o ho => h o (List.mem_cons_of_mem _ ho)), mem_apply]
    obtain ⟨h1, h2⟩ := h op (List.mem_cons_self _ _)
    constructor
    · rintro (h3 | h3)
      · exact h3.1
      · exact absurd h3 h1
    · intro h3
      exact Or.inl ⟨h3, h2⟩

/-- A row that some write removes and no write adds is not in the table afterwards. -/
theorem apply_ops_gone (table : String) (r : Bytes × Bytes) :
    ∀ (ops : List DbOp) (rows : List (Bytes × Bytes)),
      (∀ op ∈ ops, ¬ op.adds table r) → (∃ op ∈ ops, op.removes table r) →
      r ∉ apply_ops table rows ops := by
  intro ops
  induction ops with
  | nil =>
    intro rows _ h
    obtain ⟨op, hop, _⟩ := h
    cases hop
  | cons op rest ih =>
    intro rows hadd hrem
    rw [apply_ops_cons]
    have hadd2 : ∀ o ∈ rest, ¬ o.adds table r := fun o ho => hadd o (List.mem_cons_of_mem _ ho)
    by_cases hlater : ∃ o ∈ rest, o.removes table r
    · exact ih _ hadd2 hlater
    · obtain ⟨o, ho, hor⟩ := hrem
      rcases List.mem_cons.mp ho with h | h
      · subst h
        intro hmem
        have h2 := apply_ops_sub table r rest _ hadd2 hmem
        rcases (mem_apply table rows o r).mp h2 with h3 | h3
        · exact h3.2 hor
        · exact hadd o (List.mem_cons_self _ _) h3
      · exact absurd ⟨o, h, hor⟩ hlater

theorem OMap.mem_of_find {κ υ : Type} [LinearOrder κ] (m : OMap κ υ) (k : κ) (v : υ)
    (h : OMap.find m k = some v) : (k, v) ∈ m := by
  induction m with
  | nil => simp [OMap.find] at h
  | cons e rest ih =>
    obtain ⟨k1, v1⟩ := e
    unfold OMap.find at h
    by_cases hk : k1 = k
    · rw [if_pos hk] at h
      have hv : v1 = v := Option.some.inj h
      rw [hk, hv]
      exact List.mem_cons_self _ _
    · rw [if_neg hk] at h
      exact List.mem_cons_of_mem _ (ih h)

theorem OMap.mem_keys_of_mem {κ υ : Type} (m : OMap κ υ) (k : κ) (v : υ) (h : (k, v) ∈ m) :
    k ∈ OMap.keys m := by
  unfold OMap.keys
  exact List.mem_map.mpr ⟨(k, v), h, rfl⟩

theorem OMap.find_of_mem {κ υ : Type} [LinearOrder κ] (m : OMap κ υ) (k : κ) (v : υ)
    (hord : OMap.Ordered m) (h : (k, v) ∈ m) : OMap.find m k = some v := by
  induction m with
  | nil => cases h
  | cons e rest ih =>
    obtain ⟨k1, v1⟩ := e
    unfold OMap.Ordered OMap.keys at hord
    rw [List.map_cons, List.pairwise_cons] at hord
    unfold OMap.find
    rcases List.mem_cons.mp h with heq | hin
    · have h1 : k = k1 := (Prod.mk.inj heq).1
      have h2 : v = v1 := (Prod.mk.inj heq).2
      rw [if_pos h1.symm, h2]
    · have hlt : k1 < k := hord.1 k (OMap.mem_keys_of_mem rest k v hin)
      rw [if_neg (ne_of_lt hlt)]
      exact ih hord.2 hin

theorem OSet.mem_insert_iff {κ : Type} [LinearOrder κ] (l : List κ) (k x : κ) :
    x ∈ OSet.insert l k ↔ x = k ∨ x ∈ l := by
  induction l with
  | nil => simp [OSet.insert]
  | cons k1 rest ih =>
    unfold OSet.insert
    by_cases h1 : k < k1
    · simp [h1]
    · by_cases h2 : k = k1
      · subst h2
        simp
      · simp only [h1, h2, if_false, List.mem_cons, ih]
        tauto

theorem OSet.mem_foldl_insert {κ : Type} [LinearOrder κ] (x : κ) :
    ∀ (ks l : List κ), x ∈ ks.foldl OSet.insert l ↔ x ∈ l ∨ x ∈ ks := by
  intro ks
  induction ks with
  | nil => intro l; simp
  | cons k rest ih =>
    intro l
    rw [List.foldl_cons, ih, OSet.mem_insert_iff, List.mem_cons]
    tauto

theorem mem_state_table_keys (b : Buffer) (x : Address) :
    x ∈ b.state_table_keys ↔ x ∈ b.accounts_.keys ∨ x ∈ b.storage_.keys := by
  unfold Buffer.state_table_keys
  rw [OSet.mem_foldl_insert, OSet.mem_foldl_insert]
  simp

/-- Inserting into a strictly ascending list keeps it strictly ascending. -/
theorem OSet.sorted_insert {κ : Type} [LinearOrder κ] (l : List κ) (k : κ)
    (h : l.Pairwise (fun x y => x < y)) : (OSet.insert l k).Pairwise (fun x y => x < y) := by
  induction l with
  | nil => simp [OSet.insert]
  | cons k1 rest ih =>
    rw [List.pairwise_cons] at h
    unfold OSet.insert
    by_cases h1 : k < k1
    · rw [if_pos h1]
      refine List.pairwise_cons.mpr ⟨?_, List.pairwise_cons.mpr h⟩
      intro x hx
      rcases List.mem_cons.mp hx with hx | hx
      · rw [hx]; exact h1
      · exact lt_trans h1 (h.1 x hx)
    · rw [if_neg h1]
      by_cases h2 : k = k1
      · rw [if_pos h2]; exact List.pairwise_cons.mpr h
      · rw [if_neg h2]
        refine List.pairwise_cons.mpr ⟨?_, ih h.2⟩
        intro x hx
        rcases (OSet.mem_insert_iff rest k x).mp hx with hx | hx
        · rw [hx]; exact lt_of_le_of_ne (not_lt.mp h1) (Ne.symm h2)
        · exact h.1 x hx

/-- A list built by insertions into a strictly ascending list is strictly ascending. -/
theorem OSet.sorted_foldl_insert {κ : Type} [LinearOrder κ] :
    ∀ (ks l : List κ), l.Pairwise (fun x y => x < y) →
      (ks.foldl OSet.insert l).Pairwise (fun x y => x < y) := by
  intro ks
  induction ks with
  | nil => intro l h; exact h
  | cons k rest ih =>
    intro l h
    exact ih (OSet.insert l k) (OSet.sorted_insert l k h)

/-- The key set of the state-table batch is strictly ascending. -/
theorem state_table_keys_sorted (b : Buffer) :
    b.state_table_keys.Pairwise (fun x y => x < y) := by
  unfold Buffer.state_table_keys
  exact OSet.sorted_foldl_insert _ _ (OSet.sorted_foldl_insert _ _ List.Pairwise.nil)

/-- The writes of the state-table policy, one by one. -/
theorem mem_state_table_ops (b : Buffer) (c : Codec) (op : DbOp) :
    op ∈ b.state_table_ops c
      ↔ ∃ a ∈ b.state_table_keys,
          (∃ account, b.accounts_.find a = some account ∧ op ∈ account_row_ops c a account)
          ∨ (∃ contracts, b.storage_.find a = some contracts
              ∧ ∃ contract ∈ contracts, ∃ x ∈ contract.2,
                  op ∈ storage_slot_ops c a contract.1 x.1 x.2) := by
  unfold Buffer.state_table_ops
  rw [List.mem_flatMap]
  constructor
  · rintro ⟨a, ha, hop⟩
    refine ⟨a, ha, ?_⟩
    rcases List.mem_append.mp hop with h | h
    · left
      cases hf : b.accounts_.find a with
      | none => rw [hf] at h; cases h
      | some account => rw [hf] at h; exact ⟨account, rfl, h⟩
    · right
      cases hf : b.storage_.find a with
      | none => rw [hf] at h; cases h
      | some contracts =>
        rw [hf] at h
        simp only [List.mem_flatMap] at h
        obtain ⟨contract, hc, x, hx, hop2⟩ := h
        exact ⟨contracts, rfl, contract, hc, x, hx, hop2⟩
  · rintro ⟨a, ha, h⟩
    refine ⟨a, ha, ?_⟩
    rcases h with ⟨account, hf, hop⟩ | ⟨contracts, hf, contract, hc, x, hx, hop⟩
    · apply List.mem_append_left
      rw [hf]
      exact hop
    · apply List.mem_append_right
      rw [hf]
      simp only [List.mem_flatMap]
      exact ⟨contract, hc, x, hx, hop⟩

/-- The writes of one element are a block of the writes of the whole list. -/
theorem infix_flatMap_of_mem {α β : Type} (f : α → List β) (l : List α) (a : α) (h : a ∈ l) :
    f a <:+: l.flatMap f := by
  rw [List.flatMap_def]
  exact List.infix_of_mem_flatten (List.mem_map_of_mem f h)

/-- The account writes of an address with an entry in `accounts_` are a block of the batch. -/
theorem account_row_ops_infix (b : Buffer) (c : Codec) (a : Address) (account : Option Account)
    (h : b.accounts_.find a = some account) :
    account_row_ops c a account <:+: b.state_table_ops c := by
  have hk : a ∈ b.state_table_keys :=
    (mem_state_table_keys b a).mpr
      (Or.inl (OMap.mem_keys_of_mem _ a account (OMap.mem_of_find _ a account h)))
  unfold Buffer.state_table_ops
  refine List.IsInfix.trans ?_ (infix_flatMap_of_mem _ _ a hk)
  simp only [h]
  exact (List.prefix_append _ _).isInfix

/-- The writes of a dirty slot are a block of the batch. -/
theorem storage_slot_ops_infix (b : Buffer) (c : Codec) (a : Address)
    (contracts : OMap Nat (OMap Hash Hash)) (h : b.storage_.find a = some contracts)
    (contract : Nat × OMap Hash Hash) (hc : contract ∈ contracts)
    (x : Hash × Hash) (hx : x ∈ contract.2) :
    storage_slot_ops c a contract.1 x.1 x.2 <:+: b.state_table_ops c := by
  have hk : a ∈ b.state_table_keys :=
    (mem_state_table_keys b a).mpr
      (Or.inr (OMap.mem_keys_of_mem _ a contracts (OMap.mem_of_find _ a contracts h)))
  unfold Buffer.state_table_ops
  refine List.IsInfix.trans ?_ (infix_flatMap_of_mem _ _ a hk)
  simp only [h]
  refine List.IsInfix.trans ?_ (List.suffix_append _ _).isInfix
  refine List.IsInfix.trans ?_ (infix_flatMap_of_mem _ _ contract hc)
  exact infix_flatMap_of_mem (fun x => storage_slot_ops c a contract.1 x.1 x.2) _ x hx

theorem apply_ops_append (table : String) (rows : List (Bytes × Bytes)) (ops1 ops2 : List DbOp) :
    apply_ops table rows (ops1 ++ ops2) = apply_ops table (apply_ops table rows ops1) ops2 := by
  unfold apply_ops
  rw [List.foldl_append]

/-- A row of the table that no write removes is in the table afterwards. -/
theorem apply_ops_kept (table : String) (r : Bytes × Bytes) :
    ∀ (ops : List DbOp) (rows : List (Bytes × Bytes)),
      (∀ op ∈ ops, ¬ op.removes table r) → r ∈ rows → r ∈ apply_ops table rows ops := by
  intro ops
  induction ops with
  | nil => intro rows _ h; exact h
  | cons op rest ih =>
    intro rows hrem h
    rw [apply_ops_cons]
    exact ih _ (fun o ho => hrem o (List.mem_cons_of_mem _ ho))
      ((mem_apply table rows op r).mpr (Or.inl ⟨h, hrem op (List.mem_cons_self _ _)⟩))

/-- A row that the writes of one element always leave in the table, and that the writes of the
other elements do not remove, is in the table after the writes of the whole list. -/
theorem apply_ops_flatMap_present {κ : Type} (table : String) (r : Bytes × Bytes)
    (f : κ → List DbOp) (a : κ) (hblock : ∀ rows, r ∈ apply_ops table rows (f a)) :
    ∀ (ks : List κ) (rows : List (Bytes × Bytes)), a ∈ ks →
      (∀ k ∈ ks, k ≠ a → ∀ op ∈ f k, ¬ op.removes table r) →
      r ∈ apply_ops table rows (ks.flatMap f) := by
  intro ks
  induction ks with
  | nil => intro rows h; cases h
  | cons k rest ih =>
    intro rows hmem hother
    rw [List.flatMap_cons, apply_ops_append]
    by_cases hin : a ∈ rest
    · exact ih _ hin (fun k2 hk2 => hother k2 (List.mem_cons_of_mem _ hk2))
    · have hka : a = k := by
        rcases List.mem_cons.mp hmem with h | h
        · exact h
        · exact absurd h hin
      apply apply_ops_kept
      · intro op hop
        rw [List.mem_flatMap] at hop
        obtain ⟨k2, hk2, hop2⟩ := hop
        exact hother k2 (List.mem_cons_of_mem _ hk2) (fun e => hin (e ▸ hk2)) op hop2
      · rw [← hka]
        exact hblock _

/-- The account writes remove rows of the account key only. -/
theorem account_row_ops_removes (c : Codec) (a : Address) (account : Option Account)
    (table : String) (r : Bytes × Bytes) (op : DbOp) (hop : op ∈ account_row_ops c a account)
    (hrem : op.removes table r) : r.1 = c.full_view_address a := by
  unfold account_row_ops at hop
  rcases List.mem_cons.mp hop with h | h
  · rw [h] at hrem; exact hrem.2
  · cases account with
    | none => cases h
    | some acc =>
      rw [List.mem_singleton] at h
      rw [h] at hrem
      exact hrem.elim

/-- The account writes add the row of the present account only. -/
theorem account_row_ops_adds (c : Codec) (a : Address) (account : Option Account)
    (table : String) (r : Bytes × Bytes) (op : DbOp) (hop : op ∈ account_row_ops c a account)
    (hadd : op.adds table r) :
    ∃ acc, account = some acc ∧ r.1 = c.full_view_address a
      ∧ r.2 = c.encode_for_storage acc false := by
  unfold account_row_ops at hop
  rcases List.mem_cons.mp hop with h | h
  · rw [h] at hadd; exact hadd.elim
  · cases account with
    | none => cases h
    | some acc =>
      rw [List.mem_singleton] at h
      rw [h] at hadd
      exact ⟨acc, rfl, hadd.2.1.symm, hadd.2.2.symm⟩

/-- The writes of a slot remove rows under its storage prefix that start with its key only. -/
theorem storage_slot_ops_removes (c : Codec) (a : Address) (inc : Nat) (key value : Hash)
    (table : String) (r : Bytes × Bytes) (op : DbOp)
    (hop : op ∈ storage_slot_ops c a inc key value) (hrem : op.removes table r) :
    r.1 = c.storage_prefix a inc ∧ (c.full_view_hash key).isPrefixOf r.2 = true := by
  unfold storage_slot_ops at hop
  rcases List.mem_cons.mp hop with h | h
  · rw [h] at hrem; exact hrem.2
  · split at h
    · rw [List.mem_singleton] at h
      rw [h] at hrem
      exact hrem.elim
    · cases h

/-- The writes of a slot add the row of its non-zero value only. -/
theorem storage_slot_ops_adds (c : Codec) (a : Address) (inc : Nat) (key value : Hash)
    (table : String) (r : Bytes × Bytes) (op : DbOp)
    (hop : op ∈ storage_slot_ops c a inc key value) (hadd : op.adds table r) :
    value ≠ 0 ∧ r.1 = c.storage_prefix a inc
      ∧ r.2 = c.full_view_hash key ++ c.zeroless_view value := by
  unfold storage_slot_ops at hop
  rcases List.mem_cons.mp hop with h | h
  · rw [h] at hadd; exact hadd.elim
  · split at h
    · rename_i hval
      rw [List.mem_singleton] at h
      rw [h] at hadd
      exact ⟨hval, hadd.2.1.symm, hadd.2.2.symm⟩
    · cases h

/-- The account writes of a present account always leave its row in the table. -/
theorem account_row_ops_present (c : Codec) (a : Address) (acc : Account)
    (rows : List (Bytes × Bytes)) :
    (c.full_view_address a, c.encode_for_storage acc false)
      ∈ apply_ops kPlainState rows (account_row_ops c a (some acc)) := by
  unfold account_row_ops
  unfold apply_ops
  simp only [List.foldl_cons, List.foldl_nil]
  apply (mem_apply _ _ _ _).mpr
  right
  exact ⟨rfl, rfl, rfl⟩

/-- The writes of a slot of non-zero value always leave its row in the table. -/
theorem storage_slot_ops_present (c : Codec) (a : Address) (inc : Nat) (key value : Hash)
    (hval : value ≠ 0) (rows : List (Bytes × Bytes)) :
    ( c.storage_prefix a inc, c.full_view_hash key ++ c.zeroless_view value)
      ∈ apply_ops kPlainState rows (storage_slot_ops c a inc key value) := by
  unfold storage_slot_ops
  rw [if_pos hval]
  unfold apply_ops
  simp only [List.foldl_cons, List.foldl_nil]
  apply (mem_apply _ _ _ _).mpr
  right
  exact ⟨rfl, rfl, rfl⟩

/-- The slot that the three nested lookups find is the only entry of its key in the dirty
storage of an ordered buffer. -/
theorem storage_lookup_unique (b : Buffer) (hord : b.StorageOrdered) (a : Address) (inc : Nat)
    (key v : Hash) (hlook : storage_lookup b.storage_ a inc key = some v)
    (contracts : OMap Nat (OMap Hash Hash)) (hf : b.storage_.find a = some contracts)
    (contract : Nat × OMap Hash Hash) (hc : contract ∈ contracts) (hi : contract.1 = inc)
    (x : Hash × Hash) (hx : x ∈ contract.2) (hk : x.1 = key) : x.2 = v := by
  unfold storage_lookup at hlook
  rw [hf, Option.some_bind] at hlook
  obtain ⟨hord2, hord3⟩ := hord (a, contracts) (OMap.mem_of_find _ a contracts hf)
  have hfc : contracts.find contract.1 = some contract.2 :=
    OMap.find_of_mem _ contract.1 contract.2 hord2 hc
  rw [hi] at hfc
  rw [hfc, Option.some_bind] at hlook
  have hx2 : contract.2.find x.1 = some x.2 :=
    OMap.find_of_mem _ x.1 x.2 (hord3 contract hc) hx
  rw [hk, hlook] at hx2
  exact (Option.some.inj hx2).symm

/-- What a write of the batch that removes a row says about the row: the write belongs to an
address of the key set, and the row has the account key of that address or lies under one of
its storage prefixes and starts with the key of one of its dirty slots. -/
theorem address_ops_removes (b : Buffer) (c : Codec) (k : Address) (table : String)
    (r : Bytes × Bytes) (op : DbOp)
    (hop : op ∈ (match b.accounts_.find k with
        | some account => account_row_ops c k account
        | none => [])
      ++ (match b.storage_.find k with
        | some contracts =>
          contracts.flatMap (fun contract =>
            contract.2.flatMap (fun x => storage_slot_ops c k contract.1 x.1 x.2))
        | none => []))
    (hrem : op.removes table r) :
    r.1 = c.full_view_address k
      ∨ ∃ contracts, b.storage_.find k = some contracts ∧ ∃ contract ∈ contracts,
          ∃ x ∈ contract.2, r.1 = c.storage_prefix k contract.1
            ∧ (c.full_view_hash x.1).isPrefixOf r.2 = true := by
  rcases List.mem_append.mp hop with h | h
  · left
    cases hf : b.accounts_.find k with
    | none => rw [hf] at h; cases h
    | some account =>
      rw [hf] at h
      exact account_row_ops_removes c k account table r op h hrem
  · right
    cases hf : b.storage_.find k with
    | none => rw [hf] at h; cases h
    | some contracts =>
      rw [hf] at h
      simp only [List.mem_flatMap] at h
      obtain ⟨contract, hc, x, hx, hop2⟩ := h
      obtain ⟨h1, h2⟩ := storage_slot_ops_removes c k contract.1 x.1 x.2 table r op hop2 hrem
      exact ⟨contracts, rfl, contract, hc, x, hx, h1, h2⟩

/-- After the batch a present account has its row in the table (for encodings that keep
distinct keys apart). -/
theorem account_row_after (b : Buffer) (c : Codec) (rows : List (Bytes × Bytes))
    (hsep : c.Separates) (a : Address) (acc : Account)
    (hfind : b.accounts_.find a = some (some acc)) :
    (c.full_view_address a, c.encode_for_storage acc false)
      ∈ apply_ops kPlainState rows (b.state_table_ops c) := by
  obtain ⟨hs1, hs2, _, _⟩ := hsep
  have hk : a ∈ b.state_table_keys :=
    (mem_state_table_keys b a).mpr
      (Or.inl (OMap.mem_keys_of_mem _ a _ (OMap.mem_of_find _ a _ hfind)))
  unfold Buffer.state_table_ops
  refine apply_ops_flatMap_present kPlainState _ _ a ?_ _ rows hk ?_
  · intro rows2
    simp only [hfind]
    rw [apply_ops_append]
    apply apply_ops_kept
    · intro op hop hrem
      cases hf : b.storage_.find a with
      | none => rw [hf] at hop; cases hop
      | some contracts =>
        rw [hf] at hop
        simp only [List.mem_flatMap] at hop
        obtain ⟨contract, _, x, _, hop2⟩ := hop
        exact hs2 a a contract.1
          (storage_slot_ops_removes c a contract.1 x.1 x.2 _ _ op hop2 hrem).1
    · exact account_row_ops_present c a acc rows2
  · intro k _ hne op hop hrem
    rcases address_ops_removes b c k kPlainState _ op hop hrem with
      h | ⟨_, _, contract, _, _, _, h, _⟩
    · exact hne (hs1 k a h.symm)
    · exact hs2 a k contract.1 h

/-- After the batch every row under the key of a present account is the row of its encoding. -/
theorem account_row_unique (b : Buffer) (c : Codec) (rows : List (Bytes × Bytes))
    (hsep : c.Separates) (a : Address) (acc : Account)
    (hfind : b.accounts_.find a = some (some acc)) :
    ∀ r ∈ apply_ops kPlainState rows (b.state_table_ops c),
      r.1 = c.full_view_address a → r.2 = c.encode_for_storage acc false := by
  obtain ⟨hs1, hs2, _, _⟩ := hsep
  intro r hr hkey
  by_contra hne
  refine apply_ops_gone kPlainState r (b.state_table_ops c) rows ?_ ?_ hr
  · intro op hop hadd
    rw [mem_state_table_ops] at hop
    obtain ⟨a2, _, h⟩ := hop
    rcases h with ⟨account, hf, hin⟩ | ⟨contracts, _, contract, _, x, _, hin⟩
    · obtain ⟨acc2, hacc, hk, hv⟩ := account_row_ops_adds c a2 account _ r op hin hadd
      have ha : a2 = a := hs1 a2 a (hk.symm.trans hkey)
      rw [ha, hfind, hacc] at hf
      have he : acc = acc2 := Option.some.inj (Option.some.inj hf)
      exact hne (by rw [hv, he])
    · obtain ⟨_, hk, _⟩ := storage_slot_ops_adds c a2 contract.1 x.1 x.2 _ r op hin hadd
      exact hs2 a a2 contract.1 (hkey.symm.trans hk)
  · refine ⟨DbOp.del kPlainState (c.full_view_address a), ?_, rfl, hkey⟩
    rw [mem_state_table_ops]
    refine ⟨a, ?_, Or.inl ⟨some acc, hfind, List.mem_cons_self _ _⟩⟩
    rw [mem_state_table_keys]
    exact Or.inl (OMap.mem_keys_of_mem _ a _ (OMap.mem_of_find _ a _ hfind))

/-- After the batch a dirty slot of non-zero value has its row in the table (for encodings that
keep distinct keys apart and ordered inner maps). -/
theorem slot_row_after (b : Buffer) (c : Codec) (rows : List (Bytes × Bytes))
    (hsep : c.Separates) (hord : b.StorageOrdered) (a : Address) (inc : Nat) (key v : Hash)
    (hlook : storage_lookup b.storage_ a inc key = some v) (hval : v ≠ 0) :
    ( c.storage_prefix a inc, c.full_view_hash key ++ c.zeroless_view v)
      ∈ apply_ops kPlainState rows (b.state_table_ops c) := by
  obtain ⟨_, hs2, hs3, hs4⟩ := hsep
  have hlook2 := hlook
  unfold storage_lookup at hlook2
  cases hf : b.storage_.find a with
  | none => rw [hf] at hlook2; cases hlook2
  | some contracts =>
    rw [hf, Option.some_bind] at hlook2
    cases hf2 : contracts.find inc with
    | none => rw [hf2] at hlook2; cases hlook2
    | some m =>
      rw [hf2, Option.some_bind] at hlook2
      have hmem1 : (a, contracts) ∈ b.storage_ := OMap.mem_of_find _ a contracts hf
      have hmem2 : (inc, m) ∈ contracts := OMap.mem_of_find _ inc m hf2
      have hmem3 : (key, v) ∈ m := OMap.mem_of_find _ key v hlook2
      have hk : a ∈ b.state_table_keys :=
        (mem_state_table_keys b a).mpr (Or.inr (OMap.mem_keys_of_mem _ a contracts hmem1))
      unfold Buffer.state_table_ops
      refine apply_ops_flatMap_present kPlainState _ _ a ?_ _ rows hk ?_
      · intro rows2
        simp only [hf]
        rw [apply_ops_append]
        refine apply_ops_flatMap_present kPlainState _ _ (inc, m) ?_ _ _ hmem2 ?_
        · intro rows3
          refine apply_ops_flatMap_present kPlainState _ _ (key, v) ?_ _ _ hmem3 ?_
          · intro rows4
            exact storage_slot_ops_present c a inc key v hval rows4
          · intro x hx hne op hop hrem
            obtain ⟨_, hp⟩ := storage_slot_ops_removes c a inc x.1 x.2 _ _ op hop hrem
            have hkk : x.1 = key := hs4 x.1 key _ hp
            have hv := storage_lookup_unique b hord a inc key v hlook contracts hf (inc, m)
              hmem2 rfl x hx hkk
            exact hne (Prod.ext hkk hv)
        · intro e he hne op hop hrem
          simp only [List.mem_flatMap] at hop
          obtain ⟨x, hx, hop2⟩ := hop
          obtain ⟨hp, _⟩ := storage_slot_ops_removes c a e.1 x.1 x.2 _ _ op hop2 hrem
          have hi : e.1 = inc := ((hs3 a inc a e.1 hp).2).symm
          obtain ⟨hord2, _⟩ := hord (a, contracts) hmem1
          have hfe := OMap.find_of_mem _ e.1 e.2 hord2 he
          rw [hi, hf2] at hfe
          exact hne (Prod.ext hi (Option.some.inj hfe).symm)
      · intro k _ hne op hop hrem
        rcases address_ops_removes b c k kPlainState _ op hop hrem with
          h | ⟨_, _, contract, _, _, _, h, _⟩
        · exact hs2 k a inc h.symm
        · exact hne (hs3 a inc k contract.1 h).1.symm

/-- After the batch every row under the storage prefix of a dirty slot that starts with its key
is the row of its value. -/
theorem slot_row_unique (b : Buffer) (c : Codec) (rows : List (Bytes × Bytes))
    (hsep : c.Separates) (hord : b.StorageOrdered) (a : Address) (inc : Nat) (key v : Hash)
    (hlook : storage_lookup b.storage_ a inc key = some v) :
    ∀ r ∈ apply_ops kPlainState rows (b.state_table_ops c),
      r.1 = c.storage_prefix a inc → (c.full_view_hash key).isPrefixOf r.2 = true →
      r.2 = c.full_view_hash key ++ c.zeroless_view v := by
  obtain ⟨_, hs2, hs3, hs4⟩ := hsep
  intro r hr hkey hpre
  by_contra hne
  have hlook2 := hlook
  unfold storage_lookup at hlook2
  cases hf : b.storage_.find a with
  | none => rw [hf] at hlook2; cases hlook2
  | some contracts =>
    rw [hf, Option.some_bind] at hlook2
    cases hf2 : contracts.find inc with
    | none => rw [hf2] at hlook2; cases hlook2
    | some m =>
      rw [hf2, Option.some_bind] at hlook2
      have hmem1 : (a, contracts) ∈ b.storage_ := OMap.mem_of_find _ a contracts hf
      have hmem2 : (inc, m) ∈ contracts := OMap.mem_of_find _ inc m hf2
      have hmem3 : (key, v) ∈ m := OMap.mem_of_find _ key v hlook2
      refine apply_ops_gone kPlainState r (b.state_table_ops c) rows ?_ ?_ hr
      · intro op hop hadd
        rw [mem_state_table_ops] at hop
        obtain ⟨a2, _, h⟩ := hop
        rcases h with ⟨account, _, hin⟩ | ⟨contracts2, hf3, contract, hc, x, hx, hin⟩
        · obtain ⟨_, _, hk, _⟩ := account_row_ops_adds c a2 account _ r op hin hadd
          exact hs2 a2 a inc (hk.symm.trans hkey)
        · obtain ⟨_, hk, hv⟩ := storage_slot_ops_adds c a2 contract.1 x.1 x.2 _ r op hin hadd
          obtain ⟨ha, hi⟩ := hs3 a2 contract.1 a inc (hk.symm.trans hkey)
          rw [hv] at hpre
          have hkk : x.1 = key := (hs4 key x.1 _ hpre).symm
          rw [ha] at hf3
          have hx2 := storage_lookup_unique b hord a inc key v hlook contracts2 hf3 contract
            hc hi x hx hkk
          exact hne (by rw [hv, hkk, hx2])
      · refine ⟨DbOp.del_sub kPlainState ( c.storage_prefix a inc) (c.full_view_hash key), ?_,
          rfl, hkey, hpre⟩
        rw [mem_state_table_ops]
        refine ⟨a, ?_, Or.inr ⟨contracts, hf, (inc, m), hmem2, (key, v), hmem3,
          List.mem_cons_self _ _⟩⟩
        rw [mem_state_table_keys]
        exact Or.inr (OMap.mem_keys_of_mem _ a contracts hmem1)

/-- C18. For every buffer, the writes of `write_to_state_table` are those of the state-table
policy (`state_table_ops`), appended to the log. The addresses visited are exactly those of
`accounts_` and of `storage_`, in strictly ascending order. For each address with an entry in
`accounts_` the batch holds, as one block, a delete of the account row followed by a put of the
full encoding exactly when the account is present; for each slot of the dirty storage of an
address it holds, as one block, a delete of the row under the storage prefix and the key
followed by a put of the key and the zero-stripped value exactly when the value is not zero;
and every write of the batch belongs to one of these blocks. On the map model of the state
table, for encodings that keep distinct keys apart and ordered inner maps: after the batch a
tombstoned account has no row, a dirty slot of value zero has no row, a row that belongs to no
key of the dirty maps is in the table exactly if it was there before, a present account has
the row of its encoding and no other row under its key, and a dirty slot of non-zero value has
the row of its value and no other row under its prefix that starts with its key. -/
theorem write_to_state_table_policy (b : Buffer) (c : Codec) (txn : List DbOp)
    (rows : List (Bytes × Bytes)) :
    b.write_to_state_table c txn = txn ++ b.state_table_ops c
      ∧ b.state_table_keys.Pairwise (fun x y => x < y)
      ∧ (∀ x : Address,
          x ∈ b.state_table_keys ↔ x ∈ b.accounts_.keys ∨ x ∈ b.storage_.keys)
      ∧ (∀ (a : Address) (account : Option Account), b.accounts_.find a = some account →
          account_row_ops c a account <:+: b.state_table_ops c)
      ∧ (∀ (a : Address) (contracts : OMap Nat (OMap Hash Hash)),
          b.storage_.find a = some contracts →
          ∀ contract ∈ contracts, ∀ x ∈ contract.2,
            storage_slot_ops c a contract.1 x.1 x.2 <:+: b.state_table_ops c)
      ∧ (∀ op : DbOp, op ∈ b.state_table_ops c ↔
          ∃ a : Address,
            (∃ account, b.accounts_.find a = some account ∧ op ∈ account_row_ops c a account)
            ∨ (∃ contracts, b.storage_.find a = some contracts
                ∧ ∃ contract ∈ contracts, ∃ x ∈ contract.2,
                    op ∈ storage_slot_ops c a contract.1 x.1 x.2))
      ∧ (c.Separates → b.StorageOrdered →
          (∀ a : Address, b.accounts_.find a = some none →
            ∀ r ∈ apply_ops kPlainState rows (b.state_table_ops c),
              r.1 ≠ c.full_view_address a)
          ∧ (∀ (a : Address) (inc : Nat) (key : Hash),
              storage_lookup b.storage_ a inc key = some 0 →
              ∀ r ∈ apply_ops kPlainState rows (b.state_table_ops c),
                ¬ (r.1 = c.storage_prefix a inc
                    ∧ (c.full_view_hash key).isPrefixOf r.2 = true))
          ∧ (∀ r : Bytes × Bytes, ¬ b.dirty_row c r →
              (r ∈ apply_ops kPlainState rows (b.state_table_ops c) ↔ r ∈ rows))
          ∧ (∀ (a : Address) (acc : Account), b.accounts_.find a = some (some acc) →
              (c.full_view_address a, c.encode_for_storage acc false)
                  ∈ apply_ops kPlainState rows (b.state_table_ops c)
                ∧ ∀ r ∈ apply_ops kPlainState rows (b.state_table_ops c),
                    r.1 = c.full_view_address a → r.2 = c.encode_for_storage acc false)
          ∧ (∀ (a : Address) (inc : Nat) (key v : Hash),
              storage_lookup b.storage_ a inc key = some v → v ≠ 0 →
              ( c.storage_prefix a inc, c.full_view_hash key ++ c.zeroless_view v)
                  ∈ apply_ops kPlainState rows (b.state_table_ops c)
                ∧ ∀ r ∈ apply_ops kPlainState rows (b.state_table_ops c),
                    r.1 = c.storage_prefix a inc →
                    (c.full_view_hash key).isPrefixOf r.2 = true →
                    r.2 = c.full_view_hash key ++ c.zeroless_view v)) := by
  refine ⟨write_to_state_table_eq b c txn, state_table_keys_sorted b, mem_state_table_keys b,
    fun a account h => account_row_ops_infix b c a account h,
    fun a contracts h contract hc x hx => storage_slot_ops_infix b c a contracts h contract hc
      x hx, ?_, ?_⟩
  · intro op
    rw [mem_state_table_ops]
    constructor
    · rintro ⟨a, _, h⟩
      exact ⟨a, h⟩
    · rintro ⟨a, h⟩
      refine ⟨a, ?_, h⟩
      rw [mem_state_table_keys]
      rcases h with ⟨account, hf, _⟩ | ⟨contracts, hf, _⟩
      · exact Or.inl (OMap.mem_keys_of_mem _ a account (OMap.mem_of_find _ a account hf))
      · exact Or.inr (OMap.mem_keys_of_mem _ a contracts (OMap.mem_of_find _ a contracts hf))
  · intro hsep hord
    have hacc := fun (a : Address) (acc : Account)
        (h : b.accounts_.find a = some (some acc)) =>
      And.intro (account_row_after b c rows hsep a acc h)
        (account_row_unique b c rows hsep a acc h)
    have hslot := fun (a : Address) (inc : Nat) (key v : Hash)
        (h : storage_lookup b.storage_ a inc key = some v) (hv : v ≠ 0) =>
      And.intro (slot_row_after b c rows hsep hord a inc key v h hv)
        (slot_row_unique b c rows hsep hord a inc key v h)
    obtain ⟨hs1, hs2, hs3, hs4⟩ := hsep
    refine ⟨?_, ?_, ?_, hacc, hslot⟩
    · intro a hfind r hr hkey
      refine apply_ops_gone kPlainState r (b.state_table_ops c) rows ?_ ?_ hr
      · intro op hop hadd
        rw [mem_state_table_ops] at hop
        obtain ⟨a2, _, h⟩ := hop
        rcases h with ⟨account, hf, hin⟩ | ⟨contracts, _, contract, _, x, _, hin⟩
        · unfold account_row_ops at hin
          rcases List.mem_cons.mp hin with h1 | h1
          · rw [h1] at hadd; exact hadd
          · cases account with
            | none => cases h1
            | some acc =>
              rw [List.mem_singleton] at h1
              rw [h1] at hadd
              obtain ⟨_, hk, _⟩ := hadd
              have : a2 = a := hs1 a2 a (hk.trans hkey)
              rw [this, hfind] at hf
              cases hf
        · unfold storage_slot_ops at hin
          rcases List.mem_cons.mp hin with h1 | h1
          · rw [h1] at hadd; exact hadd
          · split at h1
            · rw [List.mem_singleton] at h1
              rw [h1] at hadd
              obtain ⟨_, hk, _⟩ := hadd
              exact hs2 a a2 contract.1 (hkey.symm.trans hk.symm)
            · cases h1
      · refine ⟨DbOp.del kPlainState (c.full_view_address a), ?_, rfl, hkey⟩
        rw [mem_state_table_ops]
        refine ⟨a, ?_, Or.inl ⟨none, hfind, List.mem_cons_self _ _⟩⟩
        rw [mem_state_table_keys]
        exact Or.inl (OMap.mem_keys_of_mem _ a none (OMap.mem_of_find _ a none hfind))
    · intro a inc key hlook r hr hrow
      obtain ⟨hkey, hpre⟩ := hrow
      unfold storage_lookup at hlook
      cases hf : b.storage_.find a with
      | none => rw [hf] at hlook; cases hlook
      | some contracts =>
        rw [hf, Option.some_bind] at hlook
        cases hf2 : contracts.find inc with
        | none => rw [hf2] at hlook; cases hlook
        | some m =>
          rw [hf2, Option.some_bind] at hlook
          have hmem1 : (a, contracts) ∈ b.storage_ := OMap.mem_of_find _ a contracts hf
          have hmem2 : (inc, m) ∈ contracts := OMap.mem_of_find _ inc m hf2
          have hmem3 : (key, 0) ∈ m := OMap.mem_of_find _ key 0 hlook
          obtain ⟨hord2, hord3⟩ := hord (a, contracts) hmem1
          refine apply_ops_gone kPlainState r (b.state_table_ops c) rows ?_ ?_ hr
          · intro op hop hadd
            rw [mem_state_table_ops] at hop
            obtain ⟨a2, _, h⟩ := hop
            rcases h with ⟨account, _, hin⟩ | ⟨contracts2, hf3, contract, hc, x, hx, hin⟩
            · unfold account_row_ops at hin
              rcases List.mem_cons.mp hin with h1 | h1
              · rw [h1] at hadd; exact hadd
              · cases account with
                | none => cases h1
                | some acc =>
                  rw [List.mem_singleton] at h1
                  rw [h1] at hadd
                  obtain ⟨_, hk, _⟩ := hadd
                  exact hs2 a2 a inc (hk.trans hkey)
            · unfold storage_slot_ops at hin
              rcases List.mem_cons.mp hin with h1 | h1
              · rw [h1] at hadd; exact hadd
              · split at h1
                · rename_i hval
                  rw [List.mem_singleton] at h1
                  rw [h1] at hadd
                  obtain ⟨_, hk, hv⟩ := hadd
                  obtain ⟨ha, hi⟩ := hs3 a2 contract.1 a inc (hk.trans hkey)
                  rw [← hv] at hpre
                  have hkk : key = x.1 := hs4 key x.1 _ hpre
                  subst ha
                  rw [hf] at hf3
                  have hcs : contracts2 = contracts := (Option.some.inj hf3).symm
                  subst hcs
                  have hfc : contracts2.find contract.1 = some contract.2 :=
                    OMap.find_of_mem _ contract.1 contract.2 hord2 hc
                  rw [hi, hf2] at hfc
                  have hm : contract.2 = m := (Option.some.inj hfc).symm
                  have hx2 : m.find x.1 = some x.2 := by
                    rw [← hm]
                    exact OMap.find_of_mem _ x.1 x.2 (hord3 contract hc) hx
                  rw [← hkk, hlook] at hx2
                  exact hval (Option.some.inj hx2).symm
                · cases h1
          · refine ⟨DbOp.del_sub kPlainState ( c.storage_prefix a inc) (c.full_view_hash key), ?_,
              rfl, hkey, hpre⟩
            rw [mem_state_table_ops]
            refine ⟨a, ?_, Or.inr ⟨contracts, hf, (inc, m), hmem2, (key, 0), hmem3,
              List.mem_cons_self _ _⟩⟩
            rw [mem_state_table_keys]
            exact Or.inr (OMap.mem_keys_of_mem _ a contracts hmem1)
    · intro r hclean
      apply apply_ops_untouched
      intro op hop
      rw [mem_state_table_ops] at hop
      obtain ⟨a2, _, h⟩ := hop
      rcases h with ⟨account, hf, hin⟩ | ⟨contracts, hf, contract, hc, x, hx, hin⟩
      · have hdirty : ∀ (hk : r.1 = c.full_view_address a2), False := fun hk =>
          hclean (Or.inl ⟨a2, OMap.mem_keys_of_mem _ a2 account
            (OMap.mem_of_find _ a2 account hf), hk⟩)
        unfold account_row_ops at hin
        rcases List.mem_cons.mp hin with h1 | h1
        · rw [h1]
          exact ⟨fun h => h, fun h => hdirty h.2⟩
        · cases account with
          | none => cases h1
          | some acc =>
            rw [List.mem_singleton] at h1
            rw [h1]
            exact ⟨fun h => hdirty h.2.1.symm, fun h => h⟩
      · have hdirty : ∀ (hk : r.1 = c.storage_prefix a2 contract.1)
            (hp : (c.full_view_hash x.1).isPrefixOf r.2 = true), False := fun hk hp =>
          hclean (Or.inr ⟨(a2, contracts), OMap.mem_of_find _ a2 contracts hf, contract, hc, x,
            hx, hk, hp⟩)
        unfold storage_slot_ops at hin
        rcases List.mem_cons.mp hin with h1 | h1
        · rw [h1]
          exact ⟨fun h => h, fun h => hdirty h.2.1 h.2.2⟩
        · split at h1
          · rw [List.mem_singleton] at h1
            rw [h1]
            refine ⟨fun h => hdirty h.2.1.symm ?_, fun h => h⟩
            rw [← h.2.2]
            simp
          · cases h1

theorem listCodec_separates : listCodec.Separates := by
  unfold Codec.Separates listCodec
  refine ⟨?_, ?_, ?_, ?_⟩
  · intro a1 a2 h
    simpa using h
  · intro a a2 inc h
    simp at h
  · intro a1 i1 a2 i2 h
    simpa using h
  · intro k1 k2 rest h
    simpa using h

/-- Instance of C18: a tombstone, a present account with dirty storage, a present account
without dirty storage and an address with dirty storage only, applied to a table that holds
rows for some of them and for keys the buffer does not know. The new account 3 has its row
afterwards. -/
theorem write_to_state_table_policy_witness :
    listCodec.Separates ∧ mixedBuffer.StorageOrdered
      ∧ mixedBuffer.state_table_keys = [1, 2, 3, 4]
      ∧ mixedBuffer.write_to_state_table listCodec []
        = [DbOp.del kPlainState [1],
           DbOp.del kPlainState [2], DbOp.put kPlainState [2] [1, 50, 0, 0],
           DbOp.del_sub kPlainState [2, 1] [0],
           DbOp.del_sub kPlainState [2, 1] [3], DbOp.put kPlainState [2, 1] [3, 7],
           DbOp.del kPlainState [3], DbOp.put kPlainState [3] [0, 7, 0, 0],
           DbOp.del_sub kPlainState [4, 1] [5], DbOp.put kPlainState [4, 1] [5, 6]]
      ∧ apply_ops kPlainState oldRows (mixedBuffer.state_table_ops listCodec)
          = [([5], [0, 20, 0, 0]), ([2, 1], [4, 8]), ([2], [1, 50, 0, 0]), ([2, 1], [3, 7]),
             ([3], [0, 7, 0, 0]), ([4, 1], [5, 6])]
      ∧ (listCodec.full_view_address 3, listCodec.encode_for_storage (accountOf 0 7) false)
          ∈ apply_ops kPlainState oldRows (mixedBuffer.state_table_ops listCodec) :=
  ⟨listCodec_separates, by unfold Buffer.StorageOrdered OMap.Ordered; decide, by decide,
    (write_to_state_table_policy mixedBuffer listCodec [] oldRows).1.trans (by decide),
    by decide,
    (((write_to_state_table_policy mixedBuffer listCodec [] oldRows).2.2.2.2.2.2
      listCodec_separates (by unfold Buffer.StorageOrdered OMap.Ordered; decide)).2.2.2.1
      3 (accountOf 0 7) (by decide)).1⟩

/-! ## The flush to the store -/

theorem foldl_append_singleton {α β : Type} (f : α → β) :
    ∀ (l : List α) (t : List β), l.foldl (fun t x => t ++ [f x]) t = t ++ l.map f := by
  intro l
  induction l with
  | nil => intro t; simp
  | cons x xs ih =>
    intro t
    rw [List.foldl_cons, ih, List.map_cons, List.append_assoc]
    rfl

/-- The write log after `write_to_db` on a buffer with a store attached. -/
theorem write_to_db_log (b : Buffer) (c : Codec) (txn : List DbOp) (h : b.txn_ = some txn) :
    b.write_to_db c
      = { b with txn_ := some (txn ++ b.state_table_ops c ++ b.incarnation_ops c
            ++ b.code_ops c ++ b.contract_code_ops c) } := by
  unfold Buffer.write_to_db
  rw [h]
  simp only
  rw [write_to_state_table_eq,
    foldl_append_singleton (fun entry : Address × Nat =>
      DbOp.put kIncarnationMap (c.full_view_address entry.1) (c.store_big_u64 entry.2)),
    foldl_append_singleton (fun entry : Hash × Bytes =>
      DbOp.put kCode (c.full_view_hash entry.1) entry.2),
    foldl_append_singleton (fun entry : Bytes × Hash =>
      DbOp.put kPlainContractCode entry.1 (c.full_view_hash entry.2))]
  rfl

/-- The write log after `end_block` on a buffer with a store attached. -/
theorem end_block_log (b : Buffer) (c : Codec) (txn : List DbOp) (h : b.txn_ = some txn) :
    b.end_block c = { b with txn_ := some (txn ++ b.change_set_ops c) } := by
  unfold Buffer.end_block Buffer.change_set_ops
  rw [h]
  cases hs : b.storage_changes_ with
  | nil => simp
  | cons e rest => simp

theorem state_table_ops_table (b : Buffer) (c : Codec) :
    ∀ op ∈ b.state_table_ops c, op.table_name = kPlainState := by
  intro op hop
  rw [mem_state_table_ops] at hop
  obtain ⟨a, _, h⟩ := hop
  rcases h with ⟨account, _, hin⟩ | ⟨contracts, _, contract, _, x, _, hin⟩
  · unfold account_row_ops at hin
    rcases List.mem_cons.mp hin with h1 | h1
    · rw [h1]; rfl
    · cases account with
      | none => cases h1
      | some acc =>
        rw [List.mem_singleton] at h1
        rw [h1]; rfl
  · unfold storage_slot_ops at hin
    rcases List.mem_cons.mp hin with h1 | h1
    · rw [h1]; rfl
    · split at h1
      · rw [List.mem_singleton] at h1
        rw [h1]; rfl
      · cases h1

/-- C19, counterexample. On a buffer with a store attached and entries in both change-sets,
`write_to_db` issues the state-table writes and one put to each of the incarnation, code and
contract-code tables, and nothing to the change-set tables. -/
theorem write_to_db_change_sets_counterexample :
    changeBuffer.account_changes_ ≠ [] ∧ changeBuffer.storage_changes_ ≠ []
      ∧ (changeBuffer.write_to_db listCodec).txn_
          = some [DbOp.del kPlainState [1],
                  DbOp.del kPlainState [2], DbOp.put kPlainState [2] [1, 50, 0, 0],
                  DbOp.del_sub kPlainState [2, 1] [0],
                  DbOp.del_sub kPlainState [2, 1] [3], DbOp.put kPlainState [2, 1] [3, 7],
                  DbOp.put kIncarnationMap [1] [2],
                  DbOp.put kCode [4] [1],
                  DbOp.put kPlainContractCode [2, 1] [4]]
      ∧ DbOp.put kPlainAccountChangeSet [10] [1, 0, 10, 0]
          ∉ ((changeBuffer.write_to_db listCodec).txn_).getD [] := by
  decide

/-- C19, as amended. With a store attached, `write_to_db` writes, in this order, (1) the
state-table upserts, (2) the incarnation map, (3) the code table and (4) the contract-code
map, each group to its own table, and writes no change-set; `end_block` writes (5) the account
change-set under the block key and then (6) the storage change-set under the block key, the
last only if it is not empty. Both change nothing but the write log, so `end_block` run after
`write_to_db` gives the six groups in the order (1) to (6). With no store attached both leave
the buffer as it was. -/
theorem write_to_db_order (b : Buffer) (c : Codec) :
    (b.txn_ = none → b.write_to_db c = b ∧ b.end_block c = b)
      ∧ (∀ txn : List DbOp, b.txn_ = some txn →
          b.write_to_db c
              = { b with txn_ := some (txn ++ b.state_table_ops c ++ b.incarnation_ops c
                    ++ b.code_ops c ++ b.contract_code_ops c) }
            ∧ b.end_block c = { b with txn_ := some (txn ++ b.change_set_ops c) }
            ∧ ((b.write_to_db c).end_block c).txn_
                = some (txn ++ b.state_table_ops c ++ b.incarnation_ops c ++ b.code_ops c
                    ++ b.contract_code_ops c ++ b.change_set_ops c))
      ∧ (∀ op ∈ b.state_table_ops c, op.table_name = kPlainState)
      ∧ (∀ op ∈ b.incarnation_ops c, op.table_name = kIncarnationMap)
      ∧ (∀ op ∈ b.code_ops c, op.table_name = kCode)
      ∧ (∀ op ∈ b.contract_code_ops c, op.table_name = kPlainContractCode)
      ∧ b.change_set_ops c
          = DbOp.put kPlainAccountChangeSet (c.encode_timestamp b.current_block_number_)
              (c.encode_account_changes b.account_changes_) ::
            (if b.storage_changes_ = [] then []
              else [DbOp.put kPlainStorageChangeSet (c.encode_timestamp b.current_block_number_)
                (c.encode_storage_changes b.storage_changes_)]) := by
  refine ⟨?_, ?_, state_table_ops_table b c, ?_, ?_, ?_, rfl⟩
  · intro h
    constructor
    · unfold Buffer.write_to_db
      rw [h]
    · unfold Buffer.end_block
      rw [h]
  · intro txn h
    refine ⟨write_to_db_log b c txn h, end_block_log b c txn h, ?_⟩
    rw [write_to_db_log b c txn h, end_block_log _ c _ rfl]
    rfl
  · intro op hop
    unfold Buffer.incarnation_ops at hop
    obtain ⟨e, _, he⟩ := List.mem_map.mp hop
    rw [← he]; rfl
  · intro op hop
    unfold Buffer.code_ops at hop
    obtain ⟨e, _, he⟩ := List.mem_map.mp hop
    rw [← he]; rfl
  · intro op hop
    unfold Buffer.contract_code_ops at hop
    obtain ⟨e, _, he⟩ := List.mem_map.mp hop
    rw [← he]; rfl

/-- Instance of C19 as amended: `end_block` after `write_to_db` on the buffer of the
counterexample gives the six groups in order. -/
theorem write_to_db_order_witness :
    changeBuffer.txn_ = some []
      ∧ ((changeBuffer.write_to_db listCodec).end_block listCodec).txn_
          = some [DbOp.del kPlainState [1],
                  DbOp.del kPlainState [2], DbOp.put kPlainState [2] [1, 50, 0, 0],
                  DbOp.del_sub kPlainState [2, 1] [0],
                  DbOp.del_sub kPlainState [2, 1] [3], DbOp.put kPlainState [2, 1] [3, 7],
                  DbOp.put kIncarnationMap [1] [2],
                  DbOp.put kCode [4] [1],
                  DbOp.put kPlainContractCode [2, 1] [4],
                  DbOp.put kPlainAccountChangeSet [10] [1, 0, 10, 0],
                  DbOp.put kPlainStorageChangeSet [10] [2, 1, 3, 6]] :=
  ⟨rfl, ((write_to_db_order changeBuffer listCodec).2.1 [] rfl).2.2.trans (by decide)⟩

/-! ## A block with a rejected transaction -/

/-- A run of `execute_transaction` either throws and returns the processor as it was, or
returns what `execute_checked` returns. -/
theorem execute_transaction_shape {σ : Type} (env : Env σ) (p : ExecutionProcessor σ)
    (txn : Transaction) :
    (∃ e, p.execute_transaction env txn = (p, .error e))
      ∨ (∃ nonce g0 sd,
          p.execute_transaction env txn
            = ((p.execute_checked env txn nonce g0 sd).1,
                .ok (p.execute_checked env txn nonce g0 sd).2)) := by
  unfold ExecutionProcessor.execute_transaction
  simp only
  split_ifs
  · exact Or.inl ⟨_, rfl⟩
  · exact Or.inl ⟨_, rfl⟩
  · exact Or.inl ⟨_, rfl⟩
  · exact Or.inl ⟨_, rfl⟩
  · exact Or.inl ⟨_, rfl⟩
  · exact Or.inr ⟨_, _, _, rfl⟩

/-- What a successful run of `execute_transaction` adds to the trace and to the gas log. -/
theorem execute_transaction_ok_trace {σ : Type} (env : Env σ) (p q : ExecutionProcessor σ)
    (txn : Transaction) (r : Receipt) (h : p.execute_transaction env txn = (q, .ok r)) :
    ∃ evs : List Event, q.trace = p.trace ++ evs
      ∧ (∀ e ∈ evs, e.ends_block = false)
      ∧ evs.countP Event.is_evm_execute = 1
      ∧ q.gas_log.map Prod.fst = p.gas_log.map Prod.fst ++ [txn] := by
  rcases execute_transaction_shape env p txn with ⟨e, he⟩ | ⟨nonce, g0, sd, hok⟩
  · rw [he] at h
    cases h
  · rw [hok] at h
    have hq : (p.execute_checked env txn nonce g0 sd).1 = q := congrArg Prod.fst h
    obtain ⟨s, vm_left, ret, gas_used, _, _, _, htrace, hlog, _⟩ :=
      execute_checked_spec env p txn nonce g0 sd
    rw [hq] at htrace hlog
    refine ⟨_, htrace, ?_, ?_, ?_⟩
    · intro e he
      simp only [List.mem_cons, List.mem_singleton, List.not_mem_nil, or_false] at he
      rcases he with h1 | h1 | h1 | h1 <;> (rw [h1]; rfl)
    · rfl
    · rw [hlog]; simp

/-- The loop over the transactions, when it runs to the end: what it adds to the trace and to
the gas log. -/
theorem execute_transactions_trace {σ : Type} (env : Env σ) :
    ∀ (txns : List Transaction) (p q : ExecutionProcessor σ) (acc rs : List Receipt),
      p.execute_transactions env txns acc = (q, .ok rs) →
      ∃ evs : List Event, q.trace = p.trace ++ evs
        ∧ (∀ e ∈ evs, e.ends_block = false)
        ∧ evs.countP Event.is_evm_execute = txns.length
        ∧ q.gas_log.map Prod.fst = p.gas_log.map Prod.fst ++ txns := by
  intro txns
  induction txns with
  | nil =>
    intro p q acc rs h
    simp only [ExecutionProcessor.execute_transactions, Prod.mk.injEq] at h
    obtain ⟨hp, _⟩ := h
    subst hp
    exact ⟨[], by simp, by simp, rfl, by simp⟩
  | cons txn rest ih =>
    intro p q acc rs h
    simp only [ExecutionProcessor.execute_transactions] at h
    cases hstep : p.execute_transaction env txn with
    | mk p1 res =>
      rw [hstep] at h
      cases res with
      | error e => simp at h
      | ok r =>
        simp only at h
        obtain ⟨evs1, ht1, hn1, hc1, hl1⟩ := execute_transaction_ok_trace env p p1 txn r hstep
        obtain ⟨evs2, ht2, hn2, hc2, hl2⟩ := ih p1 q (acc ++ [r]) rs h
        refine ⟨evs1 ++ evs2, ?_, ?_, ?_, ?_⟩
        · rw [ht2, ht1, List.append_assoc]
        · intro e he
          rcases List.mem_append.mp he with h1 | h1
          · exact hn1 e h1
          · exact hn2 e h1
        · rw [List.countP_append, hc1, hc2, List.length_cons]
          omega
        · rw [hl2, hl1]; simp

/-- The loop over a list of transactions in two parts. -/
theorem execute_transactions_append {σ : Type} (env : Env σ) :
    ∀ (pre rest : List Transaction) (p q : ExecutionProcessor σ) (acc rs : List Receipt),
      p.execute_transactions env pre acc = (q, .ok rs) →
      p.execute_transactions env (pre ++ rest) acc = q.execute_transactions env rest rs := by
  intro pre
  induction pre with
  | nil =>
    intro rest p q acc rs h
    simp only [ExecutionProcessor.execute_transactions, Prod.mk.injEq, Except.ok.injEq] at h
    obtain ⟨hp, hr⟩ := h
    subst hp hr
    rfl
  | cons txn more ih =>
    intro rest p q acc rs h
    simp only [List.cons_append, ExecutionProcessor.execute_transactions] at h ⊢
    cases hstep : p.execute_transaction env txn with
    | mk p1 res =>
      rw [hstep] at h
      cases res with
      | error e => simp at h
      | ok r =>
        simp only at h ⊢
        exact ih rest p1 q (acc ++ [r]) rs h

/-- C20. If the transactions before `t` run through and `t` fails a preflight check, then
`ExecutionProcessor::execute_block` throws the `ValidationError` of that check and leaves the
processor as it was right after the last transaction before `t`: since the start of the block
the trace holds one interpreter call per transaction before `t` and neither the call of
`apply_rewards` nor that of `state.write_to_db`, and the gas log holds the transactions before
`t` only, so no later transaction was run and nothing was handed to the buffer. -/
theorem execute_block_no_partial_commit {σ : Type} (env : Env σ) (p q : ExecutionProcessor σ)
    (pre post : List Transaction) (t : Transaction) (rs : List Receipt) (reason : String)
    (hsplit : p.block.transactions = pre ++ t :: post) (hwt : t.WellTyped)
    (hpre : (p.start_block env).execute_transactions env pre [] = (q, .ok rs))
    (hfail : first_failing_check env q t = some reason) :
    p.execute_block env = (q, .error ⟨reason⟩)
      ∧ ∃ evs : List Event, q.trace = p.trace ++ evs
          ∧ (∀ e ∈ evs, e.ends_block = false)
          ∧ Event.apply_rewards ∉ evs
          ∧ (∀ n, Event.write_to_db n ∉ evs)
          ∧ evs.countP Event.is_evm_execute = pre.length
          ∧ q.gas_log.map Prod.fst = p.gas_log.map Prod.fst ++ pre := by
  have hstep : q.execute_transaction env t = (q, .error ⟨reason⟩) := by
    have h2 := (execute_transaction_cases env q t hwt).1 reason hfail
    rcases execute_transaction_shape env q t with ⟨e, he⟩ | ⟨nonce, g0, sd, hok⟩
    · rw [he] at h2 ⊢
      simp only at h2
      rw [h2]
    · rw [hok] at h2
      cases h2
  have hloop : (p.start_block env).execute_transactions env p.block.transactions []
      = (q, .error ⟨reason⟩) := by
    rw [hsplit, execute_transactions_append env pre (t :: post) _ q [] rs hpre]
    simp only [ExecutionProcessor.execute_transactions, hstep]
  obtain ⟨evs, ht, hn, hc, hl⟩ := execute_transactions_trace env pre _ q [] rs hpre
  obtain ⟨_, _, hlog0, htrace0, _⟩ := start_block_frame env p
  refine ⟨(execute_block_unfold env p).1 q _ hloop, evs, ?_, hn, ?_, ?_, hc, ?_⟩
  · rw [ht, htrace0]
  · intro hmem
    have := hn _ hmem
    simp [Event.ends_block] at this
  · intro n hmem
    have := hn _ hmem
    simp [Event.ends_block] at this
  · rw [hl, hlog0]

/-- Instance of C20: the second of three transfers repeats nonce 0 and is rejected; the block
stops there with the trace of the first transfer only. -/
theorem execute_block_no_partial_commit_witness :
    transferTxn.WellTyped
      ∧ first_failing_check ledgerEnv
          (((processorOf (blockOf [transferTxn, transferTxn, transferTxn2] [])
            (10 * kEther)).start_block ledgerEnv).execute_transactions ledgerEnv [transferTxn]
              []).1 transferTxn = some "invalid nonce"
      ∧ ((processorOf (blockOf [transferTxn, transferTxn, transferTxn2] [])
          (10 * kEther)).execute_block ledgerEnv).2 = .error ⟨"invalid nonce"⟩
      ∧ ((processorOf (blockOf [transferTxn, transferTxn, transferTxn2] [])
          (10 * kEther)).execute_block ledgerEnv).1.trace
          = [Event.subtract_from_balance 1 21000000000000, Event.evm_execute 0,
             Event.add_to_balance 1 0, Event.add_to_balance 9 21000000000000] :=
  ⟨by decide, by decide,
    congrArg Prod.snd
      (execute_block_no_partial_commit ledgerEnv
        (processorOf (blockOf [transferTxn, transferTxn, transferTxn2] []) (10 * kEther))
        (((processorOf (blockOf [transferTxn, transferTxn, transferTxn2] [])
          (10 * kEther)).start_block ledgerEnv).execute_transactions ledgerEnv [transferTxn]
            []).1
        [transferTxn] [transferTxn2] transferTxn
        [{ success := true, cumulative_gas_used := 21000, bloom := [], logs := [] }]
        "invalid nonce" rfl (by decide) (Prod.ext rfl (by rfl)) (by decide)).1,
    by decide⟩

/-! ## Ordered maps stay ordered -/

theorem OMap.mem_insert {κ υ : Type} [LinearOrder κ] (m : OMap κ υ) (k : κ) (v : υ)
    (e : κ × υ) (h : e ∈ (OMap.insert_or_assign m k v).1) : e = (k, v) ∨ e ∈ m := by
  induction m with
  | nil =>
    simp only [OMap.insert_or_assign, List.mem_singleton] at h
    exact Or.inl h
  | cons e1 rest ih =>
    obtain ⟨k1, v1⟩ := e1
    unfold OMap.insert_or_assign at h
    by_cases h1 : k < k1
    · rw [if_pos h1] at h
      rcases List.mem_cons.mp h with h2 | h2
      · exact Or.inl h2
      · exact Or.inr h2
    · rw [if_neg h1] at h
      by_cases h2 : k = k1
      · rw [if_pos h2] at h
        rcases List.mem_cons.mp h with h3 | h3
        · exact Or.inl h3
        · exact Or.inr (List.mem_cons_of_mem _ h3)
      · rw [if_neg h2] at h
        rcases List.mem_cons.mp h with h3 | h3
        · exact Or.inr (by rw [h3]; exact List.mem_cons_self _ _)
        · rcases ih h3 with h4 | h4
          · exact Or.inl h4
          · exact Or.inr (List.mem_cons_of_mem _ h4)

/-- `insert_or_assign` keeps the keys strictly ascending. -/
theorem OMap.ordered_insert {κ υ : Type} [LinearOrder κ] (m : OMap κ υ) (k : κ) (v : υ)
    (hord : OMap.Ordered m) : OMap.Ordered (OMap.insert_or_assign m k v).1 := by
  induction m with
  | nil => simp [OMap.insert_or_assign, OMap.Ordered, OMap.keys]
  | cons e1 rest ih =>
    obtain ⟨k1, v1⟩ := e1
    have hord0 := hord
    unfold OMap.Ordered OMap.keys at hord
    rw [List.map_cons, List.pairwise_cons] at hord
    obtain ⟨hhead, htail⟩ := hord
    unfold OMap.insert_or_assign
    by_cases h1 : k < k1
    · rw [if_pos h1]
      unfold OMap.Ordered OMap.keys
      rw [List.map_cons, List.pairwise_cons]
      refine ⟨?_, hord0⟩
      intro x hx
      rw [List.map_cons, List.mem_cons] at hx
      rcases hx with hx | hx
      · rw [hx]; exact h1
      · exact lt_trans h1 (hhead x hx)
    · rw [if_neg h1]
      by_cases h2 : k = k1
      · rw [if_pos h2]
        unfold OMap.Ordered OMap.keys
        rw [List.map_cons, List.pairwise_cons]
        refine ⟨?_, htail⟩
        intro x hx
        rw [h2]
        exact hhead x hx
      · rw [if_neg h2]
        unfold OMap.Ordered OMap.keys
        rw [List.map_cons, List.pairwise_cons]
        refine ⟨?_, ih htail⟩
        intro x hx
        have hx2 : x ∈ OMap.keys (OMap.insert_or_assign rest k v).1 := hx
        rw [OMap.mem_keys_insert] at hx2
        rcases hx2 with hx3 | hx3
        · rw [hx3]
          exact lt_of_le_of_ne (not_lt.mp h1) (fun h => h2 h.symm)
        · exact hhead x hx3

theorem OMap.ordered_nil {κ υ : Type} [LinearOrder κ] : OMap.Ordered ([] : OMap κ υ) := by
  simp [OMap.Ordered, OMap.keys]

/-- The buffers reached from the empty buffer by `update_account` and `update_storage` calls
have ordered inner storage maps. -/
theorem storage_ordered_calls (c : Codec) :
    ∀ (cs : List BufferCall) (b : Buffer), b.StorageOrdered → (b.calls c cs).StorageOrdered := by
  intro cs
  induction cs with
  | nil => intro b h; exact h
  | cons call rest ih =>
    intro b h
    have hstep : b.calls c (call :: rest) = (b.call c call).calls c rest := rfl
    rw [hstep]
    apply ih
    cases call with
    | update_account a initial current =>
      have hst : (b.update_account c a initial current).storage_ = b.storage_ := by
        unfold Buffer.update_account
        simp only
        split
        · rfl
        · split
          · rfl
          · split
            · split <;> rfl
            · rfl
      intro e he
      simp only [Buffer.call, hst] at he
      exact h e he
    | update_storage a inc key initial current =>
      by_cases heq : initial = current
      · simp only [Buffer.call]
        rw [heq, update_storage_skip]
        exact h
      · intro e he
        simp only [Buffer.call,
          (update_storage_fields b c a inc key initial current heq).1] at he
        have hcontracts : OMap.Ordered ((b.storage_.find a).getD [])
            ∧ ∀ contract ∈ (b.storage_.find a).getD [], OMap.Ordered contract.2 := by
          cases hf : b.storage_.find a with
          | none => exact ⟨OMap.ordered_nil, fun _ hc => by cases hc⟩
          | some contracts => exact h (a, contracts) (OMap.mem_of_find _ a contracts hf)
        have hmap : OMap.Ordered ((((b.storage_.find a).getD []).find inc).getD []) := by
          cases hf : ((b.storage_.find a).getD []).find inc with
          | none => exact OMap.ordered_nil
          | some m => exact hcontracts.2 (inc, m) (OMap.mem_of_find _ inc m hf)
        rcases OMap.mem_insert _ _ _ e he with h1 | h1
        · rw [h1]
          refine ⟨OMap.ordered_insert _ _ _ hcontracts.1, ?_⟩
          intro contract hc
          rcases OMap.mem_insert _ _ _ contract hc with h2 | h2
          · rw [h2]
            exact OMap.ordered_insert _ _ _ hmap
          · exact hcontracts.2 contract h2
        · exact h e h1

theorem storage_ordered_empty : Buffer.empty.StorageOrdered := by
  intro e he
  cases he

/-! ## Truncations and the block gas invariant -/

/-- C21. For a well-typed transaction the 512-bit sum `gas_limit * gas_price + value` never
wraps. If moreover the preflight checks pass and the balance of the sender is a 256-bit number,
the truncations of `execute_transaction` lose nothing: the amount debited, the low 256 bits of
the 512-bit product, is the product `gas_limit * gas_price` itself and is at most the balance
of the sender, so the subtraction cannot underflow; and the gas handed to the interpreter,
`gas_limit` minus the low 64 bits of `g0`, is `gas_limit - g0` with `g0 ≤ gas_limit`. These are
the amounts of the first two calls the method makes. -/
theorem preflight_truncations_lossless {σ : Type} (env : Env σ) (p : ExecutionProcessor σ)
    (txn : Transaction) (hwt : txn.WellTyped) :
    ((txn.gas_limit * txn.gas_price) % kU512 + txn.value) % kU512
        = txn.gas_limit * txn.gas_price + txn.value
      ∧ txn.gas_limit * txn.gas_price + txn.value < kU512
      ∧ (first_failing_check env p txn = none →
          env.get_balance p.state (deref txn.from_) < kU256 →
          ∃ (sender : Address) (g0 : Nat) (e3 e4 : Event),
            txn.from_ = some sender
            ∧ g0 = intrinsic_gas env.fee txn (p.config.has_homestead p.block.header.number)
                (p.config.has_istanbul p.block.header.number)
            ∧ (txn.gas_limit * txn.gas_price) % kU512 % kU256 = txn.gas_limit * txn.gas_price
            ∧ txn.gas_limit * txn.gas_price ≤ env.get_balance p.state sender
            ∧ g0 ≤ txn.gas_limit ∧ g0 % kU64 = g0
            ∧ wsub kU64 txn.gas_limit (g0 % kU64) = txn.gas_limit - g0
            ∧ (p.execute_transaction env txn).1.trace
                = p.trace ++ [Event.subtract_from_balance sender (txn.gas_limit * txn.gas_price),
                              Event.evm_execute (txn.gas_limit - g0), e3, e4]) := by
  have hsum : txn.gas_limit * txn.gas_price + txn.value < kU512 := by
    obtain ⟨_, hgl, hgp, hv, _⟩ := hwt
    simp only [kU64, kU256] at hgl hgp hv
    have hprod : txn.gas_limit * txn.gas_price ≤ (2 ^ 64 - 1) * (2 ^ 256 - 1) :=
      Nat.mul_le_mul (by omega) (by omega)
    simp only [kU512]
    omega
  refine ⟨v0_exact txn hwt, hsum, ?_⟩
  intro hpre hbal
  obtain ⟨sender, hfrom, _, h2, h3, _⟩ := first_failing_check_none hpre
  have hgl : txn.gas_limit < kU64 := hwt.2.1
  simp only [hfrom, deref, Option.getD_some] at hbal
  have hdebit : txn.gas_limit * txn.gas_price < kU256 := by omega
  have hm1 : txn.gas_limit * txn.gas_price % kU512 % kU256 = txn.gas_limit * txn.gas_price := by
    have hlt : txn.gas_limit * txn.gas_price < kU512 := by omega
    rw [Nat.mod_eq_of_lt hlt, Nat.mod_eq_of_lt hdebit]
  have hg0 : intrinsic_gas env.fee txn (p.config.has_homestead p.block.header.number)
      (p.config.has_istanbul p.block.header.number) % kU64
      = intrinsic_gas env.fee txn (p.config.has_homestead p.block.header.number)
      (p.config.has_istanbul p.block.header.number) := Nat.mod_eq_of_lt (by omega)
  have hgas : wsub kU64 txn.gas_limit
      (intrinsic_gas env.fee txn (p.config.has_homestead p.block.header.number)
        (p.config.has_istanbul p.block.header.number) % kU64)
      = txn.gas_limit - intrinsic_gas env.fee txn (p.config.has_homestead p.block.header.number)
        (p.config.has_istanbul p.block.header.number) := by
    rw [hg0, wsub_eq_sub h2 hgl]
  obtain ⟨s, vm_left, ret, gas_used, _, _, _, htrace, _⟩ :=
    execute_checked_spec env p txn (env.get_nonce p.state (deref txn.from_))
      (intrinsic_gas env.fee txn (p.config.has_homestead p.block.header.number)
        (p.config.has_istanbul p.block.header.number))
      (p.config.has_spurious_dragon p.block.header.number)
  refine ⟨sender, _, Event.add_to_balance (deref txn.from_) ((ret * txn.gas_price) % kU256),
    Event.add_to_balance p.block.header.beneficiary ((gas_used * txn.gas_price) % kU256),
    hfrom, rfl, hm1, by omega, h2, hg0, hgas, ?_⟩
  rw [execute_transaction_of_pass env p txn hwt hpre, htrace, hm1, hgas, hfrom]
  rfl

/-- Instance of C21: the transfer of scenario 1 by a sender holding 10 ether. -/
theorem preflight_truncations_lossless_witness :
    transferTxn.WellTyped
      ∧ first_failing_check ledgerEnv (processorOf (blockOf [transferTxn] []) (10 * kEther))
          transferTxn = none
      ∧ ledgerEnv.get_balance (processorOf (blockOf [transferTxn] []) (10 * kEther)).state
          (deref transferTxn.from_) < kU256
      ∧ (∃ sender : Address, transferTxn.from_ = some sender
          ∧ transferTxn.gas_limit * transferTxn.gas_price
              ≤ ledgerEnv.get_balance
                  (processorOf (blockOf [transferTxn] []) (10 * kEther)).state sender) := by
  refine ⟨by decide, by decide, by decide, ?_⟩
  obtain ⟨sender, _, _, _, hfrom, _, _, hle, _⟩ :=
    (preflight_truncations_lossless ledgerEnv
      (processorOf (blockOf [transferTxn] []) (10 * kEther)) transferTxn (by decide)).2.2
      (by decide) (by decide)
  exact ⟨sender, hfrom, hle⟩

/-- C23. Assume the interpreter never returns more gas than it was given, the transactions are
well-typed and the block gas limit is a 64-bit number. After any transactions of the block that
ran through from the start of the block, `cumulative_gas_used_ ≤ header.gas_limit`; so the
subtraction in `available_gas` does not wrap, the check `available_gas() < txn.gas_limit` of a
next transaction holds exactly when `cumulative_gas_used_ + txn.gas_limit` exceeds the block
gas limit, and when the next transaction runs through with gas used `g`, the sum
`cumulative_gas_used_ + g` fits 64 bits, is the new counter, and is again at most the block gas
limit. -/
theorem block_gas_invariant {σ : Type} (env : Env σ) (p q : ExecutionProcessor σ)
    (pre : List Transaction) (rs : List Receipt)
    (hwt : ∀ t ∈ pre, t.WellTyped) (hhdr : p.block.header.gas_limit < kU64)
    (hinterp : ∀ s t g, (env.execute s t g).2.gas_left ≤ g)
    (hrun : (p.start_block env).execute_transactions env pre [] = (q, .ok rs)) :
    q.cumulative_gas_used_ ≤ p.block.header.gas_limit
      ∧ q.block = p.block
      ∧ q.available_gas = p.block.header.gas_limit - q.cumulative_gas_used_
      ∧ (∀ t : Transaction,
          q.available_gas < t.gas_limit
            ↔ p.block.header.gas_limit < q.cumulative_gas_used_ + t.gas_limit)
      ∧ (∀ (t : Transaction) (q2 : ExecutionProcessor σ) (r : Receipt), t.WellTyped →
          q.execute_transaction env t = (q2, .ok r) →
          ∃ g, q2.gas_log = q.gas_log ++ [(t, g)]
            ∧ q.cumulative_gas_used_ + g < kU64
            ∧ (q.cumulative_gas_used_ + g) % kU64 = q.cumulative_gas_used_ + g
            ∧ q2.cumulative_gas_used_ = q.cumulative_gas_used_ + g
            ∧ q2.cumulative_gas_used_ ≤ p.block.header.gas_limit) := by
  obtain ⟨hb, _, _, _, hc⟩ := start_block_frame env p
  obtain ⟨_, _, _, _, _, _, _, _, _, _, hqb, _, _, hle⟩ :=
    execute_transactions_spec env hinterp pre (p.start_block env) q [] rs hwt
      (by rw [hb]; exact hhdr) (by rw [hc]; exact Nat.zero_le _) hrun
  rw [hb] at hle hqb
  have havail : q.available_gas = p.block.header.gas_limit - q.cumulative_gas_used_ := by
    unfold ExecutionProcessor.available_gas
    rw [hqb]
    exact wsub_eq_sub hle hhdr
  refine ⟨hle, hqb, havail, ?_, ?_⟩
  · intro t
    rw [havail]
    omega
  · intro t q2 r hwt2 hstep
    obtain ⟨g, _, hlog, hcum, _, hle2, _, _⟩ :=
      execute_transaction_step env q q2 t r hwt2 (by rw [hqb]; exact hhdr)
        (by rw [hqb]; exact hle) hinterp hstep
    rw [hqb] at hle2
    have hlt : q.cumulative_gas_used_ + g < kU64 := by omega
    exact ⟨g, hlog, hlt, Nat.mod_eq_of_lt hlt, hcum, hle2⟩

/-- Instance of C23: after the first of two transfers the counter is 21000, below the block gas
limit of 8000000. -/
theorem block_gas_invariant_witness :
    (processorOf (blockOf [transferTxn, transferTxn2] []) (10 * kEther)).block.header.gas_limit
        < kU64
      ∧ (((processorOf (blockOf [transferTxn, transferTxn2] []) (10 * kEther)).start_block
          ledgerEnv).execute_transactions ledgerEnv [transferTxn] []).1.cumulative_gas_used_
          = 21000
      ∧ (((processorOf (blockOf [transferTxn, transferTxn2] []) (10 * kEther)).start_block
          ledgerEnv).execute_transactions ledgerEnv [transferTxn] []).1.cumulative_gas_used_
          ≤ (processorOf (blockOf [transferTxn, transferTxn2] [])
              (10 * kEther)).block.header.gas_limit :=
  ⟨by decide, by decide,
    (block_gas_invariant ledgerEnv
      (processorOf (blockOf [transferTxn, transferTxn2] []) (10 * kEther))
      (((processorOf (blockOf [transferTxn, transferTxn2] []) (10 * kEther)).start_block
          ledgerEnv).execute_transactions ledgerEnv [transferTxn] []).1
      [transferTxn]
      [{ success := true, cumulative_gas_used := 21000, bloom := [], logs := [] }]
      (by decide) (by decide) (fun _ _ _ => Nat.le_refl _) (Prod.ext rfl (by rfl))).1⟩

/-! ## The state-table batch does not depend on the order of the calls -/

/-- Assigning twice under the same key keeps the second value only. -/
theorem OMap.insert_insert {κ υ : Type} [LinearOrder κ] (m : OMap κ υ) (k : κ) (v1 v2 : υ) :
    (OMap.insert_or_assign (OMap.insert_or_assign m k v1).1 k v2).1
      = (OMap.insert_or_assign m k v2).1 := by
  induction m with
  | nil => simp [OMap.insert_or_assign]
  | cons e rest ih =>
    obtain ⟨k1, w⟩ := e
    by_cases h1 : k < k1
    · simp [OMap.insert_or_assign, h1]
    · by_cases h2 : k = k1
      · subst h2; simp [OMap.insert_or_assign]
      · simp [OMap.insert_or_assign, h1, h2, ih]

/-- Assignments under two different keys commute. -/
theorem OMap.insert_comm {κ υ : Type} [LinearOrder κ] (m : OMap κ υ) (k1 k2 : κ) (v1 v2 : υ)
    (hne : k1 ≠ k2) :
    (OMap.insert_or_assign (OMap.insert_or_assign m k1 v1).1 k2 v2).1
      = (OMap.insert_or_assign (OMap.insert_or_assign m k2 v2).1 k1 v1).1 := by
  have hne2 : k2 ≠ k1 := Ne.symm hne
  induction m with
  | nil =>
    rcases lt_or_gt_of_ne hne with h | h
    · simp [OMap.insert_or_assign, h, not_lt_of_gt h, hne, hne2]
    · simp [OMap.insert_or_assign, h, not_lt_of_gt h, hne, hne2]
  | cons e rest ih =>
    obtain ⟨k, w⟩ := e
    rcases lt_trichotomy k1 k with a | a | a <;> rcases lt_trichotomy k2 k with b | b | b
    · rcases lt_or_gt_of_ne hne with h | h
      · simp [OMap.insert_or_assign, a, b, h, not_lt_of_gt h, hne, hne2]
      · simp [OMap.insert_or_assign, a, b, h, not_lt_of_gt h, hne, hne2]
    · subst b
      simp [OMap.insert_or_assign, a, not_lt_of_gt a, hne, hne2]
    · have h : k1 < k2 := lt_trans a b
      simp [OMap.insert_or_assign, a, b, not_lt_of_gt b, ne_of_gt b, h, not_lt_of_gt h, hne, hne2]
    · subst a
      simp [OMap.insert_or_assign, b, not_lt_of_gt b, hne, hne2]
    · exact absurd (a.trans b.symm) hne
    · subst a
      simp [OMap.insert_or_assign, b, not_lt_of_gt b, ne_of_gt b, hne, hne2]
    · have h : k2 < k1 := lt_trans b a
      simp [OMap.insert_or_assign, a, b, not_lt_of_gt a, ne_of_gt a, h, not_lt_of_gt h, hne, hne2]
    · subst b
      simp [OMap.insert_or_assign, a, not_lt_of_gt a, ne_of_gt a, hne, hne2]
    · simp [OMap.insert_or_assign, a, b, not_lt_of_gt a, ne_of_gt a, not_lt_of_gt b, ne_of_gt b, ih]

/-- Two modifications under the same key compose. -/
theorem OMap.modify_at_same {κ υ : Type} [LinearOrder κ] (d : υ) (m : OMap κ υ) (k : κ)
    (f g : υ → υ) :
    OMap.modify_at d (OMap.modify_at d m k f) k g = OMap.modify_at d m k (fun x => g (f x)) := by
  unfold OMap.modify_at
  rw [OMap.find_insert_self, OMap.insert_insert]
  rfl

/-- Modifications under two different keys commute. -/
theorem OMap.modify_at_comm {κ υ : Type} [LinearOrder κ] (d : υ) (m : OMap κ υ) (k1 k2 : κ)
    (f g : υ → υ) (hne : k1 ≠ k2) :
    OMap.modify_at d (OMap.modify_at d m k1 f) k2 g
      = OMap.modify_at d (OMap.modify_at d m k2 g) k1 f := by
  unfold OMap.modify_at
  rw [OMap.find_insert_ne _ k1 k2 _ (Ne.symm hne), OMap.find_insert_ne _ k2 k1 _ hne]
  exact OMap.insert_comm m k1 k2 _ _ hne

/-- The state-table batch reads the fields `accounts_` and `storage_` only. -/
theorem write_to_state_table_congr (c : Codec) (b1 b2 : Buffer) (txn : List DbOp)
    (hacc : b1.accounts_ = b2.accounts_) (hst : b1.storage_ = b2.storage_) :
    b1.write_to_state_table c txn = b2.write_to_state_table c txn := by
  unfold Buffer.write_to_state_table Buffer.state_table_keys
  rw [hacc, hst]

/-- The method `update_account` leaves `storage_` alone. -/
theorem update_account_storage (b : Buffer) (c : Codec) (a : Address)
    (initial current : Option Account) :
    (b.update_account c a initial current).storage_ = b.storage_ := by
  unfold Buffer.update_account
  simp only
  split
  · rfl
  · split
    · rfl
    · split
      · split <;> rfl
      · rfl

/-- The method `update_storage` leaves `accounts_` alone. -/
theorem update_storage_accounts (b : Buffer) (c : Codec) (a : Address) (inc : Nat)
    (key initial current : Hash) :
    (b.update_storage c a inc key initial current).accounts_ = b.accounts_ := by
  unfold Buffer.update_storage
  split <;> rfl

/-- The value of `storage_` after an `update_storage` that changes the slot. -/
theorem update_storage_storage_assign (b : Buffer) (c : Codec) (a : Address) (inc : Nat)
    (key initial current : Hash) (h : initial ≠ current) :
    (b.update_storage c a inc key initial current).storage_
      = storage_assign b.storage_ a inc key current :=
  (update_storage_fields b c a inc key initial current h).1

/-- What one call does to the fields `accounts_` and `storage_`. -/
theorem call_dirty_maps (c : Codec) (b : Buffer) (x : BufferCall) :
    ((b.call c x).accounts_, (b.call c x).storage_)
      = BufferCall.on_maps (b.accounts_, b.storage_) x := by
  cases x with
  | update_account a initial current =>
    simp only [Buffer.call, BufferCall.on_maps]
    rw [update_account_storage]
    by_cases h : current = initial
    · subst h
      rw [if_pos rfl, (update_account_accounts_of_eq b c a current).1]
    · rw [if_neg h, (update_account_accounts_of_ne b c a initial current (fun e => h e.symm)).1]
  | update_storage a inc key initial current =>
    simp only [Buffer.call, BufferCall.on_maps]
    rw [update_storage_accounts]
    by_cases h : current = initial
    · subst h
      rw [if_pos rfl, update_storage_skip]
    · rw [if_neg h, update_storage_storage_assign b c a inc key initial current
        (fun e => h e.symm)]

/-- What a sequence of calls does to the fields `accounts_` and `storage_`. -/
theorem calls_dirty_maps (c : Codec) :
    ∀ (l : List BufferCall) (b : Buffer),
      ((b.calls c l).accounts_, (b.calls c l).storage_)
        = l.foldl BufferCall.on_maps (b.accounts_, b.storage_) := by
  intro l
  induction l with
  | nil => intro b; rfl
  | cons x rest ih =>
    intro b
    have hstep : b.calls c (x :: rest) = (b.call c x).calls c rest := rfl
    rw [hstep, ih, call_dirty_maps, List.foldl_cons]

/-- Assignments of two different slots of the dirty storage commute. -/
theorem storage_assign_comm (st : OMap Address (OMap Nat (OMap Hash Hash)))
    (a1 : Address) (i1 : Nat) (k1 v1 : Hash) (a2 : Address) (i2 : Nat) (k2 v2 : Hash)
    (hne : (a1, i1, k1) ≠ (a2, i2, k2)) :
    storage_assign (storage_assign st a1 i1 k1 v1) a2 i2 k2 v2
      = storage_assign (storage_assign st a2 i2 k2 v2) a1 i1 k1 v1 := by
  unfold storage_assign
  by_cases ha : a1 = a2
  · subst ha
    rw [OMap.modify_at_same, OMap.modify_at_same]
    congr 1
    funext contracts
    by_cases hi : i1 = i2
    · subst hi
      rw [OMap.modify_at_same, OMap.modify_at_same]
      congr 1
      funext m
      exact OMap.insert_comm m k1 k2 v1 v2 (fun e => hne (by rw [e]))
    · exact OMap.modify_at_comm [] contracts i1 i2 _ _ hi
  · exact OMap.modify_at_comm [] st a1 a2 _ _ ha

/-- Two calls that write different keys commute on the fields `accounts_` and `storage_`. -/
theorem on_maps_comm
    (z : OMap Address (Option Account) × OMap Address (OMap Nat (OMap Hash Hash)))
    (x y : BufferCall) (hne : x.key ≠ y.key) :
    BufferCall.on_maps (BufferCall.on_maps z x) y
      = BufferCall.on_maps (BufferCall.on_maps z y) x := by
  cases x with
  | update_account a1 i1 c1 =>
    cases y with
    | update_account a2 i2 c2 =>
      have ha : a1 ≠ a2 := fun e => hne (by rw [e]; rfl)
      simp only [BufferCall.on_maps]
      by_cases h1 : c1 = i1
      · by_cases h2 : c2 = i2
        · simp only [if_pos h1, if_pos h2]
        · simp only [if_pos h1, if_neg h2]
      · by_cases h2 : c2 = i2
        · simp only [if_neg h1, if_pos h2]
        · simp only [if_neg h1, if_neg h2]
          rw [OMap.insert_comm z.1 a1 a2 c1 c2 ha]
    | update_storage a2 n2 k2 i2 c2 => rfl
  | update_storage a1 n1 k1 i1 c1 =>
    cases y with
    | update_account a2 i2 c2 => rfl
    | update_storage a2 n2 k2 i2 c2 =>
      have hk : (a1, n1, k1) ≠ (a2, n2, k2) := fun e => hne (by
        show Sum.inr (a1, n1, k1) = Sum.inr (a2, n2, k2)
        rw [e])
      simp only [BufferCall.on_maps]
      by_cases h1 : c1 = i1
      · by_cases h2 : c2 = i2
        · simp only [if_pos h1, if_pos h2]
        · simp only [if_pos h1, if_neg h2]
      · by_cases h2 : c2 = i2
        · simp only [if_neg h1, if_pos h2]
        · simp only [if_neg h1, if_neg h2]
          rw [storage_assign_comm z.2 a1 n1 k1 c1 a2 n2 k2 c2 hk]

/-- Two sequences of calls that are permutations of each other over pairwise distinct keys leave
the same `accounts_` and the same `storage_`. -/
theorem calls_perm_dirty_maps (c : Codec) (b : Buffer) (l1 l2 : List BufferCall)
    (hperm : l1.Perm l2) (hkeys : l1.Pairwise (fun x y => x.key ≠ y.key)) :
    (b.calls c l1).accounts_ = (b.calls c l2).accounts_
      ∧ (b.calls c l1).storage_ = (b.calls c l2).storage_ := by
  have hsymm : Symmetric (fun x y : BufferCall => x.key ≠ y.key) := fun _ _ h => Ne.symm h
  have hcomm : ∀ x ∈ l1, ∀ y ∈ l1, ∀ z,
      BufferCall.on_maps (BufferCall.on_maps z x) y
        = BufferCall.on_maps (BufferCall.on_maps z y) x := by
    intro x hx y hy z
    by_cases hxy : x = y
    · rw [hxy]
    · exact on_maps_comm z x y (hkeys.forall hsymm hx hy hxy)
  have h := List.Perm.foldl_eq' hperm hcomm (b.accounts_, b.storage_)
  rw [← calls_dirty_maps, ← calls_dirty_maps] at h
  exact ⟨congrArg Prod.fst h, congrArg Prod.snd h⟩

/-- C22. The state-table batch is deterministic and does not depend on the insertion order.
For every buffer, the key set visited by `write_to_state_table` is strictly ascending, so it
holds each address once, and it holds exactly the addresses of `accounts_` and of `storage_`;
the writes appended to the log are those of the state-table policy taken over that key set in
its order; and a buffer with the same `accounts_` and the same `storage_` emits the same
writes. Hence two sequences of `update_account` and `update_storage` calls that are
permutations of each other and write pairwise distinct keys (an address of `accounts_`, or an
address, incarnation and slot of `storage_`), run on the same buffer, leave the same
`accounts_` and `storage_` and produce the same state-table output. -/
theorem state_table_batch_deterministic (c : Codec) (b : Buffer) (txn : List DbOp) :
    b.state_table_keys.Pairwise (fun x y => x < y)
      ∧ b.state_table_keys.Nodup
      ∧ (∀ x, x ∈ b.state_table_keys ↔ x ∈ b.accounts_.keys ∨ x ∈ b.storage_.keys)
      ∧ b.write_to_state_table c txn = txn ++ b.state_table_ops c
      ∧ (∀ b2 : Buffer, b2.accounts_ = b.accounts_ → b2.storage_ = b.storage_ →
          b2.write_to_state_table c txn = b.write_to_state_table c txn)
      ∧ (∀ l1 l2 : List BufferCall, l1.Perm l2 →
          l1.Pairwise (fun x y => x.key ≠ y.key) →
          (b.calls c l1).accounts_ = (b.calls c l2).accounts_
            ∧ (b.calls c l1).storage_ = (b.calls c l2).storage_
            ∧ (b.calls c l1).write_to_state_table c txn
                = (b.calls c l2).write_to_state_table c txn) := by
  refine ⟨state_table_keys_sorted b, ?_, mem_state_table_keys b,
    write_to_state_table_eq b c txn, ?_, ?_⟩
  · exact (state_table_keys_sorted b).imp (fun h => ne_of_lt h)
  · intro b2 hacc hst
    exact write_to_state_table_congr c b2 b txn hacc hst
  · intro l1 l2 hperm hkeys
    obtain ⟨hacc, hst⟩ := calls_perm_dirty_maps c b l1 l2 hperm hkeys
    exact ⟨hacc, hst, write_to_state_table_congr c _ _ txn hacc hst⟩

/-- Instance of C22: the four calls of `batchCalls` and the same calls in the order of
`batchCallsShuffled`, run on the empty buffer, emit the same seven writes, those of address 1
before those of address 2. -/
theorem state_table_batch_deterministic_witness :
    batchCalls.Perm batchCallsShuffled
      ∧ batchCalls.Pairwise (fun x y => x.key ≠ y.key)
      ∧ (Buffer.empty.calls listCodec batchCalls).write_to_state_table listCodec []
          = (Buffer.empty.calls listCodec batchCallsShuffled).write_to_state_table listCodec []
      ∧ (Buffer.empty.calls listCodec batchCalls).write_to_state_table listCodec []
          = [DbOp.del kPlainState [1], DbOp.del_sub kPlainState [1, 1] [0],
              DbOp.put kPlainState [1, 1] [0, 5], DbOp.del kPlainState [2],
              DbOp.put kPlainState [2] [1, 50, 0, 0], DbOp.del_sub kPlainState [2, 1] [3],
              DbOp.put kPlainState [2, 1] [3, 7]] :=
  ⟨by decide, by decide,
    ((state_table_batch_deterministic listCodec Buffer.empty []).2.2.2.2.2
      batchCalls batchCallsShuffled (by decide) (by decide)).2.2,
    by decide⟩

end Silkworm
